import Mathlib

/-!
Verification of the NovaCRM assistant core pipeline.

This file gives a shallow embedding, in Lean, of the query-processing
pipeline of the NovaCRM assistant (`app/graph.py`, `app/validation.py`,
`app/mcp_client.py`, `app/retriever.py`) and proves or refutes the
specification claims about it.

Modelling conventions:
* Python strings are `String` (lists of `Char`); `len`, slicing, `in`,
  `str.replace`, `str.strip`, `str.split`, `str.lower` are embedded as
  executable Lean functions with Python semantics.
* Python's `re` word/digit/space character classes are modelled over the
  ASCII range (the repository only ever feeds ASCII queries and patterns).
* The regular expressions used by the source are hand-compiled into
  backtracking matchers that follow Python's leftmost / greedy-with-
  backtracking search order exactly (each matcher mirrors one concrete
  pattern of the source; they were differentially checked against CPython).
* External collaborators (classification / synthesis / justification
  oracles, the retriever, the MCP tool invoker) are inputs of the pipeline
  functions; a raising collaborator is an `Except.error` value and the
  embedding of every `try/except` block is the `match` on that value.
* Mutable state (the LangGraph state record, the validator statistics) is
  passed and returned explicitly.
-/

namespace NovaCRM

/-! ### Character classes (ASCII model of Python `re` classes) -/

/-- Python `\w` (ASCII model): letters, digits, underscore. -/
def isWordC (c : Char) : Bool :=
  c.isAlphanum || c = '_'

/-- ASCII digit, Python `\d` / `[0-9]` (ASCII model). -/
def isDigC (c : Char) : Bool :=
  c.isDigit

/-- Python `\s` / `str.split()` / `str.strip()` whitespace (ASCII model). -/
def isPyWs (c : Char) : Bool :=
  c = ' ' || c = '\t' || c = '\n' || c = '\r' || c = '\x0b' || c = '\x0c'

/-- A single-quote character, built from its code point. -/
def sq : String :=
  (Char.ofNat 39).toString

/-! ### Python string primitives -/

/-- Python `sub in s` on character lists: some contiguous occurrence. -/
def occursB (pat : List Char) : List Char → Bool
  | [] => pat.isEmpty
  | c :: t => pat.isPrefixOf (c :: t) || occursB pat t

/-- Python `sub in s` for strings. -/
def strContains (s sub : String) : Bool :=
  occursB sub.data s.data

/-- Python `str.replace(pat, rep)` (all occurrences, left to right),
on character lists.  The `pat ≠ []` guard only rules out the degenerate
empty pattern, which the source never uses. -/
def replaceAll (s pat rep : List Char) : List Char :=
  match s with
  | [] => []
  | c :: t =>
    if pat.isPrefixOf (c :: t) ∧ pat ≠ [] then
      rep ++ replaceAll ((c :: t).drop pat.length) pat rep
    else
      c :: replaceAll t pat rep
termination_by s.length
decreasing_by
  · simp only [List.length_drop]
    have hp : pat.length ≠ 0 := by
      intro h
      exact (by assumption : pat.isPrefixOf (c :: t) ∧ pat ≠ []).2 (List.eq_nil_of_length_eq_zero h)
    simp [List.length_cons]
    omega
  · simp [List.length_cons]

/-- Python `str.replace` for strings. -/
def strReplace (s pat rep : String) : String :=
  (replaceAll s.data pat.data rep.data).asString

/-- Python `str.lower()` (ASCII model). -/
def pyLower (s : String) : String :=
  String.mk (s.data.map Char.toLower)

/-- Python `str.upper()` (ASCII model). -/
def pyUpper (s : String) : String :=
  String.mk (s.data.map Char.toUpper)

/-- Join a list of strings with a separator (`sep.join(xs)`). -/
def joinSep (sep : String) (xs : List String) : String :=
  String.mk (List.intercalate sep.data (xs.map String.data))

/-- Concatenate a list of strings (`"".join(xs)`). -/
def joinAll (xs : List String) : String :=
  String.mk (xs.map String.data).flatten

/-- Split a character list at every occurrence of `c`. -/
def splitChar (c : Char) : List Char → List (List Char)
  | [] => [[]]
  | x :: t =>
    match splitChar c t with
    | [] => if x = c then [[], []] else [[x]]
    | h :: t2 => if x = c then [] :: h :: t2 else (x :: h) :: t2

/-- `e.split(":")[0]`: the segment before the first colon (the whole
string when there is none, matching the source's guarded use). -/
def colonHead (e : String) : String :=
  String.mk (e.data.takeWhile fun c => c ≠ ':')

/-- Python `str.strip()` on character lists: drop leading and trailing
whitespace. -/
def pyStripL (s : List Char) : List Char :=
  ((s.dropWhile isPyWs).reverse.dropWhile isPyWs).reverse

/-- Python `str.strip()` for strings. -/
def pyStrip (s : String) : String :=
  (pyStripL s.data).asString

/-- Worker for Python `str.split()`: whitespace runs separate tokens,
empty tokens are dropped.  `acc` holds the current token, reversed. -/
def pySplitGo : List Char → List Char → List String
  | [], acc => if acc.isEmpty then [] else [acc.reverse.asString]
  | c :: t, acc =>
    if isPyWs c then
      if acc.isEmpty then pySplitGo t [] else acc.reverse.asString :: pySplitGo t []
    else
      pySplitGo t (c :: acc)

/-- Python `str.split()` (no argument). -/
def pySplit (s : String) : List String :=
  pySplitGo s.data []

/-- Python `str.zfill(n)` for the sign-free strings the source feeds it. -/
def pyZfill (n : Nat) (s : String) : String :=
  if n ≤ s.length then s else (List.replicate (n - s.length) '0').asString ++ s

/-- Python `s[:n]` for strings. -/
def pyTake (n : Nat) (s : String) : String :=
  (s.data.take n).asString

/-- Python `str.title()` worker (ASCII model): uppercase a letter that
does not follow a letter, lowercase the others. -/
def pyTitleGo : Bool → List Char → List Char
  | _, [] => []
  | prevAlpha, c :: t =>
    (if c.isAlpha then (if prevAlpha then c.toLower else c.toUpper) else c) ::
      pyTitleGo c.isAlpha t

/-- Python `str.title()` (ASCII model). -/
def pyTitle (s : String) : String :=
  (pyTitleGo false s.data).asString

/-- Case-insensitive substring test, Python
`re.search(literal, s, re.IGNORECASE)` for a metacharacter-free literal. -/
def containsCI (s pat : String) : Bool :=
  strContains (pyLower s) (pyLower pat)

/-- `Path(p).name` for the POSIX-style source paths the retriever stores:
the last nonempty `/`-separated component. -/
def pathName (p : String) : String :=
  ((((splitChar '/' p.data).map String.mk).filter
    (fun x => ¬ x.data.isEmpty)).getLastD "")

/-! ### `SafetyGuardrails.validate_tool_params` (`app/validation.py`) -/

/-- Result record of `validate_tool_params`. -/
structure ParamValidation where
  is_valid : Bool
  errors : List String
deriving Repr, DecidableEq

/-- Parameter mappings are insertion-ordered string-to-string maps,
exactly the shape `_determine_tool_calls` produces. -/
abbrev Params := List (String × String)

/-- `k in params`. -/
def hasKey (params : Params) (k : String) : Bool :=
  (params.lookup k).isSome

/-- `params[k]`, defaulting to `""` (the source only reads present keys). -/
def getKey (params : Params) (k : String) : String :=
  (params.lookup k).getD ""

/-- `re.match(r'^A\d{3}$', v)`: `A`, three digits, then end of string
(Python's `$` also accepts one trailing newline). -/
def shapeA3 (v : String) : Bool :=
  match v.data with
  | 'A' :: d1 :: d2 :: d3 :: rest =>
    isDigC d1 && isDigC d2 && isDigC d3 && (rest.isEmpty || rest = ['\n'])
  | _ => false

/-- `re.match(r'^\d{4}-\d{2}$', v)`: four digits, `-`, two digits, end
(Python's `$` also accepts one trailing newline). -/
def shapeYM (v : String) : Bool :=
  match v.data with
  | a :: b :: c :: d :: '-' :: e :: f :: rest =>
    isDigC a && isDigC b && isDigC c && isDigC d && isDigC e && isDigC f &&
      (rest.isEmpty || rest = ['\n'])
  | _ => false

/-- Python `int(v)` on a string: optional surrounding whitespace, optional
sign, then a nonempty digit run (the underscore-grouping extension is not
modelled; the source never produces it). -/
def pyParseInt (v : String) : Option Int :=
  let core := pyStripL v.data
  let (neg, digs) :=
    match core with
    | '-' :: t => (true, t)
    | '+' :: t => (false, t)
    | t => (false, t)
  if digs.isEmpty || ¬ digs.all isDigC then
    none
  else
    let n : Nat := digs.foldl (fun acc c => acc * 10 + (c.toNat - 48)) 0
    some (if neg then -(n : Int) else (n : Int))

/-- `SafetyGuardrails.validate_tool_params` (`app/validation.py`):
per-tool schema checks; an unknown tool name takes no branch and is
reported valid with no errors. -/
def validate_tool_params (tool_name : String) (params : Params) : ParamValidation :=
  let errors : List String :=
    if tool_name = "account_lookup" then
      (if ¬ hasKey params "account_id" ∧ ¬ hasKey params "company" then
        ["account_lookup requires either account_id or company parameter"] else []) ++
      (if hasKey params "account_id" ∧ ¬ shapeA3 (getKey params "account_id") then
        ["Invalid account_id format: " ++ getKey params "account_id"] else [])
    else if tool_name = "invoice_status" then
      (if ¬ hasKey params "account_id" then
        ["invoice_status requires account_id parameter"] else []) ++
      (if hasKey params "period" ∧ ¬ shapeYM (getKey params "period") then
        ["Invalid period format: " ++ getKey params "period"] else [])
    else if tool_name = "ticket_summary" then
      (if ¬ hasKey params "account_id" then
        ["ticket_summary requires account_id parameter"] else []) ++
      (if hasKey params "window_days" then
        match pyParseInt (getKey params "window_days") with
        | some d => if d < 1 ∨ 365 < d then ["window_days must be between 1 and 365"] else []
        | none => ["window_days must be an integer"]
      else [])
    else if tool_name = "usage_report" then
      (if ¬ hasKey params "account_id" ∨ ¬ hasKey params "month" then
        ["usage_report requires account_id and month parameters"] else []) ++
      (if hasKey params "month" ∧ ¬ shapeYM (getKey params "month") then
        ["Invalid month format: " ++ getKey params "month"] else [])
    else if tool_name = "kb_search" then
      (if ¬ hasKey params "query" then
        ["kb_search requires query parameter"] else []) ++
      (if hasKey params "k" then
        match pyParseInt (getKey params "k") with
        | some k => if k < 1 ∨ 20 < k then ["k must be between 1 and 20"] else []
        | none => ["k must be an integer"]
      else [])
    else []
  { is_valid := errors.isEmpty, errors := errors }

/-! ### PII patterns (`SafetyGuardrails.pii_patterns`, `app/validation.py`)

Each of the four regexes is hand-compiled to a matcher
`List Char → Nat → Option Nat` returning the length of the match at a
position, following Python's backtracking order (greedy `?`/`+`/`{m,}`
with ordered alternatives). -/

/-- Python `\b` between positions `i-1` and `i` (ASCII word model):
exactly one side is a word character; out of range counts as non-word. -/
def wordB (s : List Char) (i : Nat) : Bool :=
  let a := if i = 0 then false else ((s.get? (i - 1)).map isWordC).getD false
  let b := ((s.get? i).map isWordC).getD false
  a != b

/-- Length of the maximal run of class `cls` starting at `i`. -/
def runLen (cls : Char → Bool) (s : List Char) (i : Nat) : Nat :=
  ((s.drop i).takeWhile cls).length

/-- Position after `n` digits starting at `i`, if present. -/
def digsN (s : List Char) (i n : Nat) : Option Nat :=
  if n ≤ (s.drop i).length ∧ ((s.drop i).take n).all isDigC then some (i + n) else none

/-- Positions to try, in backtracking order, for an optional single
character satisfying `cls` at `i` (`X?` tries consuming first). -/
def optCls (cls : Char → Bool) (s : List Char) (i : Nat) : List Nat :=
  if ((s.get? i).map cls).getD false then [i + 1, i] else [i]

/-- First success of `k` over candidate positions, in order. -/
def tryEach (ps : List Nat) (k : Nat → Option Nat) : Option Nat :=
  ps.findSome? k

/-- Local-part class of the email pattern: `[A-Za-z0-9._%+-]`. -/
def emailLocalC (c : Char) : Bool :=
  c.isAlphanum || c = '.' || c = '_' || c = '%' || c = '+' || c = '-'

/-- Domain class of the email pattern: `[A-Za-z0-9.-]`. -/
def emailDomC (c : Char) : Bool :=
  c.isAlphanum || c = '.' || c = '-'

/-- Top-level-domain class of the email pattern: `[A-Z|a-z]`
(the source's class literally contains `|`). -/
def emailTldC (c : Char) : Bool :=
  c.isAlpha || c = '|'

/-- Backtracking over the `{2,}` TLD length, longest first: at length
`t` the match ends at `p + 1 + t` and needs a trailing `\b`. -/
def emailTldTry (s : List Char) (i p : Nat) : Nat → Option Nat
  | 0 => none
  | Nat.succ t =>
    if 2 ≤ Nat.succ t ∧ wordB s (p + 1 + Nat.succ t) then
      some (p + 1 + Nat.succ t - i)
    else
      emailTldTry s i p t

/-- Backtracking over the domain-run length, longest first: at length
`d` the next character must be the literal `.` of the pattern. -/
def emailDomTry (s : List Char) (i k0 : Nat) : Nat → Option Nat
  | 0 => none
  | Nat.succ d =>
    (if s.get? (k0 + Nat.succ d) = some '.' then
      emailTldTry s i (k0 + Nat.succ d) (runLen emailTldC s (k0 + Nat.succ d + 1))
    else none) <|> emailDomTry s i k0 d

/-- Matcher for `\b[A-Za-z0-9._%+-]+@[A-Za-z0-9.-]+\.[A-Z|a-z]{2,}\b`
at position `i` (match length, if any). -/
def emailAt (s : List Char) (i : Nat) : Option Nat :=
  if ¬ wordB s i then none
  else
    let L := runLen emailLocalC s i
    if L = 0 then none
    else if s.get? (i + L) ≠ some '@' then none
    else emailDomTry s i (i + L + 1) (runLen emailDomC s (i + L + 1))

/-- Separator class `[-.]` of the phone prefix group. -/
def sepPD (c : Char) : Bool :=
  c = '-' || c = '.'

/-- Separator class `[-. ]` of the phone pattern body. -/
def sepPDS (c : Char) : Bool :=
  c = '-' || c = '.' || c = ' '

/-- Candidate resume positions, in backtracking order, for the phone
prefix group `(?:\+?1[-.]?)?` starting at `i`. -/
def phonePre (s : List Char) (i : Nat) : List Nat :=
  ((if s.get? i = some '+' then [i + 1, i] else [i]).flatMap fun p1 =>
    if s.get? p1 = some '1' then optCls sepPD s (p1 + 1) else []) ++ [i]

/-- Matcher for
`\b(?:\+?1[-.]?)?\(?([0-9]{3})\)?[-. ]?([0-9]{3})[-. ]?([0-9]{4})\b`
at position `i`. -/
def phoneAt (s : List Char) (i : Nat) : Option Nat :=
  if ¬ wordB s i then none
  else
    tryEach (phonePre s i) fun a =>
    tryEach (if s.get? a = some '(' then [a + 1, a] else [a]) fun b =>
    (digsN s b 3).bind fun d1 =>
    tryEach (if s.get? d1 = some ')' then [d1 + 1, d1] else [d1]) fun c =>
    tryEach (optCls sepPDS s c) fun d =>
    (digsN s d 3).bind fun d2 =>
    tryEach (optCls sepPDS s d2) fun e =>
    (digsN s e 4).bind fun d3 =>
    if wordB s d3 then some (d3 - i) else none

/-- Matcher for `\b\d{3}-\d{2}-\d{4}\b` at position `i`. -/
def ssnAt (s : List Char) (i : Nat) : Option Nat :=
  if ¬ wordB s i then none
  else
    (digsN s i 3).bind fun p1 =>
    if s.get? p1 ≠ some '-' then none else
    (digsN s (p1 + 1) 2).bind fun p2 =>
    if s.get? p2 ≠ some '-' then none else
    (digsN s (p2 + 1) 4).bind fun p3 =>
    if wordB s p3 then some (p3 - i) else none

/-- Separator class `[-\s]` of the credit-card pattern. -/
def sepDashWs (c : Char) : Bool :=
  c = '-' || isPyWs c

/-- Matcher for `\b\d{4}[-\s]?\d{4}[-\s]?\d{4}[-\s]?\d{4}\b`
at position `i`. -/
def ccAt (s : List Char) (i : Nat) : Option Nat :=
  if ¬ wordB s i then none
  else
    (digsN s i 4).bind fun d1 =>
    tryEach (optCls sepDashWs s d1) fun a =>
    (digsN s a 4).bind fun d2 =>
    tryEach (optCls sepDashWs s d2) fun b =>
    (digsN s b 4).bind fun d3 =>
    tryEach (optCls sepDashWs s d3) fun c =>
    (digsN s c 4).bind fun d4 =>
    if wordB s d4 then some (d4 - i) else none

/-- A matcher matches somewhere in `s` — `re.findall` returns a
nonempty list exactly in this case. -/
def hasMatch (m : List Char → Nat → Option Nat) (s : List Char) : Bool :=
  (List.range (s.length + 1)).any fun i => (m s i).isSome

/-- `re.sub(pattern, rep, s)` scan: at a match, emit `rep` and resume
after it; otherwise copy one character.  `fuel` bounds the recursion
(every step advances; `s.length` fuel always suffices; the matchers never
produce empty matches, the `max · 1` only guards the recursion). -/
def subGo (m : List Char → Nat → Option Nat) (rep s : List Char) :
    Nat → Nat → List Char
  | _, 0 => []
  | i, Nat.succ fuel =>
    if s.length ≤ i then []
    else
      match m s i with
      | some L => rep ++ subGo m rep s (i + max L 1) fuel
      | none => (s.get? i).toList ++ subGo m rep s (i + 1) fuel

/-- `re.sub(pattern, rep, s)` for one of the compiled matchers. -/
def subAll (m : List Char → Nat → Option Nat) (rep s : List Char) : List Char :=
  subGo m rep s 0 s.length

/-- Leftmost match of a matcher in a string, as the matched substring —
the first element `re.findall` reports (up to group capture). -/
def firstMatchStr (m : List Char → Nat → Option Nat) (s : String) : Option String :=
  (List.range (s.length + 1)).findSome? fun i =>
    (m s.data i).map fun L => ((s.data.drop i).take L).asString

/-! ### `SafetyGuardrails.check_pii_exposure` (`app/validation.py`) -/

/-- Result record of `check_pii_exposure`. -/
structure PiiResult where
  has_pii : Bool
  pii_types : List String
  redacted_text : String
  original_text : String
deriving Repr, DecidableEq

/-- The ordered PII pattern table (insertion order of the source dict). -/
def piiPatterns : List (String × (List Char → Nat → Option Nat)) :=
  [("email", emailAt), ("phone", phoneAt), ("ssn", ssnAt), ("credit_card", ccAt)]

/-- `[REDACTED_<TYPE>]` replacement token. -/
def redactTok (name : String) : String :=
  "[REDACTED_" ++ pyUpper name ++ "]"

/-- One step of the `check_pii_exposure` loop: the *original* query
gates the substitution (`re.findall(pattern, query)`), the substitution
itself runs on the progressively redacted text. -/
def piiStep (q : List Char) (acc : List String × List Char)
    (entry : String × (List Char → Nat → Option Nat)) : List String × List Char :=
  if hasMatch entry.2 q then
    (acc.1 ++ [entry.1], subAll entry.2 (redactTok entry.1).data acc.2)
  else
    acc

/-- `SafetyGuardrails.check_pii_exposure` (`app/validation.py`). -/
def check_pii_exposure (query : String) : PiiResult :=
  let r := piiPatterns.foldl (piiStep query.data) ([], query.data)
  { has_pii := ¬ r.1.isEmpty
    pii_types := r.1
    redacted_text := r.2.asString
    original_text := query }

/-- Does any of the four PII patterns match the string? -/
def anyPiiMatch (s : String) : Bool :=
  piiPatterns.any fun entry => hasMatch entry.2 s.data

/-! ### `SafetyGuardrails.check_sensitive_content` (`app/validation.py`) -/

/-- Result record of `check_sensitive_content`. -/
structure SensitiveResult where
  is_sensitive : Bool
  matched_topics : List String
  should_escalate : Bool
deriving Repr, DecidableEq

/-- The topic → keyword table (insertion order of the source dict). -/
def sensitive_topics : List (String × List String) :=
  [("billing_dispute", ["refund", "charge", "billing error", "unauthorized charge"]),
   ("account_termination", ["cancel subscription", "close account", "delete account"]),
   ("data_breach", ["breach", "hacked", "compromised", "data leak"]),
   ("legal", ["lawsuit", "lawyer", "legal action", "sue"])]

/-- `SafetyGuardrails.check_sensitive_content` (`app/validation.py`).
Each topic is recorded at most once (the inner loop breaks on the first
keyword hit), so the source's `list(set(matched_topics))` only reorders a
duplicate-free list; the embedding keeps the table order, CPython's set
iteration order being unspecified. -/
def check_sensitive_content (query : String) : SensitiveResult :=
  let ql := pyLower query
  let matched := sensitive_topics.filterMap fun t =>
    if t.2.any fun kw => strContains ql kw then some t.1 else none
  { is_sensitive := ¬ matched.isEmpty
    matched_topics := matched
    should_escalate := ¬ matched.isEmpty ∧
      matched.any fun t => t = "legal" ∨ t = "data_breach" }

/-! ### `OutputValidator` (`app/validation.py`) -/

/-- `OutputValidator.banned_content_patterns`: metacharacter-free regex
literals, searched case-insensitively. -/
def banned_content_patterns : List String :=
  ["I apologize for the confusion",
   "Let me check that for you",
   "I" ++ sq ++ "m just an AI",
   "I don" ++ sq ++ "t have access to"]

/-- The validator's cumulative statistics (`OutputValidator.stats`). -/
structure ValidatorStats where
  total : Nat
  valid : Nat
  invalid : Nat
  total_evidence : Nat
  total_answer_length : Nat
deriving Repr, DecidableEq

/-- `OutputValidator.__init__`: all counters start at zero. -/
def initialStats : ValidatorStats :=
  { total := 0, valid := 0, invalid := 0, total_evidence := 0, total_answer_length := 0 }

/-- Result record of `validate_answer`. -/
structure AnswerValidation where
  is_valid : Bool
  warnings : List String
  blocked_patterns : List String
  answer_length : Nat
  evidence_count : Nat
deriving Repr, DecidableEq

/-- The pure checks of `OutputValidator.validate_answer` (checks 1–6,
in source order). -/
def validate_answer_core (answer intent : String) (evidence : List String) :
    AnswerValidation :=
  let w1 := if answer.data.isEmpty || (pyStripL answer.data).length < 10 then
    ["Answer is too short or empty"] else []
  let blocked := banned_content_patterns.filter fun p => containsCI answer p
  let w2 := blocked.map fun p => "Contains banned phrase: " ++ p
  let w3 := if intent ≠ "Escalation" ∧ evidence.isEmpty then
    ["No evidence provided"] else []
  let w4 := if (strContains (pyLower answer) "definitely" ||
      strContains (pyLower answer) "certainly") ∧
      (evidence.isEmpty ∨ evidence.length < 2) then
    ["Strong claim without sufficient evidence"] else []
  let w5 := if 2500 < answer.length then ["Answer is excessively long"] else []
  let w6 := if intent = "FAQ" ∧ ¬ strContains answer "Sources:" ∧ 0 < evidence.length then
    ["FAQ answer missing explicit source citations"] else []
  let warnings := w1 ++ w2 ++ w3 ++ w4 ++ w5 ++ w6
  { is_valid := warnings.isEmpty
    warnings := warnings
    blocked_patterns := blocked
    answer_length := answer.length
    evidence_count := evidence.length }

/-- `OutputValidator.validate_answer`: the checks plus the statistics
update (the source mutates `self.stats`; the embedding threads it). -/
def validate_answer (st : ValidatorStats) (answer intent : String)
    (evidence : List String) : AnswerValidation × ValidatorStats :=
  let r := validate_answer_core answer intent evidence
  (r,
   { total := st.total + 1
     valid := st.valid + (if r.warnings.isEmpty then 1 else 0)
     invalid := st.invalid + (if r.warnings.isEmpty then 0 else 1)
     total_evidence := st.total_evidence + evidence.length
     total_answer_length := st.total_answer_length + answer.length })

/-- Result record of `validate_evidence`. -/
structure EvidenceValidation where
  is_valid : Bool
  warnings : List String
  has_sources : Bool
  evidence_count : Nat
  evidence_types : List String
deriving Repr, DecidableEq

/-- `OutputValidator.validate_evidence` (`app/validation.py`); the
source's set of type prefixes is modelled as a first-occurrence
deduplicated list. -/
def validate_evidence (evidence : List String) : EvidenceValidation :=
  let w1 := if evidence.length = 0 then ["No evidence collected"] else []
  let types := (evidence.filterMap fun e =>
    if strContains e ":" then some (colonHead e) else none).eraseDups
  let w2 := if types.isEmpty then ["Evidence has no type tags"] else []
  { is_valid := (w1 ++ w2).isEmpty
    warnings := w1 ++ w2
    has_sources := 0 < evidence.length
    evidence_count := evidence.length
    evidence_types := types }

/-- `OutputValidator.check_intent_answer_match` (`app/validation.py`). -/
def check_intent_answer_match (intent answer : String) (evidence : List String) : Bool :=
  if intent = "FAQ" then
    evidence.any fun e => strContains e "doc:"
  else if intent = "DataLookup" then
    evidence.any fun e => strContains e "tool:"
  else if intent = "Escalation" then
    strContains (pyLower answer) "support" || strContains (pyLower answer) "contact"
  else
    true

/-- The three-newline pattern of the `sanitize_output` collapse loop. -/
def nl3 : List Char := ['\n', '\n', '\n']

/-- Its two-newline replacement. -/
def nl2 : List Char := ['\n', '\n']

/-- The `while "\n\n\n" in text` loop of `sanitize_output`.  Each
iteration strictly shortens the text, so `s.length` fuel always reaches
the fixed point. -/
def collapseGo : Nat → List Char → List Char
  | 0, s => s
  | Nat.succ f, s =>
    if occursB nl3 s then collapseGo f (replaceAll s nl3 nl2) else s

/-- `OutputValidator.sanitize_output` (`app/validation.py`): bracket the
script-tag literals, collapse newline runs of three or more to two, trim
outer whitespace. -/
def sanitize_output (text : String) : String :=
  let c1 := replaceAll text.data "<script>".data "[script]".data
  let c2 := replaceAll c1 "</script>".data "[/script]".data
  let c3 := collapseGo c2.length c2
  (pyStripL c3).asString

/-! ### Tool-call derivation (`NovaCRMGraph._determine_tool_calls`) -/

/-- Python truthiness of an optional string (`if account_context:`). -/
def optTruthy : Option String → Option String
  | some s => if s.data.isEmpty then none else some s
  | none => none

/-- Python `account_context or default`. -/
def orElseStr (o : Option String) (d : String) : String :=
  match optTruthy o with
  | some s => s
  | none => d

/-- `word.startswith("A") and word[1:].isdigit()`. -/
def isAToken (w : String) : Bool :=
  match w.data with
  | 'A' :: rest => ¬ rest.isEmpty && rest.all isDigC
  | _ => false

/-- `re.search(r"Company[_\s](\d+)", query, re.I)`: leftmost occurrence
of case-insensitive `company`, one `_`-or-whitespace separator, then the
greedy digit group. -/
def companySearch (q : String) : Option String :=
  (List.range (q.length + 1)).findSome? fun i =>
    let s := q.data
    if ((s.drop i).take 7).map Char.toLower = "company".data then
      match s.get? (i + 7) with
      | some c =>
        if c = '_' || isPyWs c then
          let digs := (s.drop (i + 8)).takeWhile isDigC
          if digs.isEmpty then none else some digs.asString
        else none
      | none => none
    else none

/-- The account-keyword word loop of `_determine_tool_calls`: take the
first `A<digits>` token; on every word, if the lowercased query contains
`company`, run the `Company[_\s]\d+` search and stop when it matches
(no break happens when it does not, so the scan continues). -/
def accountScanGo (query ql : String) : List String → List (String × Params)
  | [] => []
  | w :: ws =>
    if isAToken w then
      [("account_lookup", [("account_id", w)])]
    else if strContains ql "company" then
      match companySearch query with
      | some digits =>
        [("account_lookup", [("company", "Company_" ++ pyZfill 3 digits)])]
      | none => accountScanGo query ql ws
    else
      accountScanGo query ql ws

/-- `NovaCRMGraph._determine_tool_calls` (`app/graph.py`): the four
independent keyword rules, in source order, then the account-context
fallback. -/
def determine_tool_calls (query : String) (account_context : Option String) :
    List (String × Params) :=
  let ql := pyLower query
  let ctx := optTruthy account_context
  let t1 :=
    if strContains ql "invoice" || strContains ql "payment" || strContains ql "billing" then
      match ctx with
      | some ac =>
        let base : Params := [("account_id", ac)]
        let params :=
          if strContains query "2025-10" || strContains ql "october" then
            base ++ [("period", "2025-10")]
          else if strContains query "2025-09" || strContains ql "september" then
            base ++ [("period", "2025-09")]
          else base
        [("invoice_status", params)]
      | none => []
    else []
  let t2 :=
    if strContains ql "ticket" || strContains ql "support" then
      match ctx with
      | some ac => [("ticket_summary", [("account_id", ac)])]
      | none => []
    else []
  let t3 :=
    if strContains ql "usage" || strContains ql "api" || strContains ql "storage" then
      match ctx with
      | some ac =>
        let month :=
          if strContains query "2025-09" || strContains ql "september" then "2025-09"
          else if strContains query "2025-08" || strContains ql "august" then "2025-08"
          else "2025-10"
        [("usage_report", [("account_id", ac), ("month", month)])]
      | none => []
    else []
  let t4 :=
    if strContains ql "account" || strContains ql "plan" || strContains ql "tier" then
      match ctx with
      | some ac => [("account_lookup", [("account_id", ac)])]
      | none => accountScanGo query ql (pySplit query)
    else []
  let tools := t1 ++ t2 ++ t3 ++ t4
  if tools.isEmpty then
    match ctx with
    | some ac => [("account_lookup", [("account_id", ac)])]
    | none => []
  else tools

/-! ### Tool results and their formatting (`NovaCRMGraph._format_tool_results`)

A tool result is a Python dict: either it carries an `error` key or it
carries domain fields.  The domain fields come from the external MCP
tools; their numeric values (amounts rendered `:.2f`, counts rendered
`:,`, nested `summary` entries, warning lists) are represented here by
the collaborator-supplied rendered strings, since the pipeline only
threads the formatted text through. -/

/-- A tool invocation result (`ToolResult`). -/
inductive ToolResultV where
  | errRes (msg : String)
  | okRes (fields : List (String × String))
deriving Repr, DecidableEq

/-- One entry of the `results` list built by `_tools_node`. -/
structure ToolEntry where
  tool : String
  params : Params
  result : ToolResultV
deriving Repr, DecidableEq

/-- Field lookup with default, `result.get(key, default)`. -/
def getF (kv : List (String × String)) (k d : String) : String :=
  (kv.lookup k).getD d

/-- `NovaCRMGraph._format_tool_results` (`app/graph.py`). -/
def formatToolResults (results : List ToolEntry) : String :=
  joinAll (results.map fun item =>
    "\n## " ++ pyTitle (strReplace item.tool "_" " ") ++ "\n" ++
    match item.result with
    | .errRes msg => "Error: " ++ msg ++ "\n"
    | .okRes kv =>
      if item.tool = "account_lookup" then
        "- Company: " ++ getF kv "company" "N/A" ++ "\n" ++
        "- Plan: " ++ getF kv "plan" "N/A" ++ " (" ++ getF kv "tier" "N/A" ++ " tier)\n" ++
        "- Billing: " ++ getF kv "billing_cycle" "N/A" ++ "\n" ++
        "- CSM: " ++ getF kv "csm" "N/A" ++ "\n" ++
        "- Renewal: " ++ getF kv "renewal_date" "N/A" ++ "\n"
      else if item.tool = "invoice_status" then
        "- Total Invoices: " ++ getF kv "invoice_count" "0" ++ "\n" ++
        "- Total Amount: $" ++ getF kv "summary_total" "0.00" ++ "\n" ++
        "- Paid: $" ++ getF kv "summary_paid" "0.00" ++ "\n" ++
        "- Overdue: $" ++ getF kv "summary_overdue" "0.00" ++ "\n" ++
        "- Pending: $" ++ getF kv "summary_pending" "0.00" ++ "\n"
      else if item.tool = "ticket_summary" then
        "- Total Tickets: " ++ getF kv "total_tickets" "0" ++ "\n" ++
        "- Open: " ++ getF kv "open_tickets" "0" ++ "\n" ++
        "- High Priority Open: " ++ getF kv "high_priority_open" "0" ++ "\n" ++
        (match kv.lookup "sla_risks" with
         | some n => "- SLA Risks: " ++ n ++ " ticket(s)\n"
         | none => "")
      else if item.tool = "usage_report" then
        "- Month: " ++ getF kv "month" "N/A" ++ "\n" ++
        "- API Calls: " ++ getF kv "api_calls" "0" ++ "\n" ++
        "- Email Sends: " ++ getF kv "email_sends" "0" ++ "\n" ++
        "- Storage: " ++ getF kv "storage_gb" "0.00" ++ " GB\n" ++
        (match kv.lookup "warnings_lines" with
         | some w => "\nWarnings:\n" ++ w
         | none => "")
      else
        "")

/-- `f"tool:{tool_name}:{list(params.keys())}"` renders the key list
with Python's list repr: brackets, single quotes, comma-space. -/
def pyKeysRepr (params : Params) : String :=
  "[" ++ joinSep ", " (params.map fun kv => sq ++ kv.1 ++ sq) ++ "]"

/-- The evidence tag `_tools_node` appends for an invoked tool. -/
def toolTag (n : String) (p : Params) : String :=
  "tool:" ++ n ++ ":" ++ pyKeysRepr p

/-! ### The LangGraph state and nodes (`app/graph.py`, `app/state.py`) -/

/-- `AssistantState` (`app/state.py`). -/
structure AssistantState where
  history : List String
  intent : Option String
  query : String
  answer : Option String
  evidence : List String
  errors : List String
  account_context : Option String
deriving Repr, DecidableEq

/-- A document returned by the retriever: LangChain metadata `source`
(optional) and page content. -/
structure RetrievedDoc where
  source : Option String
  content : String
deriving Repr, DecidableEq

/-- The external collaborators of one invocation.  A collaborator call
that raises is an `Except.error`; each node's `try/except` block is the
`match` on that value. -/
structure Collaborators where
  classify : String → Except String String
  justify : String → String → Except String String
  synthesize : String → String → Except String String
  retrieve : String → Nat → Except String (List RetrievedDoc)
  invoke_tool : String → Params → Except String ToolResultV

/-- `NovaCRMGraph._safety_check_node` (`app/graph.py`): the sensitive-
topic gate (which requires `is_sensitive` *and* `should_escalate`),
then the PII gate on the (unchanged) query. -/
def safety_check_node (s : AssistantState) : AssistantState :=
  let sc := check_sensitive_content s.query
  let s1 :=
    if sc.is_sensitive ∧ sc.should_escalate then
      { s with intent := some "Escalation"
               evidence := s.evidence ++
                 ["safety:sensitive_topic_detected:" ++
                   joinSep "," sc.matched_topics] }
    else s
  let pc := check_pii_exposure s1.query
  if pc.has_pii then
    { s1 with query := pc.redacted_text
              evidence := s1.evidence ++
                ["safety:pii_redacted:" ++ joinSep "," pc.pii_types] }
  else s1

/-- `NovaCRMGraph._router_node` (`app/graph.py`): strip the oracle's
token, map unknown tokens to `Escalation`; on oracle failure append an
error and set `Escalation`.  Whatever intent the safety gate set is
overwritten. -/
def router_node (res : Except String String) (s : AssistantState) : AssistantState :=
  match res with
  | .ok result =>
    let tok := pyStrip result
    let intent := if tok = "FAQ" ∨ tok = "DataLookup" ∨ tok = "Escalation" then tok
      else "Escalation"
    { s with intent := some intent }
  | .error e =>
    { s with errors := s.errors ++ ["Router error: " ++ e], intent := some "Escalation" }

/-- `KnowledgeBaseRetriever.format_results` context blob
(`app/retriever.py`). -/
def formatResultsContext (docs : List RetrievedDoc) : String :=
  joinSep "\n\n" (docs.enum.map fun p =>
    let src := p.2.source.getD "unknown"
    "[Document " ++ toString (p.1 + 1) ++ " - " ++
      (if src ≠ "unknown" then pathName src else src) ++ "]\n" ++ p.2.content)

/-- `NovaCRMGraph._retrieve_node` (`app/graph.py`). -/
def retrieve_node (b : Collaborators) (s : AssistantState) : AssistantState :=
  match b.retrieve s.query 5 with
  | .error e =>
    { s with errors := s.errors ++ ["Retrieval error: " ++ e]
             answer := some "Knowledge base retrieval failed. Please try rephrasing your question." }
  | .ok docs =>
    { s with evidence := s.evidence ++
        docs.map (fun d => "doc:" ++ pathName (d.source.getD "unknown"))
             answer := some (formatResultsContext docs) }

/-- The per-candidate loop of `_tools_node`: invalid candidates get a
synthetic error entry and no evidence tag; valid candidates are invoked
and tagged whatever the result; an invoker exception aborts the loop and
is caught by the node's handler (evidence gathered so far persists). -/
def toolsGo (b : Collaborators) (s : AssistantState) (results : List ToolEntry) :
    List (String × Params) → AssistantState
  | [] => { s with answer := some (formatToolResults results) }
  | (n, p) :: rest =>
    let v := validate_tool_params n p
    if ¬ v.is_valid then
      toolsGo b s
        (results ++ [⟨n, p, .errRes ("Invalid parameters: " ++ joinSep ", " v.errors)⟩])
        rest
    else
      match b.invoke_tool n p with
      | .error e =>
        { s with errors := s.errors ++ ["Tools error: " ++ e]
                 answer := some "Unable to retrieve data. Please verify account information." }
      | .ok r =>
        toolsGo b { s with evidence := s.evidence ++ [toolTag n p] }
          (results ++ [⟨n, p, r⟩]) rest

/-- `NovaCRMGraph._tools_node` (`app/graph.py`). -/
def tools_node (b : Collaborators) (s : AssistantState) : AssistantState :=
  match b.justify s.query (orElseStr s.account_context "None specified") with
  | .error e =>
    { s with errors := s.errors ++ ["Tools error: " ++ e]
             answer := some "Unable to retrieve data. Please verify account information." }
  | .ok j =>
    toolsGo b
      { s with evidence := s.evidence ++ ["tool_justification:" ++ pyTake 100 j] }
      [] (determine_tool_calls s.query s.account_context)

/-- The evidence section `_synthesize_node` appends to the answer. -/
def withEvidenceSection (s : AssistantState) : AssistantState :=
  { s with answer := some ((s.answer.getD "") ++ "\n\n**Evidence:**\n" ++
      joinSep "\n" (s.evidence.map fun e => "- " ++ e)) }

/-- `NovaCRMGraph._synthesize_node` (`app/graph.py`): FAQ consults the
synthesis oracle (a failure leaves the answer as is and skips the
evidence section); other intents keep the formatted answer; both append
the evidence section on success. -/
def synthesize_node (b : Collaborators) (s : AssistantState) : AssistantState :=
  if s.intent = some "FAQ" then
    match b.synthesize (s.answer.getD "") s.query with
    | .error e => { s with errors := s.errors ++ ["Synthesis error: " ++ e] }
    | .ok a => withEvidenceSection { s with answer := some a }
  else
    withEvidenceSection s

/-- The fixed escalation template of `_escalate_node` (`app/graph.py`). -/
def escalationMessage (query : String) : String :=
  "\nI understand you need assistance with: \"" ++ query ++ "\"\n\n" ++
  "This request requires specialized support from our team. Here" ++ sq ++
  "s what you can do:\n\n" ++
  "**Immediate Actions:**\n- Email: support@novacrm.com\n- Phone: 1-800-NOVA-CRM\n" ++
  "- Submit a ticket through your account portal\n\n" ++
  "**What to Include:**\n- Your account ID or company name\n" ++
  "- Detailed description of your request\n- Any relevant dates or transaction IDs\n" ++
  "- Preferred contact method\n\n" ++
  "**Expected Response Time:**\n- High priority: 2 hours\n- Standard: 24 hours\n\n" ++
  "Our team will reach out shortly to assist you further.\n"

/-- `NovaCRMGraph._escalate_node` (`app/graph.py`). -/
def escalate_node (s : AssistantState) : AssistantState :=
  { s with answer := some (escalationMessage s.query)
           evidence := s.evidence ++ ["escalated:human_support_required"] }

/-- `NovaCRMGraph._validate_node` (`app/graph.py`): answer validation
(appending warnings and a disclaimer on failure), evidence validation,
intent-answer match, then unconditional output sanitisation.  The
statistics side effect of `validate_answer` is pipeline-invisible and
covered by `validate_answer` separately. -/
def validate_node (s : AssistantState) : AssistantState :=
  let answer := s.answer.getD ""
  let intent := s.intent.getD ""
  let vres := validate_answer_core answer intent s.evidence
  let s1 :=
    if vres.is_valid then s
    else { s with errors := s.errors ++ vres.warnings
                  answer := some (answer ++
                    "\n\n*Note: This response may be incomplete. Please contact support for assistance.*") }
  let eres := validate_evidence s1.evidence
  let s2 :=
    if eres.is_valid then s1
    else { s1 with errors := s1.errors ++ eres.warnings }
  let s3 :=
    if check_intent_answer_match intent answer s2.evidence then s2
    else { s2 with errors := s2.errors ++ ["Answer-intent mismatch detected"] }
  { s3 with answer := some (sanitize_output (s3.answer.getD "")) }

/-- The record `NovaCRMGraph.invoke` returns to the caller. -/
structure PipelineResult where
  query : String
  intent : Option String
  answer : Option String
  evidence : List String
  errors : List String
deriving Repr, DecidableEq

/-- The initial state `invoke` builds (`app/graph.py`). -/
def initState (query : String) (account_context : Option String) : AssistantState :=
  { history := [], intent := none, query := query, answer := none,
    evidence := [], errors := [], account_context := account_context }

/-- `NovaCRMGraph.invoke` (`app/graph.py`): safety gate, router, then
the conditional edge keyed on the routed intent (`_route_query` defaults
to `Escalation`); FAQ and DataLookup flow through synthesis and
validation, Escalation ends at the escalate node. -/
def pipeline_invoke (b : Collaborators) (query : String)
    (account_context : Option String) : PipelineResult :=
  let s1 := safety_check_node (initState query account_context)
  let s2 := router_node (b.classify s1.query) s1
  let routed := s2.intent.getD "Escalation"
  let fin :=
    if routed = "FAQ" then validate_node (synthesize_node b (retrieve_node b s2))
    else if routed = "DataLookup" then validate_node (synthesize_node b (tools_node b s2))
    else escalate_node s2
  { query := fin.query, intent := fin.intent, answer := fin.answer,
    evidence := fin.evidence, errors := fin.errors }

/-- A fixed collaborator assignment for evaluating the pipeline at
concrete inputs: the classifier answers `DataLookup`, the justification
and synthesis oracles return constants, the retriever returns nothing,
and every tool invocation returns the error-shaped result the MCP client
produces when its server is unreachable (it never raises). -/
def demoCollab : Collaborators :=
  { classify := fun _ => .ok "DataLookup"
    justify := fun _ _ => .ok "J"
    synthesize := fun _ _ => .ok "S"
    retrieve := fun _ _ => .ok []
    invoke_tool := fun _ _ => .ok (.errRes "MCP server not reachable") }

/-- An occurrence of `pat` as a contiguous substring of `s`
(the propositional counterpart of `occursB`). -/
def HasOcc (pat s : List Char) : Prop :=
  ∃ l r, s = l ++ pat ++ r

/-! ### Shape interface for the PII matchers

Each PII matcher scans a window `[i-1, i+L]`: the match content plus the
wordness of the two border characters (the `\b` anchors).  The predicates
below state the border-free content shape of each pattern's matches; the
characterisation theorems further down prove each matcher equivalent to
"content shape + two word boundaries", which is what the idempotence
argument consumes. -/

/-- Wordness of the character at position `i` (`false` out of range). -/
def wordAt (s : List Char) (i : Nat) : Bool :=
  ((s.get? i).map isWordC).getD false

/-- Wordness of the character before position `i`. -/
def prevWordy (s : List Char) (i : Nat) : Bool :=
  if i = 0 then false else wordAt s (i - 1)

/-- Wordness of a list's first character (`false` when empty). -/
def wordyHead (l : List Char) : Bool :=
  ((l.head?).map isWordC).getD false

/-- Wordness of a list's last character (`false` when empty). -/
def wordyLast (l : List Char) : Bool :=
  ((l.getLast?).map isWordC).getD false

/-- The window of `s` of length `L` starting at position `i`. -/
def slice (s : List Char) (i L : Nat) : List Char :=
  (s.drop i).take L

/-- An `n`-digit group. -/
def digGrp (n : Nat) (w : List Char) : Prop :=
  w.length = n ∧ w.all isDigC = true

/-- An optional single separator drawn from a class. -/
def optSep (cls : Char → Bool) (w : List Char) : Prop :=
  w = [] ∨ ∃ c, w = [c] ∧ cls c = true

/-- Content shape of an ssn match: `\d{3}-\d{2}-\d{4}`. -/
def innerSsn (w : List Char) : Prop :=
  ∃ d1 d2 d3, w = d1 ++ '-' :: (d2 ++ '-' :: d3) ∧
    digGrp 3 d1 ∧ digGrp 2 d2 ∧ digGrp 4 d3

/-- Content shape of a credit-card match:
`\d{4}[-\s]?\d{4}[-\s]?\d{4}[-\s]?\d{4}`. -/
def innerCc (w : List Char) : Prop :=
  ∃ d1 s1 d2 s2 d3 s3 d4, w = d1 ++ s1 ++ d2 ++ s2 ++ d3 ++ s3 ++ d4 ∧
    digGrp 4 d1 ∧ optSep sepDashWs s1 ∧ digGrp 4 d2 ∧ optSep sepDashWs s2 ∧
    digGrp 4 d3 ∧ optSep sepDashWs s3 ∧ digGrp 4 d4

/-- Content shape of the optional phone prefix `(?:\+?1[-.]?)?`. -/
def preGrp (w : List Char) : Prop :=
  w = [] ∨ w = ['1'] ∨ w = ['+', '1'] ∨
    (∃ c, (w = ['1', c] ∨ w = ['+', '1', c]) ∧ sepPD c = true)

/-- The optional opening parenthesis `\(?`. -/
def parenL (w : List Char) : Prop := w = [] ∨ w = ['(']

/-- The optional closing parenthesis `\)?`. -/
def parenR (w : List Char) : Prop := w = [] ∨ w = [')']

/-- Content shape of a phone match:
`(?:\+?1[-.]?)?\(?\d{3}\)?[-. ]?\d{3}[-. ]?\d{4}`. -/
def innerPhone (w : List Char) : Prop :=
  ∃ pre lp d1 rp s1 d2 s2 d3,
    w = pre ++ lp ++ d1 ++ rp ++ s1 ++ d2 ++ s2 ++ d3 ∧
    preGrp pre ∧ parenL lp ∧ digGrp 3 d1 ∧ parenR rp ∧ optSep sepPDS s1 ∧
    digGrp 3 d2 ∧ optSep sepPDS s2 ∧ digGrp 4 d3

/-- Content shape of an email match:
`[A-Za-z0-9._%+-]+@[A-Za-z0-9.-]+\.[A-Z|a-z]{2,}`. -/
def innerEmail (w : List Char) : Prop :=
  ∃ loc dom tld, w = loc ++ '@' :: (dom ++ '.' :: tld) ∧
    loc ≠ [] ∧ loc.all emailLocalC = true ∧
    dom ≠ [] ∧ dom.all emailDomC = true ∧
    2 ≤ tld.length ∧ tld.all emailTldC = true

/-- All characters an ssn match can contain. -/
def sigSsn (c : Char) : Bool := isDigC c || c = '-'

/-- All characters a credit-card match can contain. -/
def sigCc (c : Char) : Bool := isDigC c || sepDashWs c

/-- All characters a phone match can contain. -/
def sigPhone (c : Char) : Bool :=
  isDigC c || c = '+' || c = '(' || c = ')' || sepPDS c

/-- All characters an email match can contain. -/
def sigEmail (c : Char) : Bool :=
  emailLocalC c || c = '@' || emailDomC c || emailTldC c || c = '.'

/-- The witness character class of an email match (the `@`); the other
three patterns use digits as witnesses.  No `[REDACTED_*]` token
contains either, which is why redaction cannot create new matches. -/
def witEml (c : Char) : Bool := c = '@'

/-! ## Theorems -/

/-- Claim C7 (confirmed): `validate_tool_params("invoice_status",
{account_id: "A001", period: "2025-13"})` is reported valid with an
empty error list — the period check is the shape regex `^\d{4}-\d{2}$`
and does not check calendar validity. -/
theorem C7_invoice_period_shape_valid :
    validate_tool_params "invoice_status" [("account_id", "A001"), ("period", "2025-13")] =
      { is_valid := true, errors := [] } := by
  rfl

/-- Claim C9 (confirmed): for every tool name outside the five known
tools and every parameter mapping, `validate_tool_params` reports the
call valid with an empty error list. -/
theorem C9_unknown_tool_trivially_valid (tool_name : String) (params : Params)
    (h : tool_name ∉
      ["account_lookup", "invoice_status", "ticket_summary", "usage_report", "kb_search"]) :
    validate_tool_params tool_name params = { is_valid := true, errors := [] } := by
  simp only [List.mem_cons, List.not_mem_nil, or_false, not_or] at h
  obtain ⟨h1, h2, h3, h4, h5⟩ := h
  unfold validate_tool_params
  simp [h1, h2, h3, h4, h5]

/-- Witness for C9 at the concrete unknown tool name `frobnicate`. -/
theorem C9_unknown_tool_trivially_valid_witness :
    "frobnicate" ∉
      ["account_lookup", "invoice_status", "ticket_summary", "usage_report", "kb_search"] ∧
    validate_tool_params "frobnicate" [("x", "yes")] = { is_valid := true, errors := [] } :=
  ⟨by decide, C9_unknown_tool_trivially_valid "frobnicate" [("x", "yes")] (by decide)⟩

/-- Claim C6 (counterexample): on the query `"Show data for A007
please"` with no account context, tool derivation produces *no*
candidates at all — the `A\d+` token scan only runs when the query
contains `account`, `plan` or `tier`, and the fallback needs an account
context — so no `account_lookup` call with `{account_id: "A007"}` is
derived, contrary to the claim. -/
theorem C6_counterexample :
    determine_tool_calls "Show data for A007 please" none = [] := by
  rfl

/-- Claim C6 (amended): on a query that contains one of the keywords
`account`/`plan`/`tier` — e.g. `"Show account data for A007 please"` —
with no account context, tool derivation scans the tokens and yields an
`account_lookup` call with `{account_id: "A007"}`; the claim's original
query, lacking every keyword, yields no candidates. -/
theorem C6_amended :
    determine_tool_calls "Show account data for A007 please" none =
      [("account_lookup", [("account_id", "A007")])] := by
  rfl

/-- Claim C2 (counterexample): the query `"I need a refund"` matches the
sensitive topic `billing_dispute`, yet the safety node appends no
evidence tag and leaves the intent unset, because the source gates on
`is_sensitive and should_escalate` and `should_escalate` needs a topic
in `{legal, data_breach}`. -/
theorem C2_counterexample :
    (check_sensitive_content "I need a refund").is_sensitive = true ∧
    (check_sensitive_content "I need a refund").should_escalate = false ∧
    (safety_check_node (initState "I need a refund" none)).evidence = [] ∧
    (safety_check_node (initState "I need a refund" none)).intent = none := by
  refine ⟨by decide, by decide, by decide, by decide⟩

/-- Claim C2 (amended): for every state whose query is sensitive *and*
flagged `should_escalate` (its matched topics meet `{legal,
data_breach}`), the safety node appends the
`safety:sensitive_topic_detected:<comma-joined topics>` tag and sets the
intent to `Escalation` before routing (the PII tag, when PII is also
found, follows it). -/
theorem C2_amended (s : AssistantState)
    (hs : (check_sensitive_content s.query).is_sensitive = true)
    (he : (check_sensitive_content s.query).should_escalate = true) :
    (safety_check_node s).intent = some "Escalation" ∧
    (safety_check_node s).evidence =
      s.evidence ++
        ["safety:sensitive_topic_detected:" ++
          joinSep "," (check_sensitive_content s.query).matched_topics] ++
        (if (check_pii_exposure s.query).has_pii then
          ["safety:pii_redacted:" ++
            joinSep "," (check_pii_exposure s.query).pii_types]
         else []) := by
  unfold safety_check_node
  simp only [hs, he, and_self, if_true]
  by_cases hp : (check_pii_exposure s.query).has_pii
  · simp [hp, List.append_assoc]
  · simp [hp]

/-- Witness for C2 at the concrete query `"I am planning legal
action"`. -/
theorem C2_amended_witness :
    (safety_check_node (initState "I am planning legal action" none)).intent =
      some "Escalation" ∧
    (safety_check_node (initState "I am planning legal action" none)).evidence =
      (initState "I am planning legal action" none).evidence ++
        ["safety:sensitive_topic_detected:" ++
          joinSep ","
            (check_sensitive_content (initState "I am planning legal action" none).query).matched_topics] ++
        (if (check_pii_exposure (initState "I am planning legal action" none).query).has_pii then
          ["safety:pii_redacted:" ++
            joinSep ","
              (check_pii_exposure (initState "I am planning legal action" none).query).pii_types]
         else []) :=
  C2_amended (initState "I am planning legal action" none) (by decide) (by decide)

/-- Claim C3 (confirmed): after the router runs, the intent is the
stripped oracle token when that token is `FAQ`, `DataLookup` or
`Escalation` and `Escalation` otherwise; an oracle failure appends a
router error and maps to `Escalation`; and the routed intent never
depends on whatever tentative intent the safety gate stored. -/
theorem C3_router_final_intent (s : AssistantState) (v e : String) (i0 : Option String) :
    (router_node (Except.ok v) s).intent =
      some (if pyStrip v = "FAQ" ∨ pyStrip v = "DataLookup" ∨ pyStrip v = "Escalation"
        then pyStrip v else "Escalation") ∧
    (router_node (Except.ok v) s).errors = s.errors ∧
    (router_node (Except.error e) s).intent = some "Escalation" ∧
    (router_node (Except.error e) s).errors = s.errors ++ ["Router error: " ++ e] ∧
    (router_node (Except.ok v) { s with intent := i0 }).intent =
      (router_node (Except.ok v) s).intent ∧
    (router_node (Except.error e) { s with intent := i0 }).intent =
      (router_node (Except.error e) s).intent :=
  ⟨rfl, rfl, rfl, rfl, rfl, rfl⟩

/-- Claim C10 (confirmed): the validator statistics satisfy
`total = valid + invalid` initially and after every `validate_answer`
call; each call adds exactly one to `total` and to exactly one of
`valid`/`invalid`, choosing `valid` exactly when no warnings were
produced. -/
theorem C10_validator_stats_invariant (st : ValidatorStats) (answer intent : String)
    (evidence : List String) (hinv : st.total = st.valid + st.invalid) :
    initialStats.total = initialStats.valid + initialStats.invalid ∧
    (validate_answer st answer intent evidence).2.total = st.total + 1 ∧
    ((validate_answer st answer intent evidence).1.warnings = [] →
      (validate_answer st answer intent evidence).2.valid = st.valid + 1 ∧
      (validate_answer st answer intent evidence).2.invalid = st.invalid) ∧
    ((validate_answer st answer intent evidence).1.warnings ≠ [] →
      (validate_answer st answer intent evidence).2.invalid = st.invalid + 1 ∧
      (validate_answer st answer intent evidence).2.valid = st.valid) ∧
    ((validate_answer st answer intent evidence).1.is_valid = true ↔
      (validate_answer st answer intent evidence).1.warnings = []) ∧
    (validate_answer st answer intent evidence).2.total =
      (validate_answer st answer intent evidence).2.valid +
        (validate_answer st answer intent evidence).2.invalid := by
  unfold validate_answer
  have hiff : (validate_answer_core answer intent evidence).is_valid =
      (validate_answer_core answer intent evidence).warnings.isEmpty := rfl
  by_cases h : (validate_answer_core answer intent evidence).warnings.isEmpty
  · have he := List.isEmpty_iff.mp h
    exact ⟨rfl, rfl, fun _ => by simp [h], fun hne => absurd he hne,
      by rw [hiff]; simp [h, he], by simp [h]; omega⟩
  · have hne : (validate_answer_core answer intent evidence).warnings ≠ [] := by
      simpa [List.isEmpty_iff] using h
    exact ⟨rfl, rfl, fun hc => absurd hc hne, fun _ => by simp [h],
      by rw [hiff]; simp [h, hne], by simp [h]; omega⟩

/-- Witness for C10 at a concrete call on the initial statistics. -/
theorem C10_validator_stats_invariant_witness :
    initialStats.total = initialStats.valid + initialStats.invalid ∧
    (validate_answer initialStats "Too short" "DataLookup" []).2.total =
      initialStats.total + 1 ∧
    ((validate_answer initialStats "Too short" "DataLookup" []).1.warnings = [] →
      (validate_answer initialStats "Too short" "DataLookup" []).2.valid =
        initialStats.valid + 1 ∧
      (validate_answer initialStats "Too short" "DataLookup" []).2.invalid =
        initialStats.invalid) ∧
    ((validate_answer initialStats "Too short" "DataLookup" []).1.warnings ≠ [] →
      (validate_answer initialStats "Too short" "DataLookup" []).2.invalid =
        initialStats.invalid + 1 ∧
      (validate_answer initialStats "Too short" "DataLookup" []).2.valid =
        initialStats.valid) ∧
    ((validate_answer initialStats "Too short" "DataLookup" []).1.is_valid = true ↔
      (validate_answer initialStats "Too short" "DataLookup" []).1.warnings = []) ∧
    (validate_answer initialStats "Too short" "DataLookup" []).2.total =
      (validate_answer initialStats "Too short" "DataLookup" []).2.valid +
        (validate_answer initialStats "Too short" "DataLookup" []).2.invalid :=
  C10_validator_stats_invariant initialStats "Too short" "DataLookup" [] rfl

/-- Helper: rebuilding a string from its character data is the
identity. -/
theorem asString_data (s : String) : s.data.asString = s := rfl

/-- Helper: the tool loop appends, onto the incoming evidence, exactly
one `tool:` tag per candidate that passes parameter validation, in
order, provided the invoker returns (as the MCP client always does). -/
theorem toolsGo_evidence (b : Collaborators)
    (hv : ∀ n p, (b.invoke_tool n p).isOk = true) (calls : List (String × Params)) :
    ∀ (s : AssistantState) (results : List ToolEntry),
      (toolsGo b s results calls).evidence =
        s.evidence ++ calls.filterMap (fun c =>
          if (validate_tool_params c.1 c.2).is_valid then some (toolTag c.1 c.2)
          else none) := by
  induction calls with
  | nil => intro s results; simp [toolsGo]
  | cons hd rest ih =>
    intro s results
    obtain ⟨n, p⟩ := hd
    by_cases hval : (validate_tool_params n p).is_valid
    · have hok := hv n p
      cases hbt : b.invoke_tool n p with
      | error e => rw [hbt] at hok; simp [Except.isOk, Except.toBool] at hok
      | ok r =>
        simp only [toolsGo, hval, not_true_eq_false, if_false, hbt, ih]
        simp [hval, List.append_assoc]
    · simp only [toolsGo, hval, not_false_eq_true, if_true, ih]
      simp [hval, ih]

/-- Claim C5 (counterexample): for the valid derived candidate
`usage_report` with keys `account_id, month`, the evidence tag the tool
stage appends is the Python list repr of the keys — with brackets,
quotes and a space — not the claimed comma-joined form. -/
theorem C5_counterexample :
    (tools_node demoCollab (initState "usage for A001" (some "A001"))).evidence =
      ["tool_justification:J",
       "tool:usage_report:[" ++ sq ++ "account_id" ++ sq ++ ", " ++ sq ++ "month" ++ sq ++ "]"] ∧
    "tool:usage_report:[" ++ sq ++ "account_id" ++ sq ++ ", " ++ sq ++ "month" ++ sq ++ "]" ≠
      "tool:usage_report:account_id,month" :=
  ⟨by decide, by decide⟩

/-- Claim C5 (amended): for every valid tool candidate the ToolDispatch
stage invokes, the appended evidence tag is
`tool:<toolName>:<Python list repr of the param keys in insertion
order>` (e.g. `tool:usage_report:['account_id', 'month']`), appended
regardless of whether the invocation's result was an error; invalid
candidates get no tag. -/
theorem C5_tool_tag_format (b : Collaborators) (s : AssistantState) (j : String)
    (hj : b.justify s.query (orElseStr s.account_context "None specified") = .ok j)
    (hv : ∀ n p, (b.invoke_tool n p).isOk = true) :
    (tools_node b s).evidence =
      s.evidence ++ ["tool_justification:" ++ pyTake 100 j] ++
        (determine_tool_calls s.query s.account_context).filterMap
          (fun c => if (validate_tool_params c.1 c.2).is_valid then
            some (toolTag c.1 c.2) else none) := by
  unfold tools_node
  rw [hj]
  rw [toolsGo_evidence b hv]

/-- Witness for C5: the concrete derivation on `"usage for A001"` with
account context `A001`, a returning invoker (error-shaped result), and a
successful justification oracle. -/
theorem C5_tool_tag_format_witness :
    (tools_node demoCollab (initState "usage for A001" (some "A001"))).evidence =
      (initState "usage for A001" (some "A001")).evidence ++
        ["tool_justification:" ++ pyTake 100 "J"] ++
        (determine_tool_calls "usage for A001" (some "A001")).filterMap
          (fun c => if (validate_tool_params c.1 c.2).is_valid then
            some (toolTag c.1 c.2) else none) :=
  C5_tool_tag_format demoCollab (initState "usage for A001" (some "A001")) "J"
    rfl (fun _ _ => rfl)

/-- Helper: the router always stores one of the three routable intents. -/
theorem router_node_intent3 (res : Except String String) (s : AssistantState) :
    ∃ x, (router_node res s).intent = some x ∧
      (x = "FAQ" ∨ x = "DataLookup" ∨ x = "Escalation") := by
  cases res with
  | ok v =>
    by_cases h : pyStrip v = "FAQ" ∨ pyStrip v = "DataLookup" ∨ pyStrip v = "Escalation"
    · exact ⟨pyStrip v, by simp [router_node, h], h⟩
    · exact ⟨"Escalation", by simp [router_node, h], Or.inr (Or.inr rfl)⟩
  | error e => exact ⟨"Escalation", rfl, Or.inr (Or.inr rfl)⟩

/-- Helper: the retrieve node always stores an answer. -/
theorem retrieve_node_answer (b : Collaborators) (s : AssistantState) :
    ((retrieve_node b s).answer).isSome = true := by
  unfold retrieve_node
  cases hr : b.retrieve s.query 5 <;> rfl

/-- Helper: the retrieve node does not touch the intent. -/
theorem retrieve_node_intent (b : Collaborators) (s : AssistantState) :
    (retrieve_node b s).intent = s.intent := by
  unfold retrieve_node
  cases hr : b.retrieve s.query 5 <;> rfl

/-- Helper: the tool loop always stores an answer. -/
theorem toolsGo_answer (b : Collaborators) (calls : List (String × Params)) :
    ∀ (s : AssistantState) (results : List ToolEntry),
      ((toolsGo b s results calls).answer).isSome = true := by
  induction calls with
  | nil => intro s results; rfl
  | cons hd rest ih =>
    intro s results
    obtain ⟨n, p⟩ := hd
    by_cases hval : (validate_tool_params n p).is_valid
    · cases hbt : b.invoke_tool n p with
      | error e => simp [toolsGo, hval, hbt]
      | ok r => simp [toolsGo, hval, hbt, ih]
    · simp [toolsGo, hval, ih]

/-- Helper: the tool loop does not touch the intent. -/
theorem toolsGo_intent (b : Collaborators) (calls : List (String × Params)) :
    ∀ (s : AssistantState) (results : List ToolEntry),
      (toolsGo b s results calls).intent = s.intent := by
  induction calls with
  | nil => intro s results; rfl
  | cons hd rest ih =>
    intro s results
    obtain ⟨n, p⟩ := hd
    by_cases hval : (validate_tool_params n p).is_valid
    · cases hbt : b.invoke_tool n p with
      | error e => simp [toolsGo, hval, hbt]
      | ok r => simp [toolsGo, hval, hbt, ih]
    · simp [toolsGo, hval, ih]

/-- Helper: the tools node always stores an answer. -/
theorem tools_node_answer (b : Collaborators) (s : AssistantState) :
    ((tools_node b s).answer).isSome = true := by
  unfold tools_node
  cases hj : b.justify s.query (orElseStr s.account_context "None specified") with
  | error e => rfl
  | ok j => exact toolsGo_answer b _ _ _

/-- Helper: the tools node does not touch the intent. -/
theorem tools_node_intent (b : Collaborators) (s : AssistantState) :
    (tools_node b s).intent = s.intent := by
  unfold tools_node
  cases hj : b.justify s.query (orElseStr s.account_context "None specified") with
  | error e => rfl
  | ok j => exact toolsGo_intent b _ _ _

/-- Helper: synthesis keeps an existing answer present. -/
theorem synthesize_node_answer (b : Collaborators) (s : AssistantState)
    (h : (s.answer).isSome = true) :
    ((synthesize_node b s).answer).isSome = true := by
  unfold synthesize_node
  by_cases hi : s.intent = some "FAQ"
  · simp only [hi, if_true]
    cases hs : b.synthesize (s.answer.getD "") s.query with
    | error e => simpa using h
    | ok a => rfl
  · simp [hi, withEvidenceSection]

/-- Helper: synthesis does not touch the intent. -/
theorem synthesize_node_intent (b : Collaborators) (s : AssistantState) :
    (synthesize_node b s).intent = s.intent := by
  unfold synthesize_node
  by_cases hi : s.intent = some "FAQ"
  · simp only [hi, if_true]
    cases hs : b.synthesize (s.answer.getD "") s.query with
    | error e => rfl
    | ok a => rfl
  · simp [hi, withEvidenceSection]

/-- Helper: validation always stores a (sanitised) answer. -/
theorem validate_node_answer (s : AssistantState) :
    ((validate_node s).answer).isSome = true := by
  rfl

/-- Helper: validation does not touch the intent. -/
theorem validate_node_intent (s : AssistantState) :
    (validate_node s).intent = s.intent := by
  simp only [validate_node]
  split_ifs <;> rfl

/-- Claim C4 (confirmed): for every query, optional account context and
every behaviour of the collaborators — a raising collaborator being an
`Except.error` which the owning node's handler consumes — the pipeline
returns a complete record: the intent is set to one of the three
routable intents and an answer is always present (the record carries the
`query`, `intent`, `answer`, `evidence`, `errors` fields by
construction, and `pipeline_invoke` is a total function, so no error
escapes the pipeline boundary). -/
theorem C4_invoke_total_complete (b : Collaborators) (q : String) (ctx : Option String) :
    (∃ it, (pipeline_invoke b q ctx).intent = some it ∧
      (it = "FAQ" ∨ it = "DataLookup" ∨ it = "Escalation")) ∧
    (∃ a, (pipeline_invoke b q ctx).answer = some a) := by
  unfold pipeline_invoke
  obtain ⟨x, hx, hx3⟩ :=
    router_node_intent3 (b.classify (safety_check_node (initState q ctx)).query)
      (safety_check_node (initState q ctx))
  dsimp only
  set s2 := router_node (b.classify (safety_check_node (initState q ctx)).query)
    (safety_check_node (initState q ctx)) with hs2
  rw [hx]
  simp only [Option.getD_some]
  rcases hx3 with h | h | h <;> subst h
  · rw [if_pos rfl]
    refine ⟨⟨"FAQ", ?_, Or.inl rfl⟩, ?_⟩
    · rw [validate_node_intent, synthesize_node_intent, retrieve_node_intent, hx]
    · exact Option.isSome_iff_exists.mp (validate_node_answer _)
  · rw [if_neg (by decide : ¬ ("DataLookup" : String) = "FAQ"), if_pos rfl]
    refine ⟨⟨"DataLookup", ?_, Or.inr (Or.inl rfl)⟩, ?_⟩
    · rw [validate_node_intent, synthesize_node_intent, tools_node_intent, hx]
    · exact Option.isSome_iff_exists.mp (validate_node_answer _)
  · rw [if_neg (by decide : ¬ ("Escalation" : String) = "FAQ"),
      if_neg (by decide : ¬ ("Escalation" : String) = "DataLookup")]
    refine ⟨⟨"Escalation", ?_, Or.inr (Or.inr rfl)⟩, ⟨escalationMessage s2.query, rfl⟩⟩
    rw [show (escalate_node s2).intent = s2.intent from rfl, hx]

/-! ### Infrastructure for the PII idempotence proof -/

theorem head?_app {a b : List Char} (ha : a ≠ []) : (a ++ b).head? = a.head? := by
  cases a with
  | nil => exact absurd rfl ha
  | cons c t => rfl

theorem getLast?_app {l q : List Char} (hq : q ≠ []) :
    (l ++ q).getLast? = q.getLast? := by
  rw [← List.head?_reverse, ← List.head?_reverse, List.reverse_append]
  exact head?_app (by simpa using hq)

theorem getLast?_mem {q : List Char} {cc : Char} (h : q.getLast? = some cc) :
    cc ∈ q := by
  rw [← List.head?_reverse] at h
  cases hq : q.reverse with
  | nil => rw [hq] at h; cases h
  | cons a b =>
    rw [hq] at h
    injection h with h1
    rw [← h1]
    have : a ∈ q.reverse := by rw [hq]; exact List.mem_cons_self _ _
    simpa using this

theorem wordB_eq (s : List Char) (i : Nat) : wordB s i = (prevWordy s i != wordAt s i) := rfl

theorem get?_len_le {s : List Char} {i : Nat} (h : s.length ≤ i) : s.get? i = none := by
  rw [List.get?_eq_getElem?]
  exact List.getElem?_eq_none h

theorem wordAt_len_le {s : List Char} {i : Nat} (h : s.length ≤ i) : wordAt s i = false := by
  unfold wordAt
  rw [get?_len_le h]
  rfl

theorem wordB_le {s : List Char} {i : Nat} (h : wordB s i = true) : i ≤ s.length := by
  by_contra hc
  push_neg at hc
  have h1 : wordAt s i = false := wordAt_len_le (by omega)
  have h2 : wordAt s (i - 1) = false := wordAt_len_le (by omega)
  rw [wordB_eq] at h
  unfold prevWordy at h
  rw [if_neg (by omega : ¬ i = 0), h1, h2] at h
  simp at h

theorem wordAt_app_left {α δ : List Char} {k : Nat} (h : k < α.length) :
    wordAt (α ++ δ) k = wordAt α k := by
  unfold wordAt
  rw [List.get?_eq_getElem?, List.get?_eq_getElem?, List.getElem?_append_left h]

theorem wordAt_app_mid (α δ : List Char) : wordAt (α ++ δ) α.length = wordyHead δ := by
  unfold wordAt wordyHead
  rw [List.get?_eq_getElem?, List.getElem?_append_right (Nat.le_refl _), Nat.sub_self]
  cases δ with
  | nil => rfl
  | cons c t => simp

theorem wordyLast_getAt (α : List Char) : wordyLast α = wordAt α (α.length - 1) := by
  unfold wordyLast wordAt
  rw [List.get?_eq_getElem?, List.getLast?_eq_getElem?]

theorem prevWordy_app (α δ : List Char) : prevWordy (α ++ δ) α.length = wordyLast α := by
  cases hα : α with
  | nil => rfl
  | cons c t =>
    rw [← hα]
    have hne : α ≠ [] := by rw [hα]; exact List.cons_ne_nil c t
    have hpos : 0 < α.length := List.length_pos.mpr hne
    unfold prevWordy
    rw [if_neg (by omega), wordAt_app_left (by omega), wordyLast_getAt]

theorem wordB_app (α δ : List Char) :
    wordB (α ++ δ) α.length = (wordyLast α != wordyHead δ) := by
  rw [wordB_eq, prevWordy_app, wordAt_app_mid]

theorem wordB_of_append {s α δ : List Char} (h : s = α ++ δ) :
    wordB s α.length = (wordyLast α != wordyHead δ) := by
  rw [h, wordB_app]

theorem slice_zero (s : List Char) (i : Nat) : slice s i 0 = [] := rfl

theorem slice_length {s : List Char} {i L : Nat} (h : i + L ≤ s.length) :
    (slice s i L).length = L := by
  unfold slice
  rw [List.length_take, List.length_drop]
  omega

theorem slice_cons {s : List Char} {i : Nat} {c : Char} (h : s.get? i = some c) (n : Nat) :
    slice s i (n + 1) = c :: slice s (i + 1) n := by
  rw [List.get?_eq_getElem?] at h
  have hlt : i < s.length := (List.getElem?_eq_some.mp h).1
  have hc : s[i] = c := by
    have := List.getElem?_eq_getElem hlt
    rw [this] at h
    injection h
  unfold slice
  rw [List.drop_eq_getElem_cons hlt, hc, List.take_succ_cons]

theorem slice_cat (s : List Char) (i a b : Nat) :
    slice s i (a + b) = slice s i a ++ slice s (i + a) b := by
  unfold slice
  rw [List.take_add, List.drop_drop]

theorem drop_slice_app (s : List Char) (i L : Nat) :
    s.drop i = slice s i L ++ s.drop (i + L) := by
  unfold slice
  conv_lhs => rw [← List.take_append_drop L (s.drop i)]
  rw [List.drop_drop]

theorem slice_decomp {s : List Char} {i L : Nat} (h : i + L ≤ s.length) :
    s = s.take i ++ slice s i L ++ s.drop (i + L) ∧ (s.take i).length = i := by
  constructor
  · conv_lhs => rw [← List.take_append_drop i s]
    rw [List.append_assoc]
    congr 1
    exact drop_slice_app s i L
  · rw [List.length_take]
    omega

theorem slice_of_append {s α w β : List Char} (h : s = α ++ w ++ β) :
    slice s α.length w.length = w := by
  unfold slice
  rw [h, List.append_assoc, List.drop_left, List.take_left]

theorem get?_of_append {s α β : List Char} {c : Char} (h : s = α ++ c :: β) :
    s.get? α.length = some c := by
  rw [h, List.get?_eq_getElem?, List.getElem?_append_right (Nat.le_refl _), Nat.sub_self]
  simp

theorem slice_take {s : List Char} {i : Nat} (m n : Nat) (h : m ≤ n) :
    slice s i m = (slice s i n).take m := by
  unfold slice
  rw [List.take_take, Nat.min_eq_left h]

theorem all_take {p : Char → Bool} {l : List Char} (n : Nat) (h : l.all p = true) :
    (l.take n).all p = true := by
  rw [List.all_eq_true] at h ⊢
  intro c hc
  exact h c (List.take_subset n l hc)

theorem slice_all_of_le {cls : Char → Bool} {s : List Char} {i m n : Nat} (hle : m ≤ n)
    (h : (slice s i n).all cls = true) : (slice s i m).all cls = true := by
  rw [slice_take m n hle]
  exact all_take m h

theorem tw_all (p : Char → Bool) (l : List Char) : (l.takeWhile p).all p = true := by
  induction l with
  | nil => rfl
  | cons c t ih =>
    cases hc : p c with
    | false => rw [List.takeWhile_cons_of_neg (by rw [hc]; exact Bool.false_ne_true)]; rfl
    | true =>
      rw [List.takeWhile_cons_of_pos hc, List.all_cons, hc]
      simpa using ih

theorem tw_next {p : Char → Bool} {l : List Char} {c : Char}
    (h : l.get? (l.takeWhile p).length = some c) : p c = false := by
  induction l with
  | nil => simp [List.get?] at h
  | cons d t ih =>
    cases hd : p d with
    | false =>
      rw [List.takeWhile_cons_of_neg (by rw [hd]; exact Bool.false_ne_true)] at h
      simp only [List.length_nil, List.get?] at h
      injection h with h1
      rw [← h1]
      exact hd
    | true =>
      rw [List.takeWhile_cons_of_pos hd] at h
      simp only [List.length_cons, List.get?] at h
      exact ih h

theorem tw_ge {p : Char → Bool} {l : List Char} {n : Nat} (hn : n ≤ l.length)
    (h : (l.take n).all p = true) : n ≤ (l.takeWhile p).length := by
  induction l generalizing n with
  | nil => simpa using hn
  | cons c t ih =>
    cases n with
    | zero => exact Nat.zero_le _
    | succ m =>
      rw [List.take_succ_cons, List.all_cons, Bool.and_eq_true] at h
      rw [List.takeWhile_cons_of_pos h.1]
      simp only [List.length_cons]
      exact Nat.succ_le_succ (ih (by simpa using hn) h.2)

theorem tw_eq_of {p : Char → Bool} {l u v : List Char} (h : l = u ++ v)
    (hu : u.all p = true) (hv : ∀ c, v.head? = some c → p c = false) :
    l.takeWhile p = u := by
  subst h
  induction u with
  | nil =>
    cases v with
    | nil => rfl
    | cons c t =>
      simp only [List.nil_append]
      rw [List.takeWhile_cons_of_neg (by rw [hv c rfl]; exact Bool.false_ne_true)]
  | cons c t ih =>
    rw [List.all_cons, Bool.and_eq_true] at hu
    rw [List.cons_append, List.takeWhile_cons_of_pos hu.1, ih hu.2]

theorem rl_take (cls : Char → Bool) (s : List Char) (i : Nat) :
    slice s i (runLen cls s i) = (s.drop i).takeWhile cls := by
  unfold slice runLen
  exact (List.prefix_iff_eq_take.mp (List.takeWhile_prefix cls)).symm

theorem rl_all (cls : Char → Bool) (s : List Char) (i : Nat) :
    (slice s i (runLen cls s i)).all cls = true := by
  rw [rl_take]
  exact tw_all cls (s.drop i)

theorem rl_bound (cls : Char → Bool) (s : List Char) (i : Nat) :
    runLen cls s i ≤ s.length - i := by
  unfold runLen
  calc ((s.drop i).takeWhile cls).length ≤ (s.drop i).length :=
        List.Sublist.length_le (List.takeWhile_sublist cls)
    _ = s.length - i := List.length_drop i s

theorem rl_next {cls : Char → Bool} {s : List Char} {i : Nat} {c : Char}
    (h : s.get? (i + runLen cls s i) = some c) : cls c = false := by
  have h2 : (s.drop i).get? ((s.drop i).takeWhile cls).length = some c := by
    rw [List.get?_eq_getElem?, List.getElem?_drop, ← List.get?_eq_getElem?]
    exact h
  exact tw_next h2

theorem rl_ge {cls : Char → Bool} {s : List Char} {i n : Nat} (hb : i + n ≤ s.length)
    (h : (slice s i n).all cls = true) : n ≤ runLen cls s i := by
  unfold runLen
  apply tw_ge
  · rw [List.length_drop]; omega
  · exact h

theorem rl_eq {cls : Char → Bool} {s : List Char} {i : Nat} {u v : List Char}
    (h : s.drop i = u ++ v) (hu : u.all cls = true)
    (hv : ∀ c, v.head? = some c → cls c = false) : runLen cls s i = u.length := by
  unfold runLen
  rw [tw_eq_of h hu hv]

theorem mapGetD_true {s : List Char} {i : Nat} {cls : Char → Bool}
    (h : ((s.get? i).map cls).getD false = true) :
    ∃ c, s.get? i = some c ∧ cls c = true := by
  cases hg : s.get? i with
  | none => rw [hg] at h; simp at h
  | some c => rw [hg] at h; exact ⟨c, rfl, h⟩

theorem tryEach_some {ps : List Nat} {k : Nat → Option Nat} {L : Nat}
    (h : tryEach ps k = some L) : ∃ a ∈ ps, k a = some L :=
  List.exists_of_findSome?_eq_some h

theorem tryEach_isSome {ps : List Nat} {k : Nat → Option Nat} {a : Nat}
    (ha : a ∈ ps) (h : (k a).isSome = true) : (tryEach ps k).isSome = true := by
  unfold tryEach
  induction ps with
  | nil => exact absurd ha (List.not_mem_nil a)
  | cons b t ih =>
    rw [List.findSome?_cons]
    cases hb : k b with
    | some v => rfl
    | none =>
      rcases List.mem_cons.mp ha with h1 | h1
      · rw [h1] at h; rw [hb] at h; simp at h
      · exact ih h1

theorem optCls_mem {cls : Char → Bool} {s : List Char} {i p : Nat}
    (h : p ∈ optCls cls s i) :
    p = i ∨ (p = i + 1 ∧ ∃ c, s.get? i = some c ∧ cls c = true) := by
  unfold optCls at h
  by_cases hc : ((s.get? i).map cls).getD false = true
  · rw [if_pos hc] at h
    rcases List.mem_cons.mp h with h1 | h1
    · exact Or.inr ⟨h1, mapGetD_true hc⟩
    · rcases List.mem_cons.mp h1 with h2 | h2
      · exact Or.inl h2
      · exact absurd h2 (List.not_mem_nil p)
  · rw [if_neg hc] at h
    rcases List.mem_cons.mp h with h1 | h1
    · exact Or.inl h1
    · exact absurd h1 (List.not_mem_nil p)

theorem optCls_self (cls : Char → Bool) (s : List Char) (i : Nat) : i ∈ optCls cls s i := by
  unfold optCls
  by_cases hc : ((s.get? i).map cls).getD false = true
  · rw [if_pos hc]; exact List.mem_cons_of_mem _ (List.mem_singleton.mpr rfl)
  · rw [if_neg hc]; exact List.mem_singleton.mpr rfl

theorem optCls_succ {cls : Char → Bool} {s : List Char} {i : Nat} {c : Char}
    (h : s.get? i = some c) (hc : cls c = true) : i + 1 ∈ optCls cls s i := by
  unfold optCls
  rw [if_pos (by rw [h]; exact hc)]
  exact List.mem_cons_self _ _

theorem digsN_some {s : List Char} {i n j : Nat} (hn : 0 < n) (h : digsN s i n = some j) :
    j = i + n ∧ i + n ≤ s.length ∧ (slice s i n).all isDigC = true := by
  unfold digsN at h
  by_cases hc : n ≤ (s.drop i).length ∧ ((s.drop i).take n).all isDigC = true
  · rw [if_pos hc] at h
    injection h with h1
    rw [List.length_drop] at hc
    exact ⟨h1.symm, by omega, hc.2⟩
  · rw [if_neg hc] at h
    exact absurd h (by simp)

theorem digsN_of {s : List Char} {i n : Nat} (hb : i + n ≤ s.length)
    (h : (slice s i n).all isDigC = true) : digsN s i n = some (i + n) := by
  unfold digsN
  rw [if_pos ⟨by rw [List.length_drop]; omega, h⟩]

/-! ### Positional helpers over append decompositions -/

theorem slice_here {s P w rest : List Char} (h : s = P ++ (w ++ rest)) :
    slice s P.length w.length = w :=
  slice_of_append (by rw [h, List.append_assoc])

theorem get?_here {s P : List Char} {c : Char} {rest : List Char}
    (h : s = P ++ (c :: rest)) : s.get? P.length = some c :=
  get?_of_append h

theorem get?_here1 {s P : List Char} {a c : Char} {rest : List Char}
    (h : s = P ++ (a :: c :: rest)) : s.get? (P.length + 1) = some c := by
  have h2 : s = (P ++ [a]) ++ (c :: rest) := by rw [h]; simp
  have h3 := get?_of_append h2
  rw [List.length_append] at h3
  simpa using h3

theorem get?_here2 {s P : List Char} {a b c : Char} {rest : List Char}
    (h : s = P ++ (a :: b :: c :: rest)) : s.get? (P.length + 2) = some c := by
  have h2 : s = (P ++ [a, b]) ++ (c :: rest) := by rw [h]; simp
  have h3 := get?_of_append h2
  rw [List.length_append] at h3
  simpa using h3

theorem len_here {s P w rest : List Char} (h : s = P ++ (w ++ rest)) :
    P.length + w.length ≤ s.length := by
  rw [h, List.length_append, List.length_append]
  omega

theorem digsN_here {s P d rest : List Char} {n : Nat} (h : s = P ++ (d ++ rest))
    (hd : digGrp n d) : digsN s P.length n = some (P.length + n) := by
  obtain ⟨hlen, hall⟩ := hd
  have h1 := slice_here h
  have h2 := len_here h
  rw [hlen] at h1 h2
  apply digsN_of h2
  rw [h1]
  exact hall

theorem optCls_here {s P w rest : List Char} {cls : Char → Bool}
    (h : s = P ++ (w ++ rest)) (hw : optSep cls w) :
    P.length + w.length ∈ optCls cls s P.length := by
  rcases hw with h0 | ⟨c, hc, hcls⟩
  · subst h0
    simpa using optCls_self cls s P.length
  · subst hc
    rw [show s = P ++ (c :: rest) by simpa using h] at *
    simpa using optCls_succ (get?_here rfl) hcls

theorem app_shift {s P w rest : List Char} (h : s = P ++ (w ++ rest)) :
    s = (P ++ w) ++ rest := by
  rw [h, List.append_assoc]

theorem len_app (P w : List Char) : (P ++ w).length = P.length + w.length :=
  List.length_append P w

theorem slice_glue {s : List Char} (i L1 L2 : Nat) {j : Nat} (h : j = i + L1) :
    slice s i (L1 + L2) = slice s i L1 ++ slice s j L2 := by
  rw [h, slice_cat]

/-! ### Characterisation of `ssnAt` -/

theorem ssnAt_fwd {s : List Char} {i L : Nat} (h : ssnAt s i = some L) :
    i + L ≤ s.length ∧ 0 < L ∧ wordB s i = true ∧ wordB s (i + L) = true ∧
    innerSsn (slice s i L) := by
  unfold ssnAt at h
  by_cases hw : wordB s i = true
  case neg => rw [if_pos hw] at h; cases h
  rw [if_neg (not_not_intro hw)] at h
  rw [Option.bind_eq_some] at h
  obtain ⟨p1, h1, h⟩ := h
  obtain ⟨hp1, hb1, hd1⟩ := digsN_some (by decide) h1
  subst hp1
  by_cases hda : s.get? (i + 3) = some '-'
  case neg => rw [if_pos hda] at h; cases h
  rw [if_neg (not_not_intro hda)] at h
  rw [Option.bind_eq_some] at h
  obtain ⟨p2, h2, h⟩ := h
  obtain ⟨hp2, hb2, hd2⟩ := digsN_some (by decide) h2
  subst hp2
  by_cases hdb : s.get? (i + 3 + 1 + 2) = some '-'
  case neg => rw [if_pos hdb] at h; cases h
  rw [if_neg (not_not_intro hdb)] at h
  rw [Option.bind_eq_some] at h
  obtain ⟨p3, h3, h⟩ := h
  obtain ⟨hp3, hb3, hd3⟩ := digsN_some (by decide) h3
  subst hp3
  by_cases hwe : wordB s (i + 3 + 1 + 2 + 1 + 4) = true
  case neg => rw [if_neg hwe] at h; cases h
  rw [if_pos hwe] at h
  injection h with hL
  have hLv : L = 11 := by omega
  subst hLv
  have hb : i + 11 ≤ s.length := by omega
  refine ⟨hb, by decide, hw, by exact hwe, ?_⟩
  have e1 : slice s i 11 = slice s i 3 ++ slice s (i + 3) 8 := by
    rw [show (11 : Nat) = 3 + 8 from rfl]
    exact slice_glue i 3 8 rfl
  have e2 : slice s (i + 3) 8 = '-' :: slice s (i + 4) 7 := by
    rw [show (8 : Nat) = 7 + 1 from rfl]
    rw [slice_cons hda 7]
  have e3 : slice s (i + 4) 7 = slice s (i + 4) 2 ++ slice s (i + 6) 5 := by
    rw [show (7 : Nat) = 2 + 5 from rfl]
    exact slice_glue (i + 4) 2 5 (by omega)
  have e4 : slice s (i + 6) 5 = '-' :: slice s (i + 7) 4 := by
    rw [show (5 : Nat) = 4 + 1 from rfl]
    have hdb2 : s.get? (i + 6) = some '-' := hdb
    rw [slice_cons hdb2 4]
  refine ⟨slice s i 3, slice s (i + 4) 2, slice s (i + 7) 4, ?_, ?_, ?_, ?_⟩
  · rw [e1, e2, e3, e4]
  · exact ⟨slice_length (by omega), hd1⟩
  · exact ⟨slice_length (by omega), hd2⟩
  · exact ⟨slice_length (by omega), hd3⟩

theorem ssnAt_bwd {s : List Char} {i L : Nat} (hw1 : wordB s i = true)
    (hw2 : wordB s (i + L) = true) (hb : i + L ≤ s.length)
    (hin : innerSsn (slice s i L)) : (ssnAt s i).isSome = true := by
  obtain ⟨d1, d2, d3, heq, hg1, hg2, hg3⟩ := hin
  obtain ⟨hl1, ha1⟩ := hg1
  obtain ⟨hl2, ha2⟩ := hg2
  obtain ⟨hl3, ha3⟩ := hg3
  have hslen : (slice s i L).length = L := slice_length hb
  have hLv : L = 11 := by
    rw [heq] at hslen
    simp only [List.length_append, List.length_cons] at hslen
    omega
  subst hLv
  obtain ⟨hs, hα⟩ := slice_decomp hb
  rw [heq] at hs
  set α := s.take i with hαdef
  set β := s.drop (i + 11) with hβdef
  have hs1 : s = α ++ (d1 ++ ('-' :: (d2 ++ ('-' :: (d3 ++ β))))) := by
    rw [hs]
    simp [List.append_assoc]
  have hD1 : digsN s i 3 = some (i + 3) := by
    have := digsN_here hs1 ⟨hl1, ha1⟩
    rwa [hα] at this
  have hs2 : s = (α ++ d1) ++ ('-' :: (d2 ++ ('-' :: (d3 ++ β)))) := app_shift hs1
  have hC1 : s.get? (i + 3) = some '-' := by
    have := get?_here hs2
    rwa [len_app, hα, hl1] at this
  have hs3 : s = ((α ++ d1) ++ ['-']) ++ (d2 ++ ('-' :: (d3 ++ β))) := by
    rw [hs2]; simp
  have hD2 : digsN s (i + 4) 2 = some (i + 6) := by
    have := digsN_here hs3 ⟨hl2, ha2⟩
    rwa [len_app, len_app, hα, hl1, show (List.length ['-']) = 1 from rfl] at this
  have hs4 : s = (((α ++ d1) ++ ['-']) ++ d2) ++ ('-' :: (d3 ++ β)) := app_shift hs3
  have hC2 : s.get? (i + 6) = some '-' := by
    have := get?_here hs4
    rwa [len_app, len_app, len_app, hα, hl1, hl2,
      show (List.length ['-']) = 1 from rfl] at this
  have hs5 : s = ((((α ++ d1) ++ ['-']) ++ d2) ++ ['-']) ++ (d3 ++ β) := by
    rw [hs4]; simp
  have hD3 : digsN s (i + 7) 4 = some (i + 11) := by
    have := digsN_here hs5 ⟨hl3, ha3⟩
    rwa [len_app, len_app, len_app, len_app, hα, hl1, hl2,
      show (List.length ['-']) = 1 from rfl] at this
  unfold ssnAt
  rw [if_neg (not_not_intro hw1), hD1]
  rw [Option.some_bind]
  rw [if_neg (not_not_intro hC1)]
  rw [show i + 3 + 1 = i + 4 from by omega, hD2, Option.some_bind]
  rw [if_neg (not_not_intro hC2)]
  rw [show i + 6 + 1 = i + 7 from by omega, hD3, Option.some_bind]
  rw [if_pos hw2]
  rfl

/-! ### Characterisation of `ccAt` -/

theorem optCls_fwd {cls : Char → Bool} {s : List Char} {i p : Nat}
    (h : p ∈ optCls cls s i) :
    ∃ w, optSep cls w ∧ p = i + w.length ∧ slice s i w.length = w := by
  rcases optCls_mem h with h1 | ⟨h1, c, hg, hc⟩
  · exact ⟨[], Or.inl rfl, by simpa using h1, rfl⟩
  · refine ⟨[c], Or.inr ⟨c, rfl, hc⟩, by simpa using h1, ?_⟩
    rw [show (List.length [c]) = 0 + 1 from rfl, slice_cons hg 0]
    rfl

theorem ccAt_fwd {s : List Char} {i L : Nat} (h : ccAt s i = some L) :
    i + L ≤ s.length ∧ 0 < L ∧ wordB s i = true ∧ wordB s (i + L) = true ∧
    innerCc (slice s i L) := by
  unfold ccAt at h
  by_cases hw : wordB s i = true
  case neg => rw [if_pos hw] at h; cases h
  rw [if_neg (not_not_intro hw)] at h
  rw [Option.bind_eq_some] at h
  obtain ⟨q1, h1, h⟩ := h
  obtain ⟨hq1, hb1, hd1⟩ := digsN_some (by decide) h1
  subst hq1
  obtain ⟨a, hamem, h⟩ := tryEach_some h
  obtain ⟨s1, hs1opt, haeq, hs1sl⟩ := optCls_fwd hamem
  subst haeq
  rw [Option.bind_eq_some] at h
  obtain ⟨q2, h2, h⟩ := h
  obtain ⟨hq2, hb2, hd2⟩ := digsN_some (by decide) h2
  subst hq2
  obtain ⟨b, hbmem, h⟩ := tryEach_some h
  obtain ⟨s2, hs2opt, hbeq, hs2sl⟩ := optCls_fwd hbmem
  subst hbeq
  rw [Option.bind_eq_some] at h
  obtain ⟨q3, h3, h⟩ := h
  obtain ⟨hq3, hb3, hd3⟩ := digsN_some (by decide) h3
  subst hq3
  obtain ⟨c, hcmem, h⟩ := tryEach_some h
  obtain ⟨s3, hs3opt, hceq, hs3sl⟩ := optCls_fwd hcmem
  subst hceq
  rw [Option.bind_eq_some] at h
  obtain ⟨q4, h4, h⟩ := h
  obtain ⟨hq4, hb4, hd4⟩ := digsN_some (by decide) h4
  subst hq4
  by_cases hwe : wordB s (i + 4 + s1.length + 4 + s2.length + 4 + s3.length + 4) = true
  case neg => rw [if_neg hwe] at h; cases h
  rw [if_pos hwe] at h
  injection h with hL
  have hLv : L = 4 + (s1.length + (4 + (s2.length + (4 + (s3.length + 4))))) := by omega
  have hbnd : i + L ≤ s.length := by omega
  refine ⟨hbnd, by omega, hw, by rw [show i + L =
    i + 4 + s1.length + 4 + s2.length + 4 + s3.length + 4 from by omega]; exact hwe, ?_⟩
  have e0 : slice s i L =
      slice s i 4 ++ slice s (i + 4) (s1.length + (4 + (s2.length + (4 + (s3.length + 4))))) := by
    rw [hLv]
    exact slice_glue i 4 _ rfl
  have e1 : slice s (i + 4) (s1.length + (4 + (s2.length + (4 + (s3.length + 4))))) =
      s1 ++ slice s (i + 4 + s1.length) (4 + (s2.length + (4 + (s3.length + 4)))) := by
    rw [slice_glue (i + 4) s1.length _ rfl, hs1sl]
  have e2 : slice s (i + 4 + s1.length) (4 + (s2.length + (4 + (s3.length + 4)))) =
      slice s (i + 4 + s1.length) 4 ++
        slice s (i + 4 + s1.length + 4) (s2.length + (4 + (s3.length + 4))) := by
    exact slice_glue _ 4 _ rfl
  have e3 : slice s (i + 4 + s1.length + 4) (s2.length + (4 + (s3.length + 4))) =
      s2 ++ slice s (i + 4 + s1.length + 4 + s2.length) (4 + (s3.length + 4)) := by
    rw [slice_glue _ s2.length _ rfl, hs2sl]
  have e4 : slice s (i + 4 + s1.length + 4 + s2.length) (4 + (s3.length + 4)) =
      slice s (i + 4 + s1.length + 4 + s2.length) 4 ++
        slice s (i + 4 + s1.length + 4 + s2.length + 4) (s3.length + 4) := by
    exact slice_glue _ 4 _ rfl
  have e5 : slice s (i + 4 + s1.length + 4 + s2.length + 4) (s3.length + 4) =
      s3 ++ slice s (i + 4 + s1.length + 4 + s2.length + 4 + s3.length) 4 := by
    rw [slice_glue _ s3.length _ rfl, hs3sl]
  refine ⟨slice s i 4, s1, slice s (i + 4 + s1.length) 4, s2,
    slice s (i + 4 + s1.length + 4 + s2.length) 4, s3,
    slice s (i + 4 + s1.length + 4 + s2.length + 4 + s3.length) 4, ?_, ?_, hs1opt, ?_,
    hs2opt, ?_, hs3opt, ?_⟩
  · rw [e0, e1, e2, e3, e4, e5]
    simp [List.append_assoc]
  · exact ⟨slice_length (by omega), hd1⟩
  · exact ⟨slice_length (by omega), hd2⟩
  · exact ⟨slice_length (by omega), hd3⟩
  · exact ⟨slice_length (by omega), hd4⟩

theorem ccAt_bwd {s : List Char} {i L : Nat} (hw1 : wordB s i = true)
    (hw2 : wordB s (i + L) = true) (hb : i + L ≤ s.length)
    (hin : innerCc (slice s i L)) : (ccAt s i).isSome = true := by
  obtain ⟨d1, s1, d2, s2, d3, s3, d4, heq, hg1, ho1, hg2, ho2, hg3, ho3, hg4⟩ := hin
  have hslen : (slice s i L).length = L := slice_length hb
  have hLv : L = 4 + s1.length + 4 + s2.length + 4 + s3.length + 4 := by
    rw [heq] at hslen
    simp only [List.length_append] at hslen
    have := hg1.1
    have := hg2.1
    have := hg3.1
    have := hg4.1
    omega
  obtain ⟨hs, hα⟩ := slice_decomp hb
  rw [heq] at hs
  set α := s.take i with hαdef
  set β := s.drop (i + L) with hβdef
  have hs1 : s = α ++ (d1 ++ (s1 ++ (d2 ++ (s2 ++ (d3 ++ (s3 ++ (d4 ++ β))))))) := by
    rw [hs]
    simp [List.append_assoc]
  have hD1 : digsN s i 4 = some (i + 4) := by
    have := digsN_here hs1 hg1
    rwa [hα] at this
  have hs2 : s = (α ++ d1) ++ (s1 ++ (d2 ++ (s2 ++ (d3 ++ (s3 ++ (d4 ++ β)))))) :=
    app_shift hs1
  have hP1 : (α ++ d1).length = i + 4 := by rw [len_app, hα, hg1.1]
  have hA1 : i + 4 + s1.length ∈ optCls sepDashWs s (i + 4) := by
    have := optCls_here hs2 ho1
    rwa [hP1] at this
  have hs3 : s = ((α ++ d1) ++ s1) ++ (d2 ++ (s2 ++ (d3 ++ (s3 ++ (d4 ++ β))))) :=
    app_shift hs2
  have hP2 : ((α ++ d1) ++ s1).length = i + 4 + s1.length := by rw [len_app, hP1]
  have hD2 : digsN s (i + 4 + s1.length) 4 = some (i + 4 + s1.length + 4) := by
    have := digsN_here hs3 hg2
    rwa [hP2] at this
  have hs4 : s = (((α ++ d1) ++ s1) ++ d2) ++ (s2 ++ (d3 ++ (s3 ++ (d4 ++ β)))) :=
    app_shift hs3
  have hP3 : ((((α ++ d1) ++ s1) ++ d2)).length = i + 4 + s1.length + 4 := by
    rw [len_app, hP2, hg2.1]
  have hA2 : i + 4 + s1.length + 4 + s2.length ∈
      optCls sepDashWs s (i + 4 + s1.length + 4) := by
    have := optCls_here hs4 ho2
    rwa [hP3] at this
  have hs5 : s = ((((α ++ d1) ++ s1) ++ d2) ++ s2) ++ (d3 ++ (s3 ++ (d4 ++ β))) :=
    app_shift hs4
  have hP4 : (((((α ++ d1) ++ s1) ++ d2) ++ s2)).length = i + 4 + s1.length + 4 + s2.length := by
    rw [len_app, hP3]
  have hD3 : digsN s (i + 4 + s1.length + 4 + s2.length) 4 =
      some (i + 4 + s1.length + 4 + s2.length + 4) := by
    have := digsN_here hs5 hg3
    rwa [hP4] at this
  have hs6 : s = (((((α ++ d1) ++ s1) ++ d2) ++ s2) ++ d3) ++ (s3 ++ (d4 ++ β)) :=
    app_shift hs5
  have hP5 : ((((((α ++ d1) ++ s1) ++ d2) ++ s2) ++ d3)).length =
      i + 4 + s1.length + 4 + s2.length + 4 := by
    rw [len_app, hP4, hg3.1]
  have hA3 : i + 4 + s1.length + 4 + s2.length + 4 + s3.length ∈
      optCls sepDashWs s (i + 4 + s1.length + 4 + s2.length + 4) := by
    have := optCls_here hs6 ho3
    rwa [hP5] at this
  have hs7 : s = ((((((α ++ d1) ++ s1) ++ d2) ++ s2) ++ d3) ++ s3) ++ (d4 ++ β) :=
    app_shift hs6
  have hP6 : (((((((α ++ d1) ++ s1) ++ d2) ++ s2) ++ d3) ++ s3)).length =
      i + 4 + s1.length + 4 + s2.length + 4 + s3.length := by
    rw [len_app, hP5]
  have hD4 : digsN s (i + 4 + s1.length + 4 + s2.length + 4 + s3.length) 4 =
      some (i + 4 + s1.length + 4 + s2.length + 4 + s3.length + 4) := by
    have := digsN_here hs7 hg4
    rwa [hP6] at this
  unfold ccAt
  rw [if_neg (not_not_intro hw1), hD1, Option.some_bind]
  apply tryEach_isSome hA1
  dsimp only
  rw [hD2, Option.some_bind]
  apply tryEach_isSome hA2
  dsimp only
  rw [hD3, Option.some_bind]
  apply tryEach_isSome hA3
  dsimp only
  rw [hD4, Option.some_bind]
  rw [show i + 4 + s1.length + 4 + s2.length + 4 + s3.length + 4 = i + L from by omega]
  rw [if_pos hw2]
  rfl

/-! ### Characterisation of `phoneAt` -/

theorem paren_fwd {s : List Char} {a b : Nat} {ch : Char}
    (h : b ∈ (if s.get? a = some ch then [a + 1, a] else [a])) :
    ∃ w, (w = [] ∨ w = [ch]) ∧ b = a + w.length ∧ slice s a w.length = w := by
  by_cases hp : s.get? a = some ch
  · rw [if_pos hp] at h
    rcases List.mem_cons.mp h with h1 | h1
    · refine ⟨[ch], Or.inr rfl, by simpa using h1, ?_⟩
      rw [show (List.length [ch]) = 0 + 1 from rfl, slice_cons hp 0]
      rfl
    · rcases List.mem_cons.mp h1 with h2 | h2
      · exact ⟨[], Or.inl rfl, by simpa using h2, rfl⟩
      · exact absurd h2 (List.not_mem_nil b)
  · rw [if_neg hp] at h
    rcases List.mem_cons.mp h with h1 | h1
    · exact ⟨[], Or.inl rfl, by simpa using h1, rfl⟩
    · exact absurd h1 (List.not_mem_nil b)

theorem paren_bwd {s P w rest : List Char} {ch : Char}
    (h : s = P ++ (w ++ rest)) (hw : w = [] ∨ w = [ch]) :
    P.length + w.length ∈
      (if s.get? P.length = some ch then [P.length + 1, P.length] else [P.length]) := by
  rcases hw with h0 | h0
  · subst h0
    by_cases hp : s.get? P.length = some ch
    · rw [if_pos hp]
      simpa using List.mem_cons_of_mem _ (List.mem_singleton.mpr rfl)
    · rw [if_neg hp]
      simpa using List.mem_singleton.mpr rfl
  · subst h0
    have hp : s.get? P.length = some ch := get?_here (by simpa using h)
    rw [if_pos hp]
    simpa using List.mem_cons_self _ _

theorem phonePre_fwd {s : List Char} {i a : Nat} (h : a ∈ phonePre s i) :
    ∃ w, preGrp w ∧ a = i + w.length ∧ slice s i w.length = w := by
  unfold phonePre at h
  rcases List.mem_append.mp h with h1 | h1
  · obtain ⟨p1, hp1, ha⟩ := List.mem_flatMap.mp h1
    by_cases hone : s.get? p1 = some '1'
    case neg => rw [if_neg hone] at ha; exact absurd ha (List.not_mem_nil a)
    rw [if_pos hone] at ha
    obtain ⟨v, hvopt, haeq, hvsl⟩ := optCls_fwd ha
    by_cases hplus : s.get? i = some '+'
    · rw [if_pos hplus] at hp1
      rcases List.mem_cons.mp hp1 with h2 | h2
      · subst h2
        refine ⟨'+' :: '1' :: v, ?_, by simp only [List.length_cons]; omega, ?_⟩
        · rcases hvopt with h0 | ⟨c, hc, hcs⟩
          · subst h0; exact Or.inr (Or.inr (Or.inl rfl))
          · subst hc; exact Or.inr (Or.inr (Or.inr ⟨c, Or.inr rfl, hcs⟩))
        · rw [show (('+' :: '1' :: v).length) = v.length + 1 + 1 from by simp only [List.length_cons]]
          rw [slice_cons hplus (v.length + 1), slice_cons hone v.length, hvsl]
      · rcases List.mem_cons.mp h2 with h3 | h3
        · subst h3
          rw [hplus] at hone
          exact absurd hone (by decide)
        · exact absurd h3 (List.not_mem_nil p1)
    · rw [if_neg hplus] at hp1
      rcases List.mem_cons.mp hp1 with h2 | h2
      · subst h2
        refine ⟨'1' :: v, ?_, by simp only [List.length_cons]; omega, ?_⟩
        · rcases hvopt with h0 | ⟨c, hc, hcs⟩
          · subst h0; exact Or.inr (Or.inl rfl)
          · subst hc; exact Or.inr (Or.inr (Or.inr ⟨c, Or.inl rfl, hcs⟩))
        · rw [show (('1' :: v).length) = v.length + 1 from by simp]
          rw [slice_cons hone v.length, hvsl]
      · exact absurd h2 (List.not_mem_nil p1)
  · rcases List.mem_cons.mp h1 with h2 | h2
    · exact ⟨[], Or.inl rfl, by simpa using h2, rfl⟩
    · exact absurd h2 (List.not_mem_nil a)

theorem phonePre_bwd {s P w rest : List Char} (h : s = P ++ (w ++ rest)) (hw : preGrp w) :
    P.length + w.length ∈ phonePre s P.length := by
  unfold phonePre
  rcases hw with h0 | h0 | h0 | ⟨c, hc, hcs⟩
  · subst h0
    apply List.mem_append_right
    simpa using List.mem_singleton.mpr rfl
  · subst h0
    apply List.mem_append_left
    apply List.mem_flatMap.mpr
    have hone : s.get? P.length = some '1' := get?_here (by simpa using h)
    refine ⟨P.length, ?_, ?_⟩
    · rw [if_neg (by rw [hone]; decide)]
      exact List.mem_singleton.mpr rfl
    · rw [if_pos hone]
      simpa using optCls_self sepPD s (P.length + 1)
  · subst h0
    apply List.mem_append_left
    apply List.mem_flatMap.mpr
    have hplus : s.get? P.length = some '+' := get?_here (by simpa using h)
    have hone : s.get? (P.length + 1) = some '1' := get?_here1 (by simpa using h)
    refine ⟨P.length + 1, ?_, ?_⟩
    · rw [if_pos hplus]
      exact List.mem_cons_self _ _
    · rw [if_pos hone]
      simpa using optCls_self sepPD s (P.length + 2)
  · rcases hc with h0 | h0
    · subst h0
      apply List.mem_append_left
      apply List.mem_flatMap.mpr
      have hone : s.get? P.length = some '1' := get?_here (by simpa using h)
      have hsep : s.get? (P.length + 1) = some c := get?_here1 (by simpa using h)
      refine ⟨P.length, ?_, ?_⟩
      · rw [if_neg (by rw [hone]; decide)]
        exact List.mem_singleton.mpr rfl
      · rw [if_pos hone]
        simpa using optCls_succ hsep hcs
    · subst h0
      apply List.mem_append_left
      apply List.mem_flatMap.mpr
      have hplus : s.get? P.length = some '+' := get?_here (by simpa using h)
      have hone : s.get? (P.length + 1) = some '1' := get?_here1 (by simpa using h)
      have hsep : s.get? (P.length + 2) = some c := get?_here2 (by simpa using h)
      refine ⟨P.length + 1, ?_, ?_⟩
      · rw [if_pos hplus]
        exact List.mem_cons_self _ _
      · rw [if_pos hone]
        simpa using optCls_succ hsep hcs

theorem phoneAt_fwd {s : List Char} {i L : Nat} (h : phoneAt s i = some L) :
    i + L ≤ s.length ∧ 0 < L ∧ wordB s i = true ∧ wordB s (i + L) = true ∧
    innerPhone (slice s i L) := by
  unfold phoneAt at h
  by_cases hw : wordB s i = true
  case neg => rw [if_pos hw] at h; cases h
  rw [if_neg (not_not_intro hw)] at h
  obtain ⟨a, hamem, h⟩ := tryEach_some h
  obtain ⟨pre, hpre, haeq, hpresl⟩ := phonePre_fwd hamem
  subst haeq
  obtain ⟨b, hbmem, h⟩ := tryEach_some h
  obtain ⟨lp, hlp, hbeq, hlpsl⟩ := paren_fwd hbmem
  subst hbeq
  rw [Option.bind_eq_some] at h
  obtain ⟨q1, h1, h⟩ := h
  obtain ⟨hq1, hb1, hd1⟩ := digsN_some (by decide) h1
  subst hq1
  obtain ⟨c, hcmem, h⟩ := tryEach_some h
  obtain ⟨rp, hrp, hceq, hrpsl⟩ := paren_fwd hcmem
  subst hceq
  obtain ⟨d, hdmem, h⟩ := tryEach_some h
  obtain ⟨s1, hs1opt, hdeq, hs1sl⟩ := optCls_fwd hdmem
  subst hdeq
  rw [Option.bind_eq_some] at h
  obtain ⟨q2, h2, h⟩ := h
  obtain ⟨hq2, hb2, hd2⟩ := digsN_some (by decide) h2
  subst hq2
  obtain ⟨e, hemem, h⟩ := tryEach_some h
  obtain ⟨s2, hs2opt, heeq, hs2sl⟩ := optCls_fwd hemem
  subst heeq
  rw [Option.bind_eq_some] at h
  obtain ⟨q3, h3, h⟩ := h
  obtain ⟨hq3, hb3, hd3⟩ := digsN_some (by decide) h3
  subst hq3
  set p0 := i + pre.length with hp0
  set p1 := p0 + lp.length with hp1
  set p2 := p1 + 3 + rp.length with hp2
  set p3 := p2 + s1.length with hp3
  set p4 := p3 + 3 + s2.length with hp4
  by_cases hwe : wordB s (p4 + 4) = true
  case neg => rw [if_neg hwe] at h; cases h
  rw [if_pos hwe] at h
  injection h with hL
  have hLv : L = pre.length + (lp.length + (3 + (rp.length + (s1.length +
      (3 + (s2.length + 4)))))) := by omega
  have hbnd : i + L ≤ s.length := by omega
  refine ⟨hbnd, by omega, hw, by rw [show i + L = p4 + 4 from by omega]; exact hwe, ?_⟩
  have e0 : slice s i L = pre ++ slice s p0 (lp.length + (3 + (rp.length + (s1.length +
      (3 + (s2.length + 4)))))) := by
    rw [hLv, slice_glue i pre.length _ rfl, hpresl]
  have e1 : slice s p0 (lp.length + (3 + (rp.length + (s1.length + (3 + (s2.length + 4)))))) =
      lp ++ slice s p1 (3 + (rp.length + (s1.length + (3 + (s2.length + 4))))) := by
    rw [slice_glue p0 lp.length _ rfl, hlpsl]
  have e2 : slice s p1 (3 + (rp.length + (s1.length + (3 + (s2.length + 4))))) =
      slice s p1 3 ++ slice s (p1 + 3) (rp.length + (s1.length + (3 + (s2.length + 4)))) :=
    slice_glue p1 3 _ rfl
  have e3 : slice s (p1 + 3) (rp.length + (s1.length + (3 + (s2.length + 4)))) =
      rp ++ slice s p2 (s1.length + (3 + (s2.length + 4))) := by
    rw [slice_glue (p1 + 3) rp.length _ hp2, hrpsl]
  have e4 : slice s p2 (s1.length + (3 + (s2.length + 4))) =
      s1 ++ slice s p3 (3 + (s2.length + 4)) := by
    rw [slice_glue p2 s1.length _ rfl, hs1sl]
  have e5 : slice s p3 (3 + (s2.length + 4)) =
      slice s p3 3 ++ slice s (p3 + 3) (s2.length + 4) :=
    slice_glue p3 3 _ rfl
  have e6 : slice s (p3 + 3) (s2.length + 4) = s2 ++ slice s p4 4 := by
    rw [slice_glue (p3 + 3) s2.length _ hp4, hs2sl]
  refine ⟨pre, lp, slice s p1 3, rp, s1, slice s p3 3, s2, slice s p4 4, ?_, hpre, hlp, ?_,
    hrp, hs1opt, ?_, hs2opt, ?_⟩
  · rw [e0, e1, e2, e3, e4, e5, e6]
    simp [List.append_assoc]
  · exact ⟨slice_length (by omega), hd1⟩
  · exact ⟨slice_length (by omega), hd2⟩
  · exact ⟨slice_length (by omega), hd3⟩

theorem phoneAt_bwd {s : List Char} {i L : Nat} (hw1 : wordB s i = true)
    (hw2 : wordB s (i + L) = true) (hb : i + L ≤ s.length)
    (hin : innerPhone (slice s i L)) : (phoneAt s i).isSome = true := by
  obtain ⟨pre, lp, d1, rp, s1, d2, s2, d3, heq, hpre, hlp, hg1, hrp, ho1, hg2, ho2, hg3⟩ := hin
  have hslen : (slice s i L).length = L := slice_length hb
  have hLv : L = pre.length + lp.length + 3 + rp.length + s1.length + 3 + s2.length + 4 := by
    rw [heq] at hslen
    simp only [List.length_append] at hslen
    have := hg1.1
    have := hg2.1
    have := hg3.1
    omega
  obtain ⟨hs, hα⟩ := slice_decomp hb
  rw [heq] at hs
  set α := s.take i with hαdef
  set β := s.drop (i + L) with hβdef
  have hs1 : s = α ++ (pre ++ (lp ++ (d1 ++ (rp ++ (s1 ++ (d2 ++ (s2 ++ (d3 ++ β)))))))) := by
    rw [hs]
    simp [List.append_assoc]
  have hA1 : i + pre.length ∈ phonePre s i := by
    have := phonePre_bwd hs1 hpre
    rwa [hα] at this
  have hs2 : s = (α ++ pre) ++ (lp ++ (d1 ++ (rp ++ (s1 ++ (d2 ++ (s2 ++ (d3 ++ β))))))) :=
    app_shift hs1
  have hP1 : (α ++ pre).length = i + pre.length := by rw [len_app, hα]
  have hA2 : i + pre.length + lp.length ∈
      (if s.get? (i + pre.length) = some '(' then
        [i + pre.length + 1, i + pre.length] else [i + pre.length]) := by
    have := paren_bwd hs2 hlp
    rwa [hP1] at this
  have hs3 : s = ((α ++ pre) ++ lp) ++ (d1 ++ (rp ++ (s1 ++ (d2 ++ (s2 ++ (d3 ++ β)))))) :=
    app_shift hs2
  have hP2 : ((α ++ pre) ++ lp).length = i + pre.length + lp.length := by rw [len_app, hP1]
  have hD1 : digsN s (i + pre.length + lp.length) 3 =
      some (i + pre.length + lp.length + 3) := by
    have := digsN_here hs3 hg1
    rwa [hP2] at this
  have hs4 : s = (((α ++ pre) ++ lp) ++ d1) ++ (rp ++ (s1 ++ (d2 ++ (s2 ++ (d3 ++ β))))) :=
    app_shift hs3
  have hP3 : ((((α ++ pre) ++ lp) ++ d1)).length = i + pre.length + lp.length + 3 := by
    rw [len_app, hP2, hg1.1]
  have hA3 : i + pre.length + lp.length + 3 + rp.length ∈
      (if s.get? (i + pre.length + lp.length + 3) = some ')' then
        [i + pre.length + lp.length + 3 + 1, i + pre.length + lp.length + 3]
      else [i + pre.length + lp.length + 3]) := by
    have := paren_bwd hs4 hrp
    rwa [hP3] at this
  have hs5 : s = ((((α ++ pre) ++ lp) ++ d1) ++ rp) ++ (s1 ++ (d2 ++ (s2 ++ (d3 ++ β)))) :=
    app_shift hs4
  have hP4 : (((((α ++ pre) ++ lp) ++ d1) ++ rp)).length =
      i + pre.length + lp.length + 3 + rp.length := by
    rw [len_app, hP3]
  have hA4 : i + pre.length + lp.length + 3 + rp.length + s1.length ∈
      optCls sepPDS s (i + pre.length + lp.length + 3 + rp.length) := by
    have := optCls_here hs5 ho1
    rwa [hP4] at this
  have hs6 : s = (((((α ++ pre) ++ lp) ++ d1) ++ rp) ++ s1) ++ (d2 ++ (s2 ++ (d3 ++ β))) :=
    app_shift hs5
  have hP5 : ((((((α ++ pre) ++ lp) ++ d1) ++ rp) ++ s1)).length =
      i + pre.length + lp.length + 3 + rp.length + s1.length := by
    rw [len_app, hP4]
  have hD2 : digsN s (i + pre.length + lp.length + 3 + rp.length + s1.length) 3 =
      some (i + pre.length + lp.length + 3 + rp.length + s1.length + 3) := by
    have := digsN_here hs6 hg2
    rwa [hP5] at this
  have hs7 : s = ((((((α ++ pre) ++ lp) ++ d1) ++ rp) ++ s1) ++ d2) ++ (s2 ++ (d3 ++ β)) :=
    app_shift hs6
  have hP6 : (((((((α ++ pre) ++ lp) ++ d1) ++ rp) ++ s1) ++ d2)).length =
      i + pre.length + lp.length + 3 + rp.length + s1.length + 3 := by
    rw [len_app, hP5, hg2.1]
  have hA5 : i + pre.length + lp.length + 3 + rp.length + s1.length + 3 + s2.length ∈
      optCls sepPDS s (i + pre.length + lp.length + 3 + rp.length + s1.length + 3) := by
    have := optCls_here hs7 ho2
    rwa [hP6] at this
  have hs8 : s = (((((((α ++ pre) ++ lp) ++ d1) ++ rp) ++ s1) ++ d2) ++ s2) ++ (d3 ++ β) :=
    app_shift hs7
  have hP7 : ((((((((α ++ pre) ++ lp) ++ d1) ++ rp) ++ s1) ++ d2) ++ s2)).length =
      i + pre.length + lp.length + 3 + rp.length + s1.length + 3 + s2.length := by
    rw [len_app, hP6]
  have hD3 : digsN s (i + pre.length + lp.length + 3 + rp.length + s1.length + 3 + s2.length)
      4 = some (i + pre.length + lp.length + 3 + rp.length + s1.length + 3 + s2.length + 4) := by
    have := digsN_here hs8 hg3
    rwa [hP7] at this
  unfold phoneAt
  rw [if_neg (not_not_intro hw1)]
  apply tryEach_isSome hA1
  dsimp only
  apply tryEach_isSome hA2
  dsimp only
  rw [hD1, Option.some_bind]
  apply tryEach_isSome hA3
  dsimp only
  apply tryEach_isSome hA4
  dsimp only
  rw [hD2, Option.some_bind]
  apply tryEach_isSome hA5
  dsimp only
  rw [hD3, Option.some_bind]
  rw [show i + pre.length + lp.length + 3 + rp.length + s1.length + 3 + s2.length + 4 =
    i + L from by omega]
  rw [if_pos hw2]
  rfl

/-! ### Characterisation of `emailAt` -/

theorem orElse_some {a b : Option Nat} {v : Nat} (h : (a <|> b) = some v) :
    a = some v ∨ b = some v := by
  cases a with
  | none => right; simpa [Option.orElse] using h
  | some w => left; simpa [Option.orElse] using h

theorem orElse_isSome (a b : Option Nat) : (a <|> b).isSome = (a.isSome || b.isSome) := by
  cases a <;> simp [Option.orElse]

theorem tldTry_some {s : List Char} {i p : Nat} :
    ∀ {T r : Nat}, emailTldTry s i p T = some r →
      ∃ t, 2 ≤ t ∧ t ≤ T ∧ wordB s (p + 1 + t) = true ∧ r = p + 1 + t - i := by
  intro T
  induction T with
  | zero => intro r h; cases h
  | succ T ih =>
    intro r h
    unfold emailTldTry at h
    split at h
    case isTrue hc =>
      injection h with h1
      exact ⟨T + 1, hc.1, Nat.le_refl _, hc.2, h1.symm⟩
    case isFalse hc =>
      obtain ⟨t, h2, h3, h4, h5⟩ := ih h
      exact ⟨t, h2, Nat.le_succ_of_le h3, h4, h5⟩

theorem tldTry_of {s : List Char} {i p t : Nat} (h2 : 2 ≤ t)
    (hw : wordB s (p + 1 + t) = true) :
    ∀ {T : Nat}, t ≤ T → (emailTldTry s i p T).isSome = true := by
  intro T
  induction T with
  | zero => intro hT; omega
  | succ T ih =>
    intro hT
    unfold emailTldTry
    split
    case isTrue hc => rfl
    case isFalse hc =>
      rcases Nat.lt_or_ge t (T + 1) with hlt | hge
      · exact ih (by omega)
      · have ht : t = T + 1 := by omega
        subst ht
        exact absurd ⟨h2, hw⟩ hc

theorem domTry_some {s : List Char} {i k0 : Nat} :
    ∀ {D r : Nat}, emailDomTry s i k0 D = some r →
      ∃ d, 1 ≤ d ∧ d ≤ D ∧ s.get? (k0 + d) = some '.' ∧
        emailTldTry s i (k0 + d) (runLen emailTldC s (k0 + d + 1)) = some r := by
  intro D
  induction D with
  | zero => intro r h; cases h
  | succ D ih =>
    intro r h
    unfold emailDomTry at h
    rcases orElse_some h with h1 | h1
    · split at h1
      case isTrue hc =>
        exact ⟨D + 1, by omega, Nat.le_refl _, hc, h1⟩
      case isFalse hc => cases h1
    · obtain ⟨d, hd1, hd2, hd3, hd4⟩ := ih h1
      exact ⟨d, hd1, Nat.le_succ_of_le hd2, hd3, hd4⟩

theorem domTry_of {s : List Char} {i k0 d : Nat} (h1 : 1 ≤ d)
    (hdot : s.get? (k0 + d) = some '.')
    (ht : (emailTldTry s i (k0 + d) (runLen emailTldC s (k0 + d + 1))).isSome = true) :
    ∀ {D : Nat}, d ≤ D → (emailDomTry s i k0 D).isSome = true := by
  intro D
  induction D with
  | zero => intro hD; omega
  | succ D ih =>
    intro hD
    unfold emailDomTry
    rw [orElse_isSome]
    rcases Nat.lt_or_ge d (D + 1) with hlt | hge
    · rw [ih (by omega)]
      exact Bool.or_true _
    · have hd : d = D + 1 := by omega
      subst hd
      rw [if_pos hdot, ht]
      rfl

theorem emailAt_fwd {s : List Char} {i L : Nat} (h : emailAt s i = some L) :
    i + L ≤ s.length ∧ 0 < L ∧ wordB s i = true ∧ wordB s (i + L) = true ∧
    innerEmail (slice s i L) := by
  unfold emailAt at h
  by_cases hw : wordB s i = true
  case neg => rw [if_pos hw] at h; cases h
  rw [if_neg (not_not_intro hw)] at h
  dsimp only at h
  set L0 := runLen emailLocalC s i with hL0
  by_cases h0 : L0 = 0
  case pos => rw [if_pos h0] at h; cases h
  rw [if_neg h0] at h
  by_cases hat : s.get? (i + L0) = some '@'
  case neg => rw [if_pos hat] at h; cases h
  rw [if_neg (not_not_intro hat)] at h
  obtain ⟨d, hd1, hdD, hdot, htld⟩ := domTry_some h
  obtain ⟨t, ht2, htT, hwb, hr⟩ := tldTry_some htld
  have hiL0 : i + L0 < s.length := by
    rw [List.get?_eq_getElem?] at hat
    exact (List.getElem?_eq_some.mp hat).1
  have hkd : i + L0 + 1 + d < s.length := by
    rw [List.get?_eq_getElem?] at hdot
    exact (List.getElem?_eq_some.mp hdot).1
  have hend : i + L0 + 1 + d + 1 + t ≤ s.length := by
    have := wordB_le hwb
    omega
  have hiL : i + L = i + L0 + 1 + d + 1 + t := by omega
  refine ⟨by omega, by omega, hw, by rw [hiL]; exact hwb, ?_⟩
  have hLv : L = L0 + ((d + (t + 1)) + 1) := by omega
  have e0 : slice s i L = slice s i L0 ++ slice s (i + L0) ((d + (t + 1)) + 1) := by
    rw [hLv]
    exact slice_glue i L0 _ rfl
  have e1 : slice s (i + L0) ((d + (t + 1)) + 1) = '@' :: slice s (i + L0 + 1) (d + (t + 1)) :=
    slice_cons hat _
  have e2 : slice s (i + L0 + 1) (d + (t + 1)) =
      slice s (i + L0 + 1) d ++ slice s (i + L0 + 1 + d) (t + 1) :=
    slice_glue _ d _ rfl
  have e3 : slice s (i + L0 + 1 + d) (t + 1) = '.' :: slice s (i + L0 + 1 + d + 1) t := by
    have hdot2 : s.get? (i + L0 + 1 + d) = some '.' := hdot
    exact slice_cons hdot2 _
  refine ⟨slice s i L0, slice s (i + L0 + 1) d, slice s (i + L0 + 1 + d + 1) t,
    by rw [e0, e1, e2, e3], ?_, ?_, ?_, ?_, ?_, ?_⟩
  · intro hnil
    have := @slice_length s i L0 (by omega)
    rw [hnil] at this
    exact h0 this.symm
  · exact rl_all emailLocalC s i
  · intro hnil
    have hls := @slice_length s (i + L0 + 1) d (by omega)
    rw [hnil] at hls
    simp at hls
    omega
  · exact slice_all_of_le hdD (rl_all emailDomC s (i + L0 + 1))
  · rw [slice_length (by omega)]
    exact ht2
  · exact slice_all_of_le htT (rl_all emailTldC s (i + L0 + 1 + d + 1))

theorem emailAt_bwd {s : List Char} {i L : Nat} (hw1 : wordB s i = true)
    (hw2 : wordB s (i + L) = true) (hb : i + L ≤ s.length)
    (hin : innerEmail (slice s i L)) : (emailAt s i).isSome = true := by
  obtain ⟨loc, dom, tld, heq, hlne, hlall, hdne, hdall, ht2, htall⟩ := hin
  have hslen : (slice s i L).length = L := slice_length hb
  have hLv : L = loc.length + 1 + dom.length + 1 + tld.length := by
    rw [heq] at hslen
    simp only [List.length_append, List.length_cons] at hslen
    omega
  obtain ⟨hs, hα⟩ := slice_decomp hb
  rw [heq] at hs
  set α := s.take i with hαdef
  set β := s.drop (i + L) with hβdef
  have hs1 : s = α ++ (loc ++ ('@' :: (dom ++ ('.' :: (tld ++ β))))) := by
    rw [hs]
    simp [List.append_assoc]
  have hdrop : s.drop i = loc ++ ('@' :: (dom ++ ('.' :: (tld ++ β)))) := by
    conv_lhs => rw [hs1, ← hα]
    rw [List.drop_left]
  have hL0 : runLen emailLocalC s i = loc.length := by
    apply rl_eq hdrop hlall
    intro c hc
    injection hc with hc1
    rw [← hc1]
    decide
  have hlpos : loc.length ≠ 0 := fun hz => hlne (List.length_eq_zero.mp hz)
  have hs2 : s = (α ++ loc) ++ ('@' :: (dom ++ ('.' :: (tld ++ β)))) := app_shift hs1
  have hP1 : (α ++ loc).length = i + loc.length := by rw [len_app, hα]
  have hat : s.get? (i + loc.length) = some '@' := by
    have := get?_here hs2
    rwa [hP1] at this
  have hs3 : s = ((α ++ loc) ++ ['@']) ++ (dom ++ ('.' :: (tld ++ β))) := by
    rw [hs2]; simp
  have hP2 : ((α ++ loc) ++ ['@']).length = i + loc.length + 1 := by
    rw [len_app, hP1]; rfl
  have hdge : dom.length ≤ runLen emailDomC s (i + loc.length + 1) := by
    apply rl_ge
    · have := len_here hs3
      rw [hP2] at this
      omega
    · have := slice_here hs3
      rw [hP2] at this
      rw [this]
      exact hdall
  have hs4 : s = (((α ++ loc) ++ ['@']) ++ dom) ++ ('.' :: (tld ++ β)) := app_shift hs3
  have hP3 : ((((α ++ loc) ++ ['@']) ++ dom)).length = i + loc.length + 1 + dom.length := by
    rw [len_app, hP2]
  have hdot : s.get? (i + loc.length + 1 + dom.length) = some '.' := by
    have := get?_here hs4
    rwa [hP3] at this
  have hs5 : s = ((((α ++ loc) ++ ['@']) ++ dom) ++ ['.']) ++ (tld ++ β) := by
    rw [hs4]; simp
  have hP4 : (((((α ++ loc) ++ ['@']) ++ dom) ++ ['.'])).length =
      i + loc.length + 1 + dom.length + 1 := by
    rw [len_app, hP3]; rfl
  have htge : tld.length ≤ runLen emailTldC s (i + loc.length + 1 + dom.length + 1) := by
    apply rl_ge
    · have := len_here hs5
      rw [hP4] at this
      omega
    · have := slice_here hs5
      rw [hP4] at this
      rw [this]
      exact htall
  have hdpos : 1 ≤ dom.length := by
    have : dom.length ≠ 0 := fun hz => hdne (List.length_eq_zero.mp hz)
    omega
  unfold emailAt
  rw [if_neg (not_not_intro hw1)]
  dsimp only
  rw [hL0, if_neg hlpos, if_neg (not_not_intro hat)]
  apply domTry_of hdpos ?_ ?_ hdge
  · rw [show i + loc.length + 1 + dom.length = i + loc.length + 1 + dom.length from rfl]
    exact hdot
  · apply tldTry_of ht2 ?_ htge
    rw [show i + loc.length + 1 + dom.length + 1 + tld.length = i + L from by omega]
    exact hw2

/-! ### Content facts: match shapes stay inside their signature classes
and always contain a witness character -/

theorem all_imp {p q : Char → Bool} (hpq : ∀ c, p c = true → q c = true) :
    ∀ {l : List Char}, l.all p = true → l.all q = true := by
  intro l h
  rw [List.all_eq_true] at h ⊢
  exact fun c hc => hpq c (h c hc)

theorem all_mem {p : Char → Bool} {l : List Char} (h : l.all p = true) :
    ∀ c ∈ l, p c = true :=
  List.all_eq_true.mp h

theorem any_of_all {p : Char → Bool} {l : List Char} (hne : l ≠ []) (h : l.all p = true) :
    ∃ c ∈ l, p c = true := by
  cases l with
  | nil => exact absurd rfl hne
  | cons c t =>
    rw [List.all_cons, Bool.and_eq_true] at h
    exact ⟨c, List.mem_cons_self c t, h.1⟩

theorem digGrp_ne_nil {n : Nat} {w : List Char} (hn : 0 < n) (h : digGrp n w) : w ≠ [] := by
  intro hnil
  rw [hnil] at h
  have := h.1
  simp at this
  omega

theorem sepPD_to_PDS {c : Char} (h : sepPD c = true) : sepPDS c = true := by
  unfold sepPD at h
  unfold sepPDS
  rcases Bool.or_eq_true_iff.mp h with h1 | h1 <;> simp [h1]

theorem innerSsn_facts {w : List Char} (h : innerSsn w) :
    (∀ c ∈ w, sigSsn c = true) ∧ (∃ c ∈ w, isDigC c = true) := by
  obtain ⟨d1, d2, d3, heq, hg1, hg2, hg3⟩ := h
  subst heq
  constructor
  · intro c hc
    unfold sigSsn
    simp only [List.mem_append, List.mem_cons] at hc
    rcases hc with h1 | h1 | h1 | h1 | h1
    · rw [all_mem hg1.2 c h1]; rfl
    · rw [h1]; rfl
    · rw [all_mem hg2.2 c h1]; rfl
    · rw [h1]; rfl
    · rw [all_mem hg3.2 c h1]; rfl
  · obtain ⟨c, hc1, hc2⟩ := any_of_all (digGrp_ne_nil (by decide) hg1) hg1.2
    exact ⟨c, List.mem_append_left _ hc1, hc2⟩

theorem innerCc_facts {w : List Char} (h : innerCc w) :
    (∀ c ∈ w, sigCc c = true) ∧ (∃ c ∈ w, isDigC c = true) := by
  obtain ⟨d1, s1, d2, s2, d3, s3, d4, heq, hg1, ho1, hg2, ho2, hg3, ho3, hg4⟩ := h
  subst heq
  have hsep : ∀ {v : List Char}, optSep sepDashWs v → ∀ c ∈ v, sigCc c = true := by
    intro v hv c hc
    rcases hv with h0 | ⟨e, he, hcls⟩
    · rw [h0] at hc; exact absurd hc (List.not_mem_nil c)
    · rw [he] at hc
      rw [List.mem_singleton.mp hc]
      unfold sigCc
      rw [hcls]
      simp
  have hdig : ∀ {v : List Char} {n : Nat}, digGrp n v → ∀ c ∈ v, sigCc c = true := by
    intro v n hv c hc
    unfold sigCc
    rw [all_mem hv.2 c hc]
    rfl
  constructor
  · intro c hc
    simp only [List.mem_append] at hc
    rcases hc with ((((((h1 | h1) | h1) | h1) | h1) | h1) | h1)
    · exact hdig hg1 c h1
    · exact hsep ho1 c h1
    · exact hdig hg2 c h1
    · exact hsep ho2 c h1
    · exact hdig hg3 c h1
    · exact hsep ho3 c h1
    · exact hdig hg4 c h1
  · obtain ⟨c, hc1, hc2⟩ := any_of_all (digGrp_ne_nil (by decide) hg1) hg1.2
    refine ⟨c, ?_, hc2⟩
    simp only [List.mem_append]
    exact Or.inl (Or.inl (Or.inl (Or.inl (Or.inl (Or.inl hc1)))))

theorem innerPhone_facts {w : List Char} (h : innerPhone w) :
    (∀ c ∈ w, sigPhone c = true) ∧ (∃ c ∈ w, isDigC c = true) := by
  obtain ⟨pre, lp, d1, rp, s1, d2, s2, d3, heq, hpre, hlp, hg1, hrp, ho1, hg2, ho2, hg3⟩ := h
  subst heq
  have hsep : ∀ {v : List Char}, optSep sepPDS v → ∀ c ∈ v, sigPhone c = true := by
    intro v hv c hc
    rcases hv with h0 | ⟨e, he, hcls⟩
    · rw [h0] at hc; exact absurd hc (List.not_mem_nil c)
    · rw [he] at hc
      rw [List.mem_singleton.mp hc]
      unfold sigPhone
      rw [hcls]
      simp
  have hdig : ∀ {v : List Char} {n : Nat}, digGrp n v → ∀ c ∈ v, sigPhone c = true := by
    intro v n hv c hc
    unfold sigPhone
    rw [all_mem hv.2 c hc]
    rfl
  have hprec : ∀ c ∈ pre, sigPhone c = true := by
    intro c hc
    rcases hpre with h0 | h0 | h0 | ⟨e, he, hcls⟩
    · rw [h0] at hc; exact absurd hc (List.not_mem_nil c)
    · rw [h0] at hc
      rw [List.mem_singleton.mp hc]; decide
    · rw [h0] at hc
      rcases List.mem_cons.mp hc with h1 | h1
      · rw [h1]; decide
      · rw [List.mem_singleton.mp h1]; decide
    · have hes : sigPhone e = true := by
        unfold sigPhone
        rw [sepPD_to_PDS hcls]
        simp
      rcases he with h1 | h1 <;> rw [h1] at hc
      · rcases List.mem_cons.mp hc with h2 | h2
        · rw [h2]; decide
        · rw [List.mem_singleton.mp h2]; exact hes
      · rcases List.mem_cons.mp hc with h2 | h2
        · rw [h2]; decide
        · rcases List.mem_cons.mp h2 with h3 | h3
          · rw [h3]; decide
          · rw [List.mem_singleton.mp h3]; exact hes
  have hparc : ∀ {v : List Char} {ch : Char}, (v = [] ∨ v = [ch]) → sigPhone ch = true →
      ∀ c ∈ v, sigPhone c = true := by
    intro v ch hv hch c hc
    rcases hv with h0 | h0
    · rw [h0] at hc; exact absurd hc (List.not_mem_nil c)
    · rw [h0] at hc
      rw [List.mem_singleton.mp hc]
      exact hch
  constructor
  · intro c hc
    simp only [List.mem_append] at hc
    rcases hc with (((((((h1 | h1) | h1) | h1) | h1) | h1) | h1) | h1)
    · exact hprec c h1
    · exact hparc hlp (by decide) c h1
    · exact hdig hg1 c h1
    · exact hparc hrp (by decide) c h1
    · exact hsep ho1 c h1
    · exact hdig hg2 c h1
    · exact hsep ho2 c h1
    · exact hdig hg3 c h1
  · obtain ⟨c, hc1, hc2⟩ := any_of_all (digGrp_ne_nil (by decide) hg1) hg1.2
    refine ⟨c, ?_, hc2⟩
    simp only [List.mem_append]
    exact Or.inl (Or.inl (Or.inl (Or.inl (Or.inl (Or.inr hc1)))))

theorem innerEmail_facts {w : List Char} (h : innerEmail w) :
    (∀ c ∈ w, sigEmail c = true) ∧ (∃ c ∈ w, witEml c = true) := by
  obtain ⟨loc, dom, tld, heq, hlne, hlall, hdne, hdall, ht2, htall⟩ := h
  subst heq
  constructor
  · intro c hc
    unfold sigEmail
    simp only [List.mem_append, List.mem_cons] at hc
    rcases hc with h1 | h1 | h1 | h1 | h1
    · rw [all_mem hlall c h1]; rfl
    · rw [h1]; rfl
    · rw [all_mem hdall c h1]; simp
    · rw [h1]; decide
    · rw [all_mem htall c h1]; simp
  · refine ⟨'@', ?_, by decide⟩
    exact List.mem_append_right _ (List.mem_cons_self _ _)

/-! ### The `re.sub` scan: copied stretches and the master no-splice lemma -/

theorem subGo_zero (m : List Char → Nat → Option Nat) (rep s : List Char) (i : Nat) :
    subGo m rep s i 0 = [] := rfl

theorem subGo_ge {m : List Char → Nat → Option Nat} {rep s : List Char} {i : Nat}
    (fuel : Nat) (h : s.length ≤ i) : subGo m rep s i fuel = [] := by
  cases fuel with
  | zero => rfl
  | succ fuel =>
    unfold subGo
    rw [if_pos h]

theorem subGo_match {m : List Char → Nat → Option Nat} {rep s : List Char} {i L : Nat}
    (fuel : Nat) (h : i < s.length) (hm : m s i = some L) :
    subGo m rep s i (fuel + 1) = rep ++ subGo m rep s (i + max L 1) fuel := by
  conv_lhs => unfold subGo
  rw [if_neg (by omega), hm]

theorem subGo_none {m : List Char → Nat → Option Nat} {rep s : List Char} {i : Nat}
    (fuel : Nat) (h : i < s.length) (hm : m s i = none) :
    subGo m rep s i (fuel + 1) = (s.get? i).toList ++ subGo m rep s (i + 1) fuel := by
  conv_lhs => unfold subGo
  rw [if_neg (by omega), hm]

theorem get?_lt {s : List Char} {i : Nat} (h : i < s.length) : s.get? i = some s[i] := by
  rw [List.get?_eq_getElem?]
  exact List.getElem?_eq_getElem h

theorem scan_copies {M : List Char → Nat → Option Nat} {rep s : List Char}
    {sig : Char → Bool} (hRH : rep.head? = some '[') (hsigL : sig '[' = false) :
    ∀ (w : List Char) (i fuel : Nat) (δ : List Char),
      (∀ c ∈ w, sig c = true) →
      s.length - i ≤ fuel →
      subGo M rep s i fuel = w ++ δ →
      slice s i w.length = w ∧
      (∀ k, i ≤ k → k < i + w.length → M s k = none) ∧
      δ = subGo M rep s (i + w.length) (fuel - w.length) ∧
      (w = [] ∨ i + w.length ≤ s.length) := by
  intro w
  induction w with
  | nil =>
    intro i fuel δ hsig hfuel hout
    refine ⟨rfl, by intro k h1 h2; rw [List.length_nil] at h2; omega, ?_, Or.inl rfl⟩
    simpa using hout.symm
  | cons c w' ih =>
    intro i fuel δ hsig hfuel hout
    cases fuel with
    | zero => cases hout
    | succ fuel =>
      by_cases hlen : s.length ≤ i
      · rw [subGo_ge _ hlen] at hout
        cases hout
      push_neg at hlen
      cases hm : M s i with
      | some L =>
        rw [subGo_match fuel hlen hm] at hout
        cases hrep : rep with
        | nil => rw [hrep] at hRH; cases hRH
        | cons r0 rt =>
          rw [hrep] at hRH hout
          injection hRH with hr0
          rw [List.cons_append] at hout
          injection hout with hc hrest
          have := hsig c (List.mem_cons_self c w')
          rw [← hc, hr0] at this
          rw [this] at hsigL
          cases hsigL
      | none =>
        rw [subGo_none fuel hlen hm, get?_lt hlen] at hout
        rw [Option.toList_some, List.cons_append, List.nil_append] at hout
        injection hout with hc hrest
        obtain ⟨ihsl, ihnone, ihδ, ihb⟩ := ih (i + 1) fuel δ
          (fun d hd => hsig d (List.mem_cons_of_mem c hd)) (by omega) hrest
        refine ⟨?_, ?_, ?_, ?_⟩
        · rw [List.length_cons, slice_cons (by rw [get?_lt hlen, hc]) w'.length, ihsl]
        · intro k h1 h2
          rcases Nat.eq_or_lt_of_le h1 with h3 | h3
          · rw [← h3]; exact hm
          · exact ihnone k h3 (by rw [List.length_cons] at h2; omega)
        · rw [List.length_cons]
          rw [show i + (w'.length + 1) = i + 1 + w'.length from by omega]
          rw [show fuel + 1 - (w'.length + 1) = fuel - w'.length from by omega]
          exact ihδ
        · right
          rw [List.length_cons]
          rcases ihb with h3 | h3
          · rw [h3]
            simp
            omega
          · omega

theorem wordyLast_app2 {l q : List Char} (hq : q ≠ []) : wordyLast (l ++ q) = wordyLast q := by
  unfold wordyLast
  rw [getLast?_app hq]

theorem wordyHead_app2 {l q : List Char} (hl : l ≠ []) : wordyHead (l ++ q) = wordyHead l := by
  unfold wordyHead
  rw [head?_app hl]

theorem prevWordy_succ (s : List Char) (i : Nat) : prevWordy s (i + 1) = wordAt s i := rfl

theorem wordyHead_slice {s w : List Char} {i : Nat} (hsl : slice s i w.length = w)
    (hb : i + w.length ≤ s.length) (hne : w ≠ []) : wordyHead w = wordAt s i := by
  obtain ⟨hs, hα⟩ := slice_decomp hb
  rw [hsl] at hs
  calc wordyHead w = wordyHead (w ++ s.drop (i + w.length)) := (wordyHead_app2 hne).symm
    _ = wordAt (s.take i ++ (w ++ s.drop (i + w.length))) (s.take i).length :=
        (wordAt_app_mid _ _).symm
    _ = wordAt s i := by rw [← List.append_assoc, ← hs, hα]

theorem wordyLast_slice {s w : List Char} {i : Nat} (hsl : slice s i w.length = w)
    (hb : i + w.length ≤ s.length) (hne : w ≠ []) :
    wordyLast w = wordAt s (i + w.length - 1) := by
  obtain ⟨hs, hα⟩ := slice_decomp hb
  rw [hsl] at hs
  have hwpos : 0 < w.length := List.length_pos.mpr hne
  have hlen2 : (s.take i ++ w).length = i + w.length := by rw [len_app, hα]
  calc wordyLast w = wordyLast (s.take i ++ w) := (wordyLast_app2 hne).symm
    _ = wordAt (s.take i ++ w) ((s.take i ++ w).length - 1) := wordyLast_getAt _
    _ = wordAt ((s.take i ++ w) ++ s.drop (i + w.length)) ((s.take i ++ w).length - 1) :=
        (wordAt_app_left (by omega)).symm
    _ = wordAt s (i + w.length - 1) := by rw [← hs, hlen2]

theorem wordyLast_rep_app {rep a2 : List Char} (hRL : rep.getLast? = some ']') :
    wordyLast (rep ++ a2) = wordyLast a2 := by
  cases a2 with
  | nil =>
    rw [List.append_nil]
    unfold wordyLast
    rw [hRL]
    rfl
  | cons x xs => exact wordyLast_app2 (List.cons_ne_nil x xs)

theorem wordyLast_rep {rep : List Char} (hRL : rep.getLast? = some ']') :
    wordyLast rep = false := by
  unfold wordyLast
  rw [hRL]
  rfl

theorem scan_master {M : List Char → Nat → Option Nat} {rep s : List Char}
    {sig wit : Char → Bool}
    (hM : ∀ i L, M s i = some L →
      wordB s i = true ∧ wordB s (i + L) = true ∧ 0 < L ∧ i + L ≤ s.length)
    (hRH : rep.head? = some '[') (hRL : rep.getLast? = some ']')
    (hRW : ∀ c ∈ rep, wit c = false)
    (hsigL : sig '[' = false) (hsigR : sig ']' = false)
    {w : List Char} (hwsig : ∀ c ∈ w, sig c = true) (hwit : ∃ c ∈ w, wit c = true) :
    ∀ (fuel i : Nat) (a : Bool) (γ δ : List Char),
      s.length - i ≤ fuel →
      (a = prevWordy s i ∨ (a = false ∧ wordB s i = true)) →
      subGo M rep s i fuel = γ ++ (w ++ δ) →
      ((if γ.isEmpty then a else wordyLast γ) != wordyHead w) = true →
      (wordyLast w != wordyHead δ) = true →
      ∃ p, i ≤ p ∧ p + w.length ≤ s.length ∧ slice s p w.length = w ∧
        wordB s p = true ∧ wordB s (p + w.length) = true ∧ M s p = none := by
  intro fuel
  induction fuel with
  | zero =>
    intro i a γ δ hfuel hA hout hLB hRB
    rw [subGo_zero] at hout
    obtain ⟨cw, hcm, hcw⟩ := hwit
    have h0 := hout.symm
    rw [List.append_eq_nil] at h0
    have h1 := h0.2
    rw [List.append_eq_nil] at h1
    rw [h1.1] at hcm
    exact absurd hcm (List.not_mem_nil cw)
  | succ fuel ih =>
    intro i a γ δ hfuel hA hout hLB hRB
    have hwne : w ≠ [] := by
      obtain ⟨cw, hcm, _⟩ := hwit
      exact List.ne_nil_of_mem hcm
    by_cases hlen : s.length ≤ i
    · rw [subGo_ge _ hlen] at hout
      obtain ⟨cw, hcm, hcw⟩ := hwit
      have h0 := hout.symm
      rw [List.append_eq_nil] at h0
      have h1 := h0.2
      rw [List.append_eq_nil] at h1
      rw [h1.1] at hcm
      exact absurd hcm (List.not_mem_nil cw)
    push_neg at hlen
    have hrne : rep ≠ [] := by
      intro h0
      rw [h0] at hRH
      cases hRH
    cases hm : M s i with
    | some L =>
      obtain ⟨hMa, hMb, hMc, hMd⟩ := hM i L hm
      rw [subGo_match fuel hlen hm, Nat.max_eq_left (by omega : 1 ≤ L)] at hout
      rcases List.append_eq_append_iff.mp hout with ⟨a2, ha1, ha2⟩ | ⟨c2, hc1, hc2⟩
      · -- γ = rep ++ a2: the sought occurrence lies beyond this replacement
        subst ha1
        have hLB2 : ((if a2.isEmpty then (false : Bool) else wordyLast a2) !=
            wordyHead w) = true := by
          have hne2 : rep ++ a2 ≠ [] := fun h0 => hrne (List.append_eq_nil.mp h0).1
          have h0 : (rep ++ a2).isEmpty = false := by
            cases hre : rep ++ a2 with
            | nil => exact absurd hre hne2
            | cons x xs => rfl
          rw [h0] at hLB
          simp only [Bool.false_eq_true, if_false] at hLB
          rw [wordyLast_rep_app hRL] at hLB
          cases a2 with
          | nil =>
            rw [show wordyLast ([] : List Char) = false from rfl] at hLB
            simpa using hLB
          | cons x xs =>
            simpa using hLB
        obtain ⟨p, hp1, hp2, hp3, hp4, hp5, hp6⟩ :=
          ih (i + L) false a2 δ (by omega) (Or.inr ⟨rfl, hMb⟩) ha2 hLB2 hRB
        exact ⟨p, by omega, hp2, hp3, hp4, hp5, hp6⟩
      · -- rep = γ ++ c2
        rcases List.append_eq_append_iff.mp hc2 with ⟨e, he1, he2⟩ | ⟨e, he1, he2⟩
        · -- c2 = w ++ e: w sits inside the replacement, impossible (witness)
          obtain ⟨cw, hcm, hcw⟩ := hwit
          have hcr : cw ∈ rep := by
            rw [hc1, he1]
            exact List.mem_append_right γ (List.mem_append_left e hcm)
          rw [hRW cw hcr] at hcw
          cases hcw
        · -- w = c2 ++ e
          cases c2 with
          | nil =>
            -- the replacement ends exactly where w starts
            rw [List.append_nil] at hc1
            rw [List.nil_append] at he1
            subst he1
            have hLB2 : ((if ([] : List Char).isEmpty then (false : Bool) else wordyLast []) !=
                wordyHead w) = true := by
              rw [← hc1] at hLB
              have h0 : rep.isEmpty = false := by
                cases hre : rep with
                | nil => exact absurd hre hrne
                | cons x xs => rfl
              rw [h0] at hLB
              simp only [Bool.false_eq_true, if_false] at hLB
              rw [wordyLast_rep hRL] at hLB
              simpa using hLB
            obtain ⟨p, hp1, hp2, hp3, hp4, hp5, hp6⟩ :=
              ih (i + L) false [] δ (by omega) (Or.inr ⟨rfl, hMb⟩)
                (by rw [List.nil_append]; exact he2) hLB2 hRB
            exact ⟨p, by omega, hp2, hp3, hp4, hp5, hp6⟩
          | cons x xs =>
            -- the closing bracket of the replacement would lie inside w
            have hlast : (x :: xs).getLast? = some ']' := by
              rw [← getLast?_app (List.cons_ne_nil x xs), ← hc1]
              exact hRL
            have hmem : ']' ∈ w := by
              rw [he1]
              exact List.mem_append_left e (getLast?_mem hlast)
            rw [hwsig ']' hmem] at hsigR
            cases hsigR
    | none =>
      cases γ with
      | nil =>
        rw [List.nil_append] at hout
        obtain ⟨hsl, hnone, hδ, hbnd⟩ :=
          scan_copies hRH hsigL w i (fuel + 1) δ hwsig (by omega) hout
        rcases hbnd with h0 | hbnd
        · exact absurd h0 hwne
        refine ⟨i, Nat.le_refl i, hbnd, hsl, ?_, ?_, hm⟩
        · rcases hA with hA | ⟨_, hA⟩
          · have hh : wordyHead w = wordAt s i := wordyHead_slice hsl hbnd hwne
            have hLB2 : (a != wordyHead w) = true := by simpa using hLB
            rw [wordB_eq, ← hA, ← hh]
            exact hLB2
          · exact hA
        · have hlast : wordyLast w = wordAt s (i + w.length - 1) :=
            wordyLast_slice hsl hbnd hwne
          rcases Nat.eq_or_lt_of_le hbnd with hje | hjl
          · have hδnil : δ = [] := by
              rw [hδ]
              exact subGo_ge _ (by omega)
            rw [hδnil] at hRB
            have hlw : wordyLast w = true := by
              have h9 : (wordyLast w != false) = true := hRB
              cases h10 : wordyLast w with
              | true => rfl
              | false => rw [h10] at h9; cases h9
            have hj0 : wordAt s (i + w.length) = false := wordAt_len_le (by omega)
            rw [wordB_eq, hj0]
            unfold prevWordy
            rw [if_neg (by omega)]
            rw [← hlast, hlw]
            rfl
          · obtain ⟨g, hg⟩ : ∃ g, fuel + 1 - w.length = g + 1 :=
              ⟨fuel - w.length, by omega⟩
            rw [hg] at hδ
            cases hm2 : M s (i + w.length) with
            | some L2 => exact (hM (i + w.length) L2 hm2).1
            | none =>
              rw [subGo_none g hjl hm2, get?_lt hjl] at hδ
              have hhd : wordyHead δ = wordAt s (i + w.length) := by
                rw [hδ]
                unfold wordyHead wordAt
                rw [get?_lt hjl]
                rfl
              have hwpos : 0 < w.length := List.length_pos.mpr hwne
              rw [wordB_eq]
              unfold prevWordy
              rw [if_neg (by omega)]
              rw [← hlast, ← hhd]
              exact hRB
      | cons g γ2 =>
        rw [subGo_none fuel hlen hm, get?_lt hlen, Option.toList_some,
          List.singleton_append, List.cons_append] at hout
        injection hout with hg hrest
        have hLB2 : ((if γ2.isEmpty then wordAt s i else wordyLast γ2) !=
            wordyHead w) = true := by
          cases γ2 with
          | nil =>
            have h0 : wordyLast [g] = wordAt s i := by
              unfold wordyLast wordAt
              rw [get?_lt hlen, ← hg]
              rfl
            rw [show ([g] : List Char).isEmpty = false from rfl] at hLB
            simp only [Bool.false_eq_true, if_false] at hLB
            rw [h0] at hLB
            simpa using hLB
          | cons y ys =>
            rw [show ((g :: y :: ys) : List Char).isEmpty = false from rfl] at hLB
            simp only [Bool.false_eq_true, if_false] at hLB
            have h0 : wordyLast (g :: y :: ys) = wordyLast (y :: ys) := by
              rw [show (g :: y :: ys) = [g] ++ (y :: ys) from rfl]
              exact wordyLast_app2 (List.cons_ne_nil y ys)
            rw [h0] at hLB
            simpa using hLB
        obtain ⟨p, hp1, hp2, hp3, hp4, hp5, hp6⟩ :=
          ih (i + 1) (wordAt s i) γ2 δ (by omega) (Or.inl (prevWordy_succ s i).symm)
            hrest hLB2 hRB
        exact ⟨p, by omega, hp2, hp3, hp4, hp5, hp6⟩

/-! ### Transfer: a match in the substituted text yields a match in the input -/

theorem hasMatch_some {N : List Char → Nat → Option Nat} {t : List Char}
    (h : hasMatch N t = true) : ∃ q L, N t q = some L := by
  unfold hasMatch at h
  rw [List.any_eq_true] at h
  obtain ⟨q, hq1, hq2⟩ := h
  rw [Option.isSome_iff_exists] at hq2
  obtain ⟨L, hL⟩ := hq2
  exact ⟨q, L, hL⟩

theorem hasMatch_of {N : List Char → Nat → Option Nat} {t : List Char} {p : Nat}
    (hp : p ≤ t.length) (h : (N t p).isSome = true) : hasMatch N t = true := by
  unfold hasMatch
  rw [List.any_eq_true]
  exact ⟨p, List.mem_range.mpr (by omega), h⟩

theorem ifEmpty_wordyLast (γ : List Char) :
    (if γ.isEmpty then (false : Bool) else wordyLast γ) = wordyLast γ := by
  cases γ <;> rfl

theorem subAll_transfer {M N : List Char → Nat → Option Nat} {rep s : List Char}
    {inner : List Char → Prop} {sig wit : Char → Bool}
    (hMpos : ∀ i L, M s i = some L →
      wordB s i = true ∧ wordB s (i + L) = true ∧ 0 < L ∧ i + L ≤ s.length)
    (hNfwd : ∀ (t : List Char) (i L : Nat), N t i = some L →
      i + L ≤ t.length ∧ 0 < L ∧ wordB t i = true ∧ wordB t (i + L) = true ∧
      inner (slice t i L))
    (hNbwd : ∀ (t : List Char) (i L : Nat), wordB t i = true → wordB t (i + L) = true →
      i + L ≤ t.length → inner (slice t i L) → (N t i).isSome = true)
    (hfacts : ∀ v, inner v → (∀ c ∈ v, sig c = true) ∧ (∃ c ∈ v, wit c = true))
    (hRH : rep.head? = some '[') (hRL : rep.getLast? = some ']')
    (hRW : ∀ c ∈ rep, wit c = false)
    (hsigL : sig '[' = false) (hsigR : sig ']' = false)
    (h : hasMatch N (subAll M rep s) = true) :
    ∃ p, p ≤ s.length ∧ (N s p).isSome = true ∧ M s p = none := by
  obtain ⟨q, Lq, hNq⟩ := hasMatch_some h
  obtain ⟨hqb, hqpos, hqw1, hqw2, hqinner⟩ := hNfwd (subAll M rep s) q Lq hNq
  set out := subAll M rep s with houtdef
  set w := slice out q Lq with hwdef
  have hwlen : w.length = Lq := slice_length hqb
  obtain ⟨hwsig, hwit⟩ := hfacts w hqinner
  have hwne : w ≠ [] := by
    obtain ⟨cw, hcm, _⟩ := hwit
    exact List.ne_nil_of_mem hcm
  have hwpos : 0 < w.length := List.length_pos.mpr hwne
  have hqb2 : q + w.length ≤ out.length := by omega
  obtain ⟨hdec, hql⟩ := slice_decomp hqb
  rw [← hwdef] at hdec
  have hsplit2 : out = out.take q ++ (w ++ out.drop (q + Lq)) := by
    rw [← List.append_assoc]
    exact hdec
  have hb1 := wordB_of_append hsplit2
  rw [hql, wordyHead_app2 hwne] at hb1
  have hsplit3 : out = (out.take q ++ w) ++ out.drop (q + Lq) := by
    rw [List.append_assoc]
    exact hsplit2
  have hb2 := wordB_of_append hsplit3
  rw [len_app, hql, hwlen, wordyLast_app2 hwne] at hb2
  have hout9 : subGo M rep s 0 s.length = out.take q ++ (w ++ out.drop (q + Lq)) :=
    hsplit2
  obtain ⟨p, hp0, hp2, hp3, hp4, hp5, hp6⟩ :=
    scan_master hMpos hRH hRL hRW hsigL hsigR hwsig hwit s.length 0 false
      (out.take q) (out.drop (q + Lq)) (by omega) (Or.inl rfl) hout9
      (by rw [ifEmpty_wordyLast, ← hb1]; exact hqw1)
      (by rw [← hb2]; exact hqw2)
  refine ⟨p, by omega, ?_, hp6⟩
  apply hNbwd s p w.length hp4 hp5 hp2
  rw [hp3]
  exact hqinner

theorem subAll_pres {M N : List Char → Nat → Option Nat} {rep s : List Char}
    {inner : List Char → Prop} {sig wit : Char → Bool}
    (hMpos : ∀ i L, M s i = some L →
      wordB s i = true ∧ wordB s (i + L) = true ∧ 0 < L ∧ i + L ≤ s.length)
    (hNfwd : ∀ (t : List Char) (i L : Nat), N t i = some L →
      i + L ≤ t.length ∧ 0 < L ∧ wordB t i = true ∧ wordB t (i + L) = true ∧
      inner (slice t i L))
    (hNbwd : ∀ (t : List Char) (i L : Nat), wordB t i = true → wordB t (i + L) = true →
      i + L ≤ t.length → inner (slice t i L) → (N t i).isSome = true)
    (hfacts : ∀ v, inner v → (∀ c ∈ v, sig c = true) ∧ (∃ c ∈ v, wit c = true))
    (hRH : rep.head? = some '[') (hRL : rep.getLast? = some ']')
    (hRW : ∀ c ∈ rep, wit c = false)
    (hsigL : sig '[' = false) (hsigR : sig ']' = false)
    (h : hasMatch N (subAll M rep s) = true) : hasMatch N s = true := by
  obtain ⟨p, hple, hpsome, _⟩ :=
    subAll_transfer hMpos hNfwd hNbwd hfacts hRH hRL hRW hsigL hsigR h
  exact hasMatch_of hple hpsome

theorem subAll_elim {N : List Char → Nat → Option Nat} {rep s : List Char}
    {inner : List Char → Prop} {sig wit : Char → Bool}
    (hNfwd : ∀ (t : List Char) (i L : Nat), N t i = some L →
      i + L ≤ t.length ∧ 0 < L ∧ wordB t i = true ∧ wordB t (i + L) = true ∧
      inner (slice t i L))
    (hNbwd : ∀ (t : List Char) (i L : Nat), wordB t i = true → wordB t (i + L) = true →
      i + L ≤ t.length → inner (slice t i L) → (N t i).isSome = true)
    (hfacts : ∀ v, inner v → (∀ c ∈ v, sig c = true) ∧ (∃ c ∈ v, wit c = true))
    (hRH : rep.head? = some '[') (hRL : rep.getLast? = some ']')
    (hRW : ∀ c ∈ rep, wit c = false)
    (hsigL : sig '[' = false) (hsigR : sig ']' = false) :
    hasMatch N (subAll N rep s) = false := by
  cases hh : hasMatch N (subAll N rep s) with
  | false => rfl
  | true =>
    have hMpos : ∀ i L, N s i = some L →
        wordB s i = true ∧ wordB s (i + L) = true ∧ 0 < L ∧ i + L ≤ s.length := by
      intro i L hil
      obtain ⟨a1, a2, a3, a4, _⟩ := hNfwd s i L hil
      exact ⟨a3, a4, a2, a1⟩
    obtain ⟨p, _, hpsome, hpnone⟩ :=
      subAll_transfer hMpos hNfwd hNbwd hfacts hRH hRL hRW hsigL hsigR hh
    rw [hpnone] at hpsome
    cases hpsome

/-! ### The four patterns, packaged -/

theorem emailAt_pos (t : List Char) : ∀ i L, emailAt t i = some L →
    wordB t i = true ∧ wordB t (i + L) = true ∧ 0 < L ∧ i + L ≤ t.length := by
  intro i L h
  obtain ⟨a, b, c, d, _⟩ := emailAt_fwd h
  exact ⟨c, d, b, a⟩

theorem phoneAt_pos (t : List Char) : ∀ i L, phoneAt t i = some L →
    wordB t i = true ∧ wordB t (i + L) = true ∧ 0 < L ∧ i + L ≤ t.length := by
  intro i L h
  obtain ⟨a, b, c, d, _⟩ := phoneAt_fwd h
  exact ⟨c, d, b, a⟩

theorem ssnAt_pos (t : List Char) : ∀ i L, ssnAt t i = some L →
    wordB t i = true ∧ wordB t (i + L) = true ∧ 0 < L ∧ i + L ≤ t.length := by
  intro i L h
  obtain ⟨a, b, c, d, _⟩ := ssnAt_fwd h
  exact ⟨c, d, b, a⟩

theorem ccAt_pos (t : List Char) : ∀ i L, ccAt t i = some L →
    wordB t i = true ∧ wordB t (i + L) = true ∧ 0 < L ∧ i + L ≤ t.length := by
  intro i L h
  obtain ⟨a, b, c, d, _⟩ := ccAt_fwd h
  exact ⟨c, d, b, a⟩

theorem pres_email {M : List Char → Nat → Option Nat} {rep t : List Char}
    (hMpos : ∀ i L, M t i = some L →
      wordB t i = true ∧ wordB t (i + L) = true ∧ 0 < L ∧ i + L ≤ t.length)
    (hRH : rep.head? = some '[') (hRL : rep.getLast? = some ']')
    (hRW : ∀ c ∈ rep, witEml c = false)
    (h : hasMatch emailAt (subAll M rep t) = true) : hasMatch emailAt t = true :=
  subAll_pres hMpos (fun u i L hu => emailAt_fwd hu)
    (fun u i L h1 h2 h3 h4 => emailAt_bwd h1 h2 h3 h4)
    (fun v hv => innerEmail_facts hv) hRH hRL hRW (by decide) (by decide) h

theorem pres_phone {M : List Char → Nat → Option Nat} {rep t : List Char}
    (hMpos : ∀ i L, M t i = some L →
      wordB t i = true ∧ wordB t (i + L) = true ∧ 0 < L ∧ i + L ≤ t.length)
    (hRH : rep.head? = some '[') (hRL : rep.getLast? = some ']')
    (hRW : ∀ c ∈ rep, isDigC c = false)
    (h : hasMatch phoneAt (subAll M rep t) = true) : hasMatch phoneAt t = true :=
  subAll_pres hMpos (fun u i L hu => phoneAt_fwd hu)
    (fun u i L h1 h2 h3 h4 => phoneAt_bwd h1 h2 h3 h4)
    (fun v hv => innerPhone_facts hv) hRH hRL hRW (by decide) (by decide) h

theorem pres_ssn {M : List Char → Nat → Option Nat} {rep t : List Char}
    (hMpos : ∀ i L, M t i = some L →
      wordB t i = true ∧ wordB t (i + L) = true ∧ 0 < L ∧ i + L ≤ t.length)
    (hRH : rep.head? = some '[') (hRL : rep.getLast? = some ']')
    (hRW : ∀ c ∈ rep, isDigC c = false)
    (h : hasMatch ssnAt (subAll M rep t) = true) : hasMatch ssnAt t = true :=
  subAll_pres hMpos (fun u i L hu => ssnAt_fwd hu)
    (fun u i L h1 h2 h3 h4 => ssnAt_bwd h1 h2 h3 h4)
    (fun v hv => innerSsn_facts hv) hRH hRL hRW (by decide) (by decide) h

theorem pres_cc {M : List Char → Nat → Option Nat} {rep t : List Char}
    (hMpos : ∀ i L, M t i = some L →
      wordB t i = true ∧ wordB t (i + L) = true ∧ 0 < L ∧ i + L ≤ t.length)
    (hRH : rep.head? = some '[') (hRL : rep.getLast? = some ']')
    (hRW : ∀ c ∈ rep, isDigC c = false)
    (h : hasMatch ccAt (subAll M rep t) = true) : hasMatch ccAt t = true :=
  subAll_pres hMpos (fun u i L hu => ccAt_fwd hu)
    (fun u i L h1 h2 h3 h4 => ccAt_bwd h1 h2 h3 h4)
    (fun v hv => innerCc_facts hv) hRH hRL hRW (by decide) (by decide) h

theorem elim_email {rep t : List Char}
    (hRH : rep.head? = some '[') (hRL : rep.getLast? = some ']')
    (hRW : ∀ c ∈ rep, witEml c = false) :
    hasMatch emailAt (subAll emailAt rep t) = false :=
  subAll_elim (fun u i L hu => emailAt_fwd hu)
    (fun u i L h1 h2 h3 h4 => emailAt_bwd h1 h2 h3 h4)
    (fun v hv => innerEmail_facts hv) hRH hRL hRW (by decide) (by decide)

theorem elim_phone {rep t : List Char}
    (hRH : rep.head? = some '[') (hRL : rep.getLast? = some ']')
    (hRW : ∀ c ∈ rep, isDigC c = false) :
    hasMatch phoneAt (subAll phoneAt rep t) = false :=
  subAll_elim (fun u i L hu => phoneAt_fwd hu)
    (fun u i L h1 h2 h3 h4 => phoneAt_bwd h1 h2 h3 h4)
    (fun v hv => innerPhone_facts hv) hRH hRL hRW (by decide) (by decide)

theorem elim_ssn {rep t : List Char}
    (hRH : rep.head? = some '[') (hRL : rep.getLast? = some ']')
    (hRW : ∀ c ∈ rep, isDigC c = false) :
    hasMatch ssnAt (subAll ssnAt rep t) = false :=
  subAll_elim (fun u i L hu => ssnAt_fwd hu)
    (fun u i L h1 h2 h3 h4 => ssnAt_bwd h1 h2 h3 h4)
    (fun v hv => innerSsn_facts hv) hRH hRL hRW (by decide) (by decide)

theorem elim_cc {rep t : List Char}
    (hRH : rep.head? = some '[') (hRL : rep.getLast? = some ']')
    (hRW : ∀ c ∈ rep, isDigC c = false) :
    hasMatch ccAt (subAll ccAt rep t) = false :=
  subAll_elim (fun u i L hu => ccAt_fwd hu)
    (fun u i L h1 h2 h3 h4 => ccAt_bwd h1 h2 h3 h4)
    (fun v hv => innerCc_facts hv) hRH hRL hRW (by decide) (by decide)

/-! ### The four-pass redaction leaves no PII match behind -/

theorem piiStages {q t1 t2 t3 t4 : List Char}
    (h1 : t1 = if hasMatch emailAt q = true then
      subAll emailAt (redactTok "email").data q else q)
    (h2 : t2 = if hasMatch phoneAt q = true then
      subAll phoneAt (redactTok "phone").data t1 else t1)
    (h3 : t3 = if hasMatch ssnAt q = true then
      subAll ssnAt (redactTok "ssn").data t2 else t2)
    (h4 : t4 = if hasMatch ccAt q = true then
      subAll ccAt (redactTok "credit_card").data t3 else t3) :
    hasMatch emailAt t4 = false ∧ hasMatch phoneAt t4 = false ∧
      hasMatch ssnAt t4 = false ∧ hasMatch ccAt t4 = false := by
  have s2E : hasMatch emailAt t2 = true → hasMatch emailAt t1 = true := by
    intro hh
    rw [h2] at hh
    split at hh
    · exact pres_email (phoneAt_pos t1) (by decide) (by decide) (by decide) hh
    · exact hh
  have s3E : hasMatch emailAt t3 = true → hasMatch emailAt t2 = true := by
    intro hh
    rw [h3] at hh
    split at hh
    · exact pres_email (ssnAt_pos t2) (by decide) (by decide) (by decide) hh
    · exact hh
  have s4E : hasMatch emailAt t4 = true → hasMatch emailAt t3 = true := by
    intro hh
    rw [h4] at hh
    split at hh
    · exact pres_email (ccAt_pos t3) (by decide) (by decide) (by decide) hh
    · exact hh
  have s1P : hasMatch phoneAt t1 = true → hasMatch phoneAt q = true := by
    intro hh
    rw [h1] at hh
    split at hh
    · exact pres_phone (emailAt_pos q) (by decide) (by decide) (by decide) hh
    · exact hh
  have s3P : hasMatch phoneAt t3 = true → hasMatch phoneAt t2 = true := by
    intro hh
    rw [h3] at hh
    split at hh
    · exact pres_phone (ssnAt_pos t2) (by decide) (by decide) (by decide) hh
    · exact hh
  have s4P : hasMatch phoneAt t4 = true → hasMatch phoneAt t3 = true := by
    intro hh
    rw [h4] at hh
    split at hh
    · exact pres_phone (ccAt_pos t3) (by decide) (by decide) (by decide) hh
    · exact hh
  have s1S : hasMatch ssnAt t1 = true → hasMatch ssnAt q = true := by
    intro hh
    rw [h1] at hh
    split at hh
    · exact pres_ssn (emailAt_pos q) (by decide) (by decide) (by decide) hh
    · exact hh
  have s2S : hasMatch ssnAt t2 = true → hasMatch ssnAt t1 = true := by
    intro hh
    rw [h2] at hh
    split at hh
    · exact pres_ssn (phoneAt_pos t1) (by decide) (by decide) (by decide) hh
    · exact hh
  have s4S : hasMatch ssnAt t4 = true → hasMatch ssnAt t3 = true := by
    intro hh
    rw [h4] at hh
    split at hh
    · exact pres_ssn (ccAt_pos t3) (by decide) (by decide) (by decide) hh
    · exact hh
  have s1C : hasMatch ccAt t1 = true → hasMatch ccAt q = true := by
    intro hh
    rw [h1] at hh
    split at hh
    · exact pres_cc (emailAt_pos q) (by decide) (by decide) (by decide) hh
    · exact hh
  have s2C : hasMatch ccAt t2 = true → hasMatch ccAt t1 = true := by
    intro hh
    rw [h2] at hh
    split at hh
    · exact pres_cc (phoneAt_pos t1) (by decide) (by decide) (by decide) hh
    · exact hh
  have s3C : hasMatch ccAt t3 = true → hasMatch ccAt t2 = true := by
    intro hh
    rw [h3] at hh
    split at hh
    · exact pres_cc (ssnAt_pos t2) (by decide) (by decide) (by decide) hh
    · exact hh
  refine ⟨?_, ?_, ?_, ?_⟩
  · cases hg : hasMatch emailAt q with
    | false =>
      cases hh4 : hasMatch emailAt t4 with
      | false => rfl
      | true =>
        have hh1 := s2E (s3E (s4E hh4))
        rw [h1, hg] at hh1
        simp only [Bool.false_eq_true, if_false] at hh1
        rw [hg] at hh1
        cases hh1
    | true =>
      have hElim : hasMatch emailAt t1 = false := by
        rw [h1, hg, if_pos rfl]
        exact elim_email (by decide) (by decide) (by decide)
      cases hh4 : hasMatch emailAt t4 with
      | false => rfl
      | true =>
        have hh1 := s2E (s3E (s4E hh4))
        rw [hElim] at hh1
        cases hh1
  · cases hg : hasMatch phoneAt q with
    | false =>
      cases hh4 : hasMatch phoneAt t4 with
      | false => rfl
      | true =>
        have hh2 := s3P (s4P hh4)
        have ht21 : t2 = t1 := by
          rw [h2, hg]
          simp only [Bool.false_eq_true, if_false]
        rw [ht21] at hh2
        have hh0 := s1P hh2
        rw [hg] at hh0
        cases hh0
    | true =>
      have hElim : hasMatch phoneAt t2 = false := by
        rw [h2, hg, if_pos rfl]
        exact elim_phone (by decide) (by decide) (by decide)
      cases hh4 : hasMatch phoneAt t4 with
      | false => rfl
      | true =>
        have hh2 := s3P (s4P hh4)
        rw [hElim] at hh2
        cases hh2
  · cases hg : hasMatch ssnAt q with
    | false =>
      cases hh4 : hasMatch ssnAt t4 with
      | false => rfl
      | true =>
        have hh3 := s4S hh4
        have hh2 : hasMatch ssnAt t2 = true := by
          rw [h3] at hh3
          split at hh3
          · exact pres_ssn (ssnAt_pos t2) (by decide) (by decide) (by decide) hh3
          · exact hh3
        have hh0 := s1S (s2S hh2)
        rw [hg] at hh0
        cases hh0
    | true =>
      have hElim : hasMatch ssnAt t3 = false := by
        rw [h3, hg, if_pos rfl]
        exact elim_ssn (by decide) (by decide) (by decide)
      cases hh4 : hasMatch ssnAt t4 with
      | false => rfl
      | true =>
        have hh3 := s4S hh4
        rw [hElim] at hh3
        cases hh3
  · cases hg : hasMatch ccAt q with
    | false =>
      cases hh4 : hasMatch ccAt t4 with
      | false => rfl
      | true =>
        have hh3 : hasMatch ccAt t3 = true := by
          rw [h4] at hh4
          split at hh4
          · exact pres_cc (ccAt_pos t3) (by decide) (by decide) (by decide) hh4
          · exact hh4
        have hh0 := s1C (s2C (s3C hh3))
        rw [hg] at hh0
        cases hh0
    | true =>
      have hElim : hasMatch ccAt t4 = false := by
        rw [h4, hg, if_pos rfl]
        exact elim_cc (by decide) (by decide) (by decide)
      exact hElim

/-! ### The redacted text matches no PII pattern -/

theorem dataAsString (l : List Char) : (List.asString l).data = l := rfl

theorem pii_snd (q : List Char) (acc : List String × List Char)
    (e : String × (List Char → Nat → Option Nat)) :
    (piiStep q acc e).2 =
      if hasMatch e.2 q = true then subAll e.2 (redactTok e.1).data acc.2 else acc.2 := by
  unfold piiStep
  split
  · rfl
  · rfl

theorem redacted_clean (x : String) :
    anyPiiMatch (check_pii_exposure x).redacted_text = false := by
  unfold check_pii_exposure anyPiiMatch
  dsimp only
  simp only [piiPatterns, List.foldl_cons, List.foldl_nil, pii_snd, List.any_cons,
    List.any_nil, dataAsString]
  set u1 := if hasMatch emailAt x.data = true then
    subAll emailAt (redactTok "email").data x.data else x.data with h1
  set u2 := if hasMatch phoneAt x.data = true then
    subAll phoneAt (redactTok "phone").data u1 else u1 with h2
  set u3 := if hasMatch ssnAt x.data = true then
    subAll ssnAt (redactTok "ssn").data u2 else u2 with h3
  set u4 := if hasMatch ccAt x.data = true then
    subAll ccAt (redactTok "credit_card").data u3 else u3 with h4
  obtain ⟨hE, hP, hS, hC⟩ := piiStages h1 h2 h3 h4
  rw [hE, hP, hS, hC]
  rfl

/-- Claim C1 (counterexample): the input `"5551234567 95551234567890"`
matches the phone pattern — the raw matched substring is `"5551234567"`
— and `check_pii_exposure` flags and redacts it, yet the redacted text
forwarded to the router still contains that raw matched substring:
it also occurs inside the longer digit run `95551234567890`, which no
PII pattern matches, so the substitution leaves it in place. -/
theorem C1_counterexample :
    (check_pii_exposure "5551234567 95551234567890").has_pii = true ∧
    firstMatchStr phoneAt "5551234567 95551234567890" = some "5551234567" ∧
    strContains (check_pii_exposure "5551234567 95551234567890").redacted_text
      "5551234567" = true :=
  ⟨by decide, by decide, by decide⟩

/-- Claim C1 (corrected): `check_pii_exposure` reports `has_pii` exactly
when some PII pattern matches the original query, and redaction is
unconditionally idempotent: the redacted text matches no PII pattern any
more — a replacement token can neither contain a match (it has no digit
and no `@`) nor splice into one (every match is `\b`-delimited at both
ends while the token's brackets are non-word characters outside every
pattern's alphabet) — so re-applying `check_pii_exposure` to the
redacted text returns it unchanged with nothing flagged.
Non-containment of the raw matched substring, however, fails
(see the counterexample). -/
theorem C1_pii_detection_and_idempotent_redaction (x : String) :
    ((check_pii_exposure x).has_pii = anyPiiMatch x) ∧
    (anyPiiMatch (check_pii_exposure x).redacted_text = false) ∧
    (check_pii_exposure ((check_pii_exposure x).redacted_text) =
      { has_pii := false, pii_types := [],
        redacted_text := (check_pii_exposure x).redacted_text,
        original_text := (check_pii_exposure x).redacted_text }) := by
  refine ⟨?_, redacted_clean x, ?_⟩
  · by_cases h1 : hasMatch emailAt x.data <;>
    by_cases h2 : hasMatch phoneAt x.data <;>
    by_cases h3 : hasMatch ssnAt x.data <;>
    by_cases h4 : hasMatch ccAt x.data <;>
    simp [check_pii_exposure, piiPatterns, piiStep, anyPiiMatch, h1, h2, h3, h4]
  · have h := redacted_clean x
    generalize hred : (check_pii_exposure x).redacted_text = red at h ⊢
    simp only [anyPiiMatch, piiPatterns, List.any_cons, List.any_nil,
      Bool.or_eq_false_iff] at h
    obtain ⟨hh1, hh2, hh3, hh4, -⟩ := h
    simp [check_pii_exposure, piiPatterns, piiStep, hh1, hh2, hh3, hh4, asString_data]

/-! ### Substring machinery for the `sanitize_output` idempotence proof -/

/-- `isPrefixOf` as an existential. -/
theorem pre_iff (q s : List Char) : q.isPrefixOf s = true ↔ ∃ r, s = q ++ r := by
  induction q generalizing s with
  | nil => simp [List.isPrefixOf]
  | cons c t ih =>
    cases s with
    | nil => simp [List.isPrefixOf]
    | cons d u =>
      simp only [List.isPrefixOf, Bool.and_eq_true, beq_iff_eq, ih, List.cons_append]
      constructor
      · rintro ⟨rfl, r, rfl⟩; exact ⟨r, rfl⟩
      · rintro ⟨r, hr⟩
        injection hr with h1 h2
        exact ⟨h1.symm, r, h2⟩

/-- The Boolean scan agrees with the occurrence proposition. -/
theorem occursB_iff (pat s : List Char) : occursB pat s = true ↔ HasOcc pat s := by
  induction s with
  | nil =>
    constructor
    · intro h
      have hp : pat = [] := by simpa [occursB, List.isEmpty_iff] using h
      exact ⟨[], [], by simp [hp]⟩
    · rintro ⟨l, r, h⟩
      have hlen := congrArg List.length h
      simp at hlen
      have hp : pat = [] := List.eq_nil_of_length_eq_zero (by omega)
      simp [occursB, List.isEmpty_iff, hp]
  | cons c t ih =>
    simp only [occursB, Bool.or_eq_true, ih, pre_iff]
    constructor
    · rintro (⟨r, hr⟩ | ⟨l, r, hr⟩)
      · exact ⟨[], r, by simpa using hr⟩
      · exact ⟨c :: l, r, by simp [hr]⟩
    · rintro ⟨l, r, hr⟩
      cases l with
      | nil => exact Or.inl ⟨r, by simpa using hr⟩
      | cons a l2 =>
        injection hr with h1 h2
        exact Or.inr ⟨l2, r, h2⟩

/-- No occurrence in a tail extends to the cons. -/
theorem hasOcc_cons_tail {pat : List Char} {c : Char} {t : List Char}
    (h : HasOcc pat t) : HasOcc pat (c :: t) := by
  obtain ⟨l, r, rfl⟩ := h
  exact ⟨c :: l, r, rfl⟩

/-- Occurrences transfer along a surrounding context. -/
theorem hasOcc_within {pat t s l r : List Char}
    (h : HasOcc pat t) (hs : s = l ++ t ++ r) : HasOcc pat s := by
  obtain ⟨a, b, rfl⟩ := h
  exact ⟨l ++ a, b ++ r, by simp [hs]⟩

/-- Occurrences in a dropped suffix occur in the whole list. -/
theorem hasOcc_drop {pat s : List Char} {n : Nat}
    (h : HasOcc pat (s.drop n)) : HasOcc pat s := by
  obtain ⟨a, b, hd⟩ := h
  exact ⟨s.take n ++ a, b, by
    conv_lhs => rw [← List.take_append_drop n s]
    rw [hd]; simp⟩

/-- Equation: `replaceAll` on the empty list. -/
theorem replaceAll_nil (pat rep : List Char) : replaceAll [] pat rep = [] := by
  rw [replaceAll]

/-- Equation: `replaceAll` at a match. -/
theorem replaceAll_cons_pos {pat : List Char} {c : Char} {t : List Char} (rep : List Char)
    (h : pat.isPrefixOf (c :: t) = true) (hp : pat ≠ []) :
    replaceAll (c :: t) pat rep =
      rep ++ replaceAll ((c :: t).drop pat.length) pat rep := by
  rw [replaceAll]
  simp [h, hp]

/-- Equation: `replaceAll` at a non-match. -/
theorem replaceAll_cons_neg {pat : List Char} {c : Char} {t : List Char} (rep : List Char)
    (h : ¬ (pat.isPrefixOf (c :: t) = true ∧ pat ≠ [])) :
    replaceAll (c :: t) pat rep = c :: replaceAll t pat rep := by
  rw [replaceAll]
  simp only [if_neg h]

/-- A pattern-free text is untouched by `replaceAll`. -/
theorem replaceAll_of_not_occurs {pat : List Char} (rep : List Char) :
    ∀ s, occursB pat s = false → replaceAll s pat rep = s := by
  intro s
  induction s with
  | nil => intro _; exact replaceAll_nil pat rep
  | cons c t ih =>
    intro h
    simp only [occursB, Bool.or_eq_false_iff] at h
    rw [replaceAll_cons_neg rep (by simp [h.1]), ih h.2]

/-- `replaceAll` never lengthens the text when the replacement is no
longer than the pattern. -/
theorem replaceAll_len_le (pat rep : List Char) (hle : rep.length ≤ pat.length) :
    ∀ n s, s.length ≤ n → (replaceAll s pat rep).length ≤ s.length := by
  intro n
  induction n with
  | zero =>
    intro s hs
    have : s = [] := List.eq_nil_of_length_eq_zero (by omega)
    subst this
    simp [replaceAll_nil]
  | succ n ih =>
    intro s hs
    cases s with
    | nil => simp [replaceAll_nil]
    | cons c t =>
      by_cases hc : pat.isPrefixOf (c :: t) = true ∧ pat ≠ []
      · rw [replaceAll_cons_pos rep hc.1 hc.2]
        obtain ⟨r, hr⟩ := (pre_iff pat (c :: t)).mp hc.1
        have hplen : pat.length ≤ t.length + 1 := by
          have := congrArg List.length hr
          simp at this
          omega
        have hp0 : 0 < pat.length := List.length_pos.mpr hc.2
        have hdrop := ih ((c :: t).drop pat.length) (by
          simp only [List.length_drop, List.length_cons]
          simp only [List.length_cons] at hs
          omega)
        simp only [List.length_append, List.length_drop, List.length_cons] at hdrop ⊢
        omega
      · rw [replaceAll_cons_neg rep hc]
        have := ih t (by simp only [List.length_cons] at hs; omega)
        simp only [List.length_cons]
        omega

/-- `replaceAll` strictly shortens a text it matches when the
replacement is shorter than the pattern. -/
theorem replaceAll_len_lt (pat rep : List Char) (hlt : rep.length < pat.length)
    (hp : pat ≠ []) :
    ∀ n s, s.length ≤ n → occursB pat s = true →
      (replaceAll s pat rep).length < s.length := by
  intro n
  induction n with
  | zero =>
    intro s hs hocc
    have : s = [] := List.eq_nil_of_length_eq_zero (by omega)
    subst this
    have := (occursB_iff pat []).mp hocc
    obtain ⟨l, r, h⟩ := this
    have := congrArg List.length h
    simp at this
    exact absurd (List.eq_nil_of_length_eq_zero (by omega)) hp
  | succ n ih =>
    intro s hs hocc
    cases s with
    | nil =>
      have hp2 : pat = [] := by simpa [occursB, List.isEmpty_iff] using hocc
      exact absurd hp2 hp
    | cons c t =>
      by_cases hc : pat.isPrefixOf (c :: t) = true
      · rw [replaceAll_cons_pos rep hc hp]
        obtain ⟨r, hr⟩ := (pre_iff pat (c :: t)).mp hc
        have hplen : pat.length ≤ t.length + 1 := by
          have := congrArg List.length hr
          simp at this
          omega
        have hdrople := replaceAll_len_le pat rep (Nat.le_of_lt hlt) n ((c :: t).drop pat.length) (by
          simp only [List.length_drop, List.length_cons]
          simp only [List.length_cons] at hs
          omega)
        simp only [List.length_append, List.length_drop, List.length_cons] at hdrople ⊢
        omega
      · have hocc2 : occursB pat t = true := by
          simp only [occursB, Bool.or_eq_true] at hocc
          rcases hocc with h | h
          · exact absurd h hc
          · exact h
        rw [replaceAll_cons_neg rep (by simp [hc])]
        have := ih t (by simp only [List.length_cons] at hs; omega) hocc2
        simp only [List.length_cons]
        omega

/-- Key prefix-transfer lemma: when the replacement's first character
avoids the character set `P`, a nonempty `P`-word that is a prefix of
`replaceAll s` is already a prefix of `s`. -/
theorem pre_thru_replace {pat rep P : List Char} (hr : rep ≠ [])
    (hH : ∀ cc, rep.head? = some cc → cc ∉ P) :
    ∀ n s q, s.length ≤ n → q ≠ [] → (∀ cc ∈ q, cc ∈ P) →
      q.isPrefixOf (replaceAll s pat rep) = true → q.isPrefixOf s = true := by
  intro n
  induction n with
  | zero =>
    intro s q hs hq _ hpre
    have : s = [] := List.eq_nil_of_length_eq_zero (by omega)
    subst this
    rw [replaceAll_nil] at hpre
    cases q with
    | nil => exact absurd rfl hq
    | cons a b => simp [List.isPrefixOf] at hpre
  | succ n ih =>
    intro s q hs hq hmem hpre
    cases s with
    | nil =>
      rw [replaceAll_nil] at hpre
      cases q with
      | nil => exact absurd rfl hq
      | cons a b => simp [List.isPrefixOf] at hpre
    | cons c t =>
      by_cases hc : pat.isPrefixOf (c :: t) = true ∧ pat ≠ []
      · rw [replaceAll_cons_pos rep hc.1 hc.2] at hpre
        cases q with
        | nil => exact absurd rfl hq
        | cons qh qt =>
          cases hrep : rep with
          | nil => exact absurd hrep hr
          | cons rh rt =>
            rw [hrep] at hpre
            simp only [List.cons_append, List.isPrefixOf, Bool.and_eq_true,
              beq_iff_eq] at hpre
            have hqh : qh ∈ P := hmem qh (List.mem_cons_self _ _)
            have : rh ∉ P := hH rh (by rw [hrep]; rfl)
            rw [hpre.1] at hqh
            exact absurd hqh this
      · rw [replaceAll_cons_neg rep hc] at hpre
        cases q with
        | nil => exact absurd rfl hq
        | cons qh qt =>
          simp only [List.isPrefixOf, Bool.and_eq_true, beq_iff_eq] at hpre ⊢
          obtain ⟨rfl, hpre2⟩ := hpre
          cases qt with
          | nil => exact ⟨rfl, by simp [List.isPrefixOf]⟩
          | cons a b =>
            refine ⟨rfl, ?_⟩
            exact ih t (a :: b) (by simp only [List.length_cons] at hs; omega)
              (by simp) (fun cc hcc => hmem cc (List.mem_cons_of_mem _ hcc)) hpre2

/-- Splitting a prefix of an append. -/
theorem pre_append_split :
    ∀ {a : List Char} {pat b r : List Char}, a ++ b = pat ++ r →
      (∃ r2, a = pat ++ r2) ∨ (∃ q2 r3, pat = a ++ q2 ∧ b = q2 ++ r3) := by
  intro a
  induction a with
  | nil =>
    intro pat b r h
    exact Or.inr ⟨pat, r, rfl, by simpa using h⟩
  | cons c a2 ih =>
    intro pat b r h
    cases pat with
    | nil => exact Or.inl ⟨c :: a2, by simp⟩
    | cons pc pt =>
      simp only [List.cons_append] at h
      injection h with h1 h2
      subst h1
      rcases ih h2 with ⟨r2, hr2⟩ | ⟨q2, r3, hq, hb⟩
      · exact Or.inl ⟨r2, by simp [hr2]⟩
      · exact Or.inr ⟨q2, r3, by simp [hq], hb⟩

/-- Splitting an occurrence in an append: inside the left part, inside
the right part, or straddling the seam. -/
theorem hasOcc_append :
    ∀ {a : List Char} {pat b : List Char}, HasOcc pat (a ++ b) →
      HasOcc pat a ∨ HasOcc pat b ∨
        ∃ q1 q2, pat = q1 ++ q2 ∧ q1 ≠ [] ∧ q2 ≠ [] ∧
          (∃ l, a = l ++ q1) ∧ (∃ r, b = q2 ++ r) := by
  intro a
  induction a with
  | nil =>
    intro pat b h
    exact Or.inr (Or.inl (by simpa using h))
  | cons c a2 ih =>
    intro pat b h
    obtain ⟨l, r, hl⟩ := h
    cases l with
    | nil =>
      simp only [List.nil_append, List.cons_append] at hl
      have hsplit : (c :: a2) ++ b = pat ++ r := by
        simpa [List.cons_append] using hl
      rcases pre_append_split hsplit with ⟨r2, hr2⟩ | ⟨q2, r3, hq, hb⟩
      · exact Or.inl ⟨[], r2, by simpa using hr2⟩
      · cases q2 with
        | nil => exact Or.inl ⟨[], [], by simp [hq]⟩
        | cons z zs =>
          exact Or.inr (Or.inr ⟨c :: a2, z :: zs, hq, by simp, by simp,
            ⟨[], by simp⟩, ⟨r3, hb⟩⟩)
    | cons x l2 =>
      simp only [List.cons_append] at hl
      injection hl with h1 h2
      subst h1
      rcases ih ⟨l2, r, h2⟩ with ha | hb2 | ⟨q1, q2, hq, h1', h2', ⟨l3, hl3⟩, hrr⟩
      · obtain ⟨u, v, huv⟩ := ha
        exact Or.inl ⟨c :: u, v, by simp [huv]⟩
      · exact Or.inr (Or.inl hb2)
      · exact Or.inr (Or.inr ⟨q1, q2, hq, h1', h2', ⟨c :: l3, by simp [hl3]⟩, hrr⟩)

/-- Elimination: when the replacement cannot splice with its
surroundings into a new occurrence of the pattern — both its border
characters lie outside the pattern, and the pattern does not occur in
it — the output of `replaceAll` contains no occurrence of the pattern
at all. -/
theorem no_occ_replace {pat rep : List Char} (hp : pat ≠ []) (hr : rep ≠ [])
    (hH : ∀ cc, rep.head? = some cc → cc ∉ pat)
    (hL : ∀ cc, rep.getLast? = some cc → cc ∉ pat)
    (hR : ¬ HasOcc pat rep) :
    ∀ n s, s.length ≤ n → ¬ HasOcc pat (replaceAll s pat rep) := by
  intro n
  induction n with
  | zero =>
    intro s hs hocc
    have : s = [] := List.eq_nil_of_length_eq_zero (by omega)
    subst this
    rw [replaceAll_nil] at hocc
    obtain ⟨l, r, h⟩ := hocc
    have := congrArg List.length h
    simp at this
    exact hp (List.eq_nil_of_length_eq_zero (by omega))
  | succ n ih =>
    intro s hs hocc
    cases s with
    | nil =>
      rw [replaceAll_nil] at hocc
      obtain ⟨l, r, h⟩ := hocc
      have := congrArg List.length h
      simp at this
      exact hp (List.eq_nil_of_length_eq_zero (by omega))
    | cons c t =>
      by_cases hc : pat.isPrefixOf (c :: t) = true ∧ pat ≠ []
      · rw [replaceAll_cons_pos rep hc.1 hc.2] at hocc
        rcases hasOcc_append hocc with hrep | hrest | ⟨q1, q2, hq, hq1, hq2, ⟨l, hl⟩, -⟩
        · exact hR hrep
        · obtain ⟨rp, hrp⟩ := (pre_iff pat (c :: t)).mp hc.1
          have hlen : ((c :: t).drop pat.length).length ≤ n := by
            have hp0 : 0 < pat.length := List.length_pos.mpr hp
            simp only [List.length_drop, List.length_cons]
            simp only [List.length_cons] at hs
            omega
          exact ih _ hlen hrest
        · cases hql : q1.getLast? with
          | none =>
            cases q1 with
            | nil => exact hq1 rfl
            | cons z zs => rw [List.getLast?_eq_getLast _ (by simp)] at hql; cases hql
          | some cc =>
            have hmemq : cc ∈ q1 := getLast?_mem hql
            have hcc_pat : cc ∈ pat := by
              rw [hq]; exact List.mem_append_left _ hmemq
            have : rep.getLast? = some cc := by
              rw [hl, getLast?_app hq1, hql]
            exact hL cc this hcc_pat
      · rw [replaceAll_cons_neg rep hc] at hocc
        have hnp : pat.isPrefixOf (c :: t) = false := by
          cases hb : pat.isPrefixOf (c :: t) with
          | false => rfl
          | true => exact absurd ⟨hb, hp⟩ hc
        obtain ⟨l, r, hl⟩ := hocc
        cases l with
        | nil =>
          simp only [List.nil_append] at hl
          set RT := replaceAll t pat rep with hRT
          cases hpat : pat with
          | nil => exact hp hpat
          | cons pc pt =>
            rw [hpat] at hl
            simp only [List.cons_append] at hl
            injection hl with h1 h2
            subst h1
            cases pt with
            | nil =>
              rw [hpat] at hnp
              simp [List.isPrefixOf] at hnp
            | cons a b =>
              have hpre : (a :: b).isPrefixOf RT = true :=
                (pre_iff _ _).mpr ⟨r, h2⟩
              rw [hRT] at hpre
              have hpre_t : (a :: b).isPrefixOf t = true :=
                pre_thru_replace hr hH
                  t.length t (a :: b) le_rfl (by simp)
                  (fun cc hcc => by rw [hpat]; exact List.mem_cons_of_mem _ hcc) hpre
              rw [hpat] at hnp
              simp only [List.isPrefixOf, Bool.and_eq_true, beq_iff_eq] at hnp
              rw [hpre_t] at hnp
              simp at hnp
        | cons x l2 =>
          simp only [List.cons_append] at hl
          injection hl with h1 h2
          exact ih t (by simp only [List.length_cons] at hs; omega) ⟨l2, r, h2⟩

/-- Preservation: replacing one pattern cannot create an occurrence of
another pattern `pat2`, provided `pat2` does not occur in the text, in
the replacement, or across the replacement's borders. -/
theorem no_occ_replace_other {pat rep pat2 : List Char} (hp : pat ≠ [])
    (hp2 : pat2 ≠ []) (hr : rep ≠ [])
    (hH : ∀ cc, rep.head? = some cc → cc ∉ pat2)
    (hL : ∀ cc, rep.getLast? = some cc → cc ∉ pat2)
    (hR : ¬ HasOcc pat2 rep) :
    ∀ n s, s.length ≤ n → ¬ HasOcc pat2 s → ¬ HasOcc pat2 (replaceAll s pat rep) := by
  intro n
  induction n with
  | zero =>
    intro s hs hno hocc
    have : s = [] := List.eq_nil_of_length_eq_zero (by omega)
    subst this
    rw [replaceAll_nil] at hocc
    exact hno hocc
  | succ n ih =>
    intro s hs hno hocc
    cases s with
    | nil =>
      rw [replaceAll_nil] at hocc
      exact hno hocc
    | cons c t =>
      by_cases hc : pat.isPrefixOf (c :: t) = true ∧ pat ≠ []
      · rw [replaceAll_cons_pos rep hc.1 hc.2] at hocc
        rcases hasOcc_append hocc with hrep | hrest | ⟨q1, q2, hq, hq1, hq2, ⟨l, hl⟩, -⟩
        · exact hR hrep
        · have hlen : ((c :: t).drop pat.length).length ≤ n := by
            have hp0 : 0 < pat.length := List.length_pos.mpr hp
            simp only [List.length_drop, List.length_cons]
            simp only [List.length_cons] at hs
            omega
          have hnodrop : ¬ HasOcc pat2 ((c :: t).drop pat.length) :=
            fun hx => hno (hasOcc_drop hx)
          exact ih _ hlen hnodrop hrest
        · cases hql : q1.getLast? with
          | none =>
            cases q1 with
            | nil => exact hq1 rfl
            | cons z zs => rw [List.getLast?_eq_getLast _ (by simp)] at hql; cases hql
          | some cc =>
            have hcc_pat : cc ∈ pat2 := by
              rw [hq]; exact List.mem_append_left _ (getLast?_mem hql)
            have : rep.getLast? = some cc := by
              rw [hl, getLast?_app hq1, hql]
            exact hL cc this hcc_pat
      · rw [replaceAll_cons_neg rep hc] at hocc
        obtain ⟨l, r, hl⟩ := hocc
        cases l with
        | nil =>
          simp only [List.nil_append] at hl
          cases hpat : pat2 with
          | nil => exact hp2 hpat
          | cons pc pt =>
            rw [hpat] at hl
            simp only [List.cons_append] at hl
            injection hl with h1 h2
            subst h1
            cases pt with
            | nil =>
              exact hno ⟨[], t, by rw [hpat]; rfl⟩
            | cons a b =>
              have hpre : (a :: b).isPrefixOf (replaceAll t pat rep) = true :=
                (pre_iff _ _).mpr ⟨r, h2⟩
              have hpre_t : (a :: b).isPrefixOf t = true :=
                pre_thru_replace hr hH
                  t.length t (a :: b) le_rfl (by simp)
                  (fun cc hcc => by rw [hpat]; exact List.mem_cons_of_mem _ hcc) hpre
              obtain ⟨r2, hr2⟩ := (pre_iff _ _).mp hpre_t
              exact hno ⟨[], r2, by rw [hpat, hr2]; rfl⟩
        | cons x l2 =>
          simp only [List.cons_append] at hl
          injection hl with h1 h2
          exact ih t (by simp only [List.length_cons] at hs; omega)
            (fun hx => hno (hasOcc_cons_tail hx)) ⟨l2, r, h2⟩

/-- The collapse loop reaches a text with no three-newline run. -/
theorem collapse_no_occ : ∀ f s, s.length ≤ f →
    occursB nl3 (collapseGo f s) = false := by
  intro f
  induction f with
  | zero =>
    intro s hs
    have : s = [] := List.eq_nil_of_length_eq_zero (by omega)
    subst this
    simp [collapseGo, occursB, nl3]
  | succ f ih =>
    intro s hs
    by_cases h : occursB nl3 s = true
    · rw [show collapseGo (f + 1) s = collapseGo f (replaceAll s nl3 nl2) from by
        simp [collapseGo, h]]
      exact ih _ (by
        have := replaceAll_len_lt nl3 nl2 (by decide) (by decide)
          s.length s le_rfl h
        omega)
    · rw [show collapseGo (f + 1) s = s from by
        simp [collapseGo, h]]
      simpa using h

/-- A text with no three-newline run is a fixed point of the collapse
loop. -/
theorem collapse_id {s : List Char} (h : occursB nl3 s = false) :
    ∀ f, collapseGo f s = s := by
  intro f
  cases f with
  | zero => rfl
  | succ f => simp [collapseGo, h]

/-- The collapse loop preserves the absence of a pattern whose
characters are not newlines. -/
theorem collapse_pres {pat2 : List Char} (hp2 : pat2 ≠ [])
    (hH : ('\n' : Char) ∉ pat2) (hR : ¬ HasOcc pat2 nl2) :
    ∀ f s, ¬ HasOcc pat2 s → ¬ HasOcc pat2 (collapseGo f s) := by
  intro f
  induction f with
  | zero => intro s h; exact h
  | succ f ih =>
    intro s h
    by_cases hx : occursB nl3 s = true
    · rw [show collapseGo (f + 1) s = collapseGo f (replaceAll s nl3 nl2) from by
        simp [collapseGo, hx]]
      refine ih _ ?_
      exact no_occ_replace_other (by decide) hp2 (by decide)
        (fun cc hcc => by
          have : cc = '\n' := by
            have : nl2.head? = some '\n' := rfl
            rw [this] at hcc; injection hcc with h1; exact h1.symm
          rw [this]; exact hH)
        (fun cc hcc => by
          have : cc = '\n' := by
            have : nl2.getLast? = some '\n' := rfl
            rw [this] at hcc; injection hcc with h1; exact h1.symm
          rw [this]; exact hH)
        hR s.length s le_rfl h
    · rw [show collapseGo (f + 1) s = s from by simp [collapseGo, hx]]
      exact h

/-- The head of a `dropWhile` residue fails the predicate. -/
theorem dw_head {p : Char → Bool} :
    ∀ {l : List Char} {x : Char}, (l.dropWhile p).head? = some x → p x = false := by
  intro l
  induction l with
  | nil => intro x h; simp [List.dropWhile] at h
  | cons c t ih =>
    intro x h
    by_cases hc : p c = true
    · rw [List.dropWhile_cons, if_pos hc] at h
      exact ih h
    · rw [List.dropWhile_cons, if_neg hc] at h
      injection h with h1
      rw [← h1]
      simpa using hc

/-- `dropWhile` leaves a list whose head fails the predicate alone. -/
theorem dw_eq_self {p : Char → Bool} {l : List Char}
    (h : ∀ x, l.head? = some x → p x = false) : l.dropWhile p = l := by
  cases l with
  | nil => rfl
  | cons c t =>
    rw [List.dropWhile_cons, if_neg]
    simp [h c rfl]

/-- `dropWhile` is idempotent. -/
theorem dw_idem (p : Char → Bool) (l : List Char) :
    (l.dropWhile p).dropWhile p = l.dropWhile p :=
  dw_eq_self fun _ hx => dw_head hx

/-- The `dropWhile` residue is a suffix. -/
theorem dw_suffix (p : Char → Bool) :
    ∀ l : List Char, ∃ t, l = t ++ l.dropWhile p := by
  intro l
  induction l with
  | nil => exact ⟨[], rfl⟩
  | cons c t ih =>
    by_cases hc : p c = true
    · rw [List.dropWhile_cons, if_pos hc]
      obtain ⟨u, hu⟩ := ih
      exact ⟨c :: u, by rw [List.cons_append, ← hu]⟩
    · rw [List.dropWhile_cons, if_neg hc]
      exact ⟨[], rfl⟩

/-- The stripped text is a prefix of the lead-trimmed text. -/
theorem stripL_pre (s : List Char) :
    ∃ r, s.dropWhile isPyWs = pyStripL s ++ r := by
  obtain ⟨u, hu⟩ := dw_suffix isPyWs (s.dropWhile isPyWs).reverse
  refine ⟨u.reverse, ?_⟩
  conv_lhs => rw [← List.reverse_reverse (s.dropWhile isPyWs)]
  rw [hu]
  simp [pyStripL]

/-- The stripped text sits inside the original. -/
theorem pyStripL_within (s : List Char) :
    ∃ l r, s = l ++ pyStripL s ++ r := by
  obtain ⟨t, ht⟩ := dw_suffix isPyWs s
  obtain ⟨r, hr⟩ := stripL_pre s
  refine ⟨t, r, ?_⟩
  conv_lhs => rw [ht, hr]
  rw [List.append_assoc]

/-- Python `strip` is idempotent. -/
theorem pyStripL_idem (s : List Char) : pyStripL (pyStripL s) = pyStripL s := by
  have step1 : (pyStripL s).dropWhile isPyWs = pyStripL s := by
    apply dw_eq_self
    intro x hx
    have hBne : pyStripL s ≠ [] := by
      intro h
      rw [h] at hx
      cases hx
    obtain ⟨r, hAr⟩ := stripL_pre s
    have hhd : (s.dropWhile isPyWs).head? = some x := by
      rw [hAr, head?_app hBne]
      exact hx
    exact dw_head hhd
  have step2 : (pyStripL s).reverse.dropWhile isPyWs = (pyStripL s).reverse := by
    rw [show (pyStripL s).reverse = (s.dropWhile isPyWs).reverse.dropWhile isPyWs from by
      simp [pyStripL]]
    exact dw_idem _ _
  show ((((pyStripL s).dropWhile isPyWs).reverse).dropWhile isPyWs).reverse = pyStripL s
  rw [step1, step2, List.reverse_reverse]

/-- A text that the script-tag replacements, the newline collapse and
the outer trim all leave alone is a fixed point of `sanitize_output`. -/
theorem sanitize_fix (q : List Char)
    (h1 : occursB "<script>".data q = false)
    (h2 : occursB "</script>".data q = false)
    (h3 : occursB nl3 q = false)
    (h4 : pyStripL q = q) :
    sanitize_output q.asString = q.asString := by
  unfold sanitize_output
  dsimp only
  rw [show (q.asString).data = q from rfl]
  rw [replaceAll_of_not_occurs _ q h1, replaceAll_of_not_occurs _ q h2,
    collapse_id h3, h4]

/-- The output of `sanitize_output` satisfies all four fixed-point
conditions. -/
theorem sanitize_output_props (x : String) :
    occursB "<script>".data (sanitize_output x).data = false ∧
    occursB "</script>".data (sanitize_output x).data = false ∧
    occursB nl3 (sanitize_output x).data = false ∧
    pyStripL (sanitize_output x).data = (sanitize_output x).data := by
  have hH1 : ∀ cc, ("[script]".data).head? = some cc → cc ∉ "<script>".data := by
    intro cc h; injection h with h1; rw [← h1]; decide
  have hL1 : ∀ cc, ("[script]".data).getLast? = some cc → cc ∉ "<script>".data := by
    intro cc h
    rw [show ("[script]".data).getLast? = some ']' from rfl] at h
    injection h with h1; rw [← h1]; decide
  have hH1b : ∀ cc, ("[/script]".data).head? = some cc → cc ∉ "<script>".data := by
    intro cc h; injection h with h1; rw [← h1]; decide
  have hL1b : ∀ cc, ("[/script]".data).getLast? = some cc → cc ∉ "<script>".data := by
    intro cc h
    rw [show ("[/script]".data).getLast? = some ']' from rfl] at h
    injection h with h1; rw [← h1]; decide
  have hH2 : ∀ cc, ("[/script]".data).head? = some cc → cc ∉ "</script>".data := by
    intro cc h; injection h with h1; rw [← h1]; decide
  have hL2 : ∀ cc, ("[/script]".data).getLast? = some cc → cc ∉ "</script>".data := by
    intro cc h
    rw [show ("[/script]".data).getLast? = some ']' from rfl] at h
    injection h with h1; rw [← h1]; decide
  have hR1 : ¬ HasOcc "<script>".data "[script]".data := by
    rw [← occursB_iff]; decide
  have hR1b : ¬ HasOcc "<script>".data "[/script]".data := by
    rw [← occursB_iff]; decide
  have hR2 : ¬ HasOcc "</script>".data "[/script]".data := by
    rw [← occursB_iff]; decide
  have hRn1 : ¬ HasOcc "<script>".data nl2 := by
    rw [← occursB_iff]; decide
  have hRn2 : ¬ HasOcc "</script>".data nl2 := by
    rw [← occursB_iff]; decide
  set c1 := replaceAll x.data "<script>".data "[script]".data with hc1
  set c2 := replaceAll c1 "</script>".data "[/script]".data with hc2
  set c3 := collapseGo c2.length c2 with hc3
  have hqdata : (sanitize_output x).data = pyStripL c3 := rfl
  have n1 : ¬ HasOcc "<script>".data c1 :=
    no_occ_replace (by decide) (by decide) hH1 hL1 hR1 x.data.length x.data le_rfl
  have n2 : ¬ HasOcc "<script>".data c2 :=
    no_occ_replace_other (by decide) (by decide) (by decide) hH1b hL1b hR1b
      c1.length c1 le_rfl n1
  have m2 : ¬ HasOcc "</script>".data c2 :=
    no_occ_replace (by decide) (by decide) hH2 hL2 hR2 c1.length c1 le_rfl
  have n3 : ¬ HasOcc "<script>".data c3 :=
    collapse_pres (by decide) (by decide) hRn1 c2.length c2 n2
  have m3 : ¬ HasOcc "</script>".data c3 :=
    collapse_pres (by decide) (by decide) hRn2 c2.length c2 m2
  have k3 : occursB nl3 c3 = false := collapse_no_occ c2.length c2 le_rfl
  obtain ⟨li, ri, hinf⟩ := pyStripL_within c3
  refine ⟨?_, ?_, ?_, ?_⟩
  · rw [hqdata]
    cases hb : occursB "<script>".data (pyStripL c3) with
    | false => rfl
    | true => exact absurd (hasOcc_within ((occursB_iff _ _).mp hb) hinf) n3
  · rw [hqdata]
    cases hb : occursB "</script>".data (pyStripL c3) with
    | false => rfl
    | true => exact absurd (hasOcc_within ((occursB_iff _ _).mp hb) hinf) m3
  · rw [hqdata]
    cases hb : occursB nl3 (pyStripL c3) with
    | false => rfl
    | true =>
      have := hasOcc_within ((occursB_iff _ _).mp hb) hinf
      rw [← occursB_iff, k3] at this
      cases this
  · rw [hqdata]
    exact pyStripL_idem c3

/-- Claim C8 (confirmed): `sanitize_output` is idempotent — for every
string `x`, `sanitize_output (sanitize_output x) = sanitize_output x`:
the script-tag replacements cannot recreate a tag (the brackets of the
replacement never splice into one), the collapse loop exits only at a
text with no three-newline run, and the trim is idempotent. -/
theorem C8_sanitize_output_idempotent (x : String) :
    sanitize_output (sanitize_output x) = sanitize_output x := by
  obtain ⟨h1, h2, h3, h4⟩ := sanitize_output_props x
  have := sanitize_fix (sanitize_output x).data h1 h2 h3 h4
  rwa [asString_data] at this

end NovaCRM
